import Mathlib

/-!
# A verification development for the assignment-language interpreter

The program (`project.cpp`) has two passes.  `Tokenizer::tokenize` turns the
source text into a vector of tokens closed by an `END` token, and
`Parser::program` walks that vector by recursive descent, evaluating each
expression while it is recognised, storing the value of every assignment in
the symbol table and printing one line per assignment.

The embedding below follows the source function by function.

* `exit(1)` (the two `error` members) and an uncaught C++ exception both end
  the process; they are modelled as an error result that records the cursor
  at the moment the process stops.
* The loops and the recursion of the source are modelled by recursion on a
  fuel argument.  A result `fuel` means that the model ran out of fuel; it is
  not a behaviour of the program.
* `int` is a 32-bit two's complement integer: arithmetic is done in `Int` and
  reduced by `wrap`.
* Standard output is the list of the lines written by `Parser::assignment`,
  each kept as the pair (identifier, value) it is printed from; `OutLine.text`
  is the text of the line.  The timing report that `main` prints around the
  run is outside the model.
-/

namespace Interp

/-! ## Tokens -/

/-- The token kinds, the constants `Token::IDENTIFIER` … `Token::END`. -/
inductive TokenType where
  | IDENTIFIER
  | INT_LITERAL
  | OPERATOR
  | PUNCTUATION
  | LEFT_PARENTHESIS
  | RIGHT_PARENTHESIS
  | END
  deriving DecidableEq, Repr

/-- The class `Token`: a kind and the lexeme. -/
structure Token where
  type : TokenType
  lexeme : String
  deriving DecidableEq, Repr

/-! ## Character classes (`<cctype>` in the "C" locale) -/

/-- The function `isdigit`. -/
def isdigit (c : Char) : Bool := decide ('0' ≤ c) && decide (c ≤ '9')

/-- The function `isalpha`. -/
def isalpha (c : Char) : Bool :=
  (decide ('a' ≤ c) && decide (c ≤ 'z')) || (decide ('A' ≤ c) && decide (c ≤ 'Z'))

/-- The function `isalnum`. -/
def isalnum (c : Char) : Bool := isalpha c || isdigit c

/-- The function `isspace`: space, `\t`, `\n`, `\v`, `\f`, `\r`. -/
def isspace (c : Char) : Bool :=
  c = ' ' || c = '\t' || c = '\n' || c = Char.ofNat 11 || c = Char.ofNat 12 || c = '\r'

/-! ## The tokenizer -/

/-- The characters an identifier continues with:
`isalnum(c) || c == '_'`. -/
def isIdChar (c : Char) : Bool := isalnum c || c = '_'

/-- The characters an identifier starts with: `isalpha(c) || c == '_'`. -/
def isIdStart (c : Char) : Bool := isalpha c || c = '_'

/-- The two ways `Tokenizer::error` is reached. -/
inductive LexError where
  | invalidIntegerLiteral
  | unrecognizedSymbol
  deriving DecidableEq, Repr

/-- Result of `Tokenizer::tokenize`: the token vector, or the error with the
index of the offending character. -/
inductive LexResult where
  | ok (tokens : List Token)
  | error (e : LexError) (index : Nat)
  | fuel
  deriving DecidableEq, Repr

namespace Tokenizer

/-- The `for (;;)` loop shared by `addIntLiteral` and `addIdentifier`:
starting at `index`, with `rest` the characters of the string from `index`
on, advance while the current character satisfies `p`; the result is the
index at which the loop breaks. -/
def readWhile (p : Char → Bool) : List Char → Nat → Nat
  | [], index => index
  | c :: rest, index => if !p c then index else readWhile p rest (index + 1)

/-- The expression `str->substr(start, len)`. -/
def substr (str : List Char) (start len : Nat) : String :=
  String.mk ((str.drop start).take len)

/-- The member `addIntLiteral`: returns the new token vector and index. -/
def addIntLiteral (str : List Char) (index : Nat) (tokens : List Token) :
    List Token × Nat :=
  let start := index
  let index := readWhile isdigit (str.drop start) start
  (tokens ++ [⟨.INT_LITERAL, substr str start (index - start)⟩], index)

/-- The member `addIdentifier`: returns the new token vector and index. -/
def addIdentifier (str : List Char) (index : Nat) (tokens : List Token) :
    List Token × Nat :=
  let start := index
  let index := readWhile isIdChar (str.drop start) start
  (tokens ++ [⟨.IDENTIFIER, substr str start (index - start)⟩], index)

/-- The loop of the private member `tokenize`, one iteration per unit of
fuel. -/
def loop (str : List Char) : Nat → Nat → List Token → LexResult
  | 0, _, _ => .fuel
  | fuel + 1, index, tokens =>
    match str[index]? with
    | none => .ok (tokens ++ [⟨.END, "$"⟩])
    | some c =>
      if c = '0' then
        if decide (index < str.length - 1) &&
            (match str[index + 1]? with
              | some d => isdigit d
              | none => false) then
          .error .invalidIntegerLiteral index
        else loop str fuel (index + 1) (tokens ++ [⟨.INT_LITERAL, "0"⟩])
      else if isdigit c then
        let r := addIntLiteral str index tokens
        loop str fuel r.2 r.1
      else if isIdStart c then
        let r := addIdentifier str index tokens
        loop str fuel r.2 r.1
      else if c = '=' then loop str fuel (index + 1) (tokens ++ [⟨.OPERATOR, "="⟩])
      else if c = '+' then loop str fuel (index + 1) (tokens ++ [⟨.OPERATOR, "+"⟩])
      else if c = '-' then loop str fuel (index + 1) (tokens ++ [⟨.OPERATOR, "-"⟩])
      else if c = '*' then loop str fuel (index + 1) (tokens ++ [⟨.OPERATOR, "*"⟩])
      else if c = '(' then
        loop str fuel (index + 1) (tokens ++ [⟨.LEFT_PARENTHESIS, "("⟩])
      else if c = ')' then
        loop str fuel (index + 1) (tokens ++ [⟨.RIGHT_PARENTHESIS, ")"⟩])
      else if c = ';' then loop str fuel (index + 1) (tokens ++ [⟨.PUNCTUATION, ";"⟩])
      else if isspace c then loop str fuel (index + 1) tokens
      else .error .unrecognizedSymbol index

/-- The private member `tokenize` on the string `str`, from index 0 and an
empty token vector.  Every iteration that does not stop advances the index,
so `str.length + 1` iterations are enough (`tokenize_ne_fuel`). -/
def tokenize (str : List Char) : LexResult :=
  loop str (str.length + 1) 0 []

end Tokenizer

/-! ## The symbol table and the output -/

/-- The map `std::map<std::string, int>`, as an association list with unique
keys. -/
abbrev SymTab := List (String × Int)

namespace SymTab

/-- The lookup `symbol_table->find(name)`. -/
def find (t : SymTab) (name : String) : Option Int := List.lookup name t

/-- The store `(*symbol_table)[name] = value`. -/
def set : SymTab → String → Int → SymTab
  | [], name, value => [(name, value)]
  | (k, v) :: rest, name, value =>
    if k = name then (name, value) :: rest else (k, v) :: set rest name value

end SymTab

/-- One line written by `assignment`: the identifier and the value. -/
structure OutLine where
  name : String
  value : Int
  deriving DecidableEq, Repr

/-- The text of the line: `identifier.lexeme << " = " << value`. -/
def OutLine.text (l : OutLine) : String := l.name ++ " = " ++ toString l.value

/-! ## Machine integers -/

/-- Reduction of an integer to the 32-bit two's complement range. -/
def wrap (z : Int) : Int := (z + 2147483648) % 4294967296 - 2147483648

/-- The range of `int`. -/
def InInt32 (z : Int) : Prop := -2147483648 ≤ z ∧ z ≤ 2147483647

instance (z : Int) : Decidable (InInt32 z) := by unfold InInt32; infer_instance

/-! ## The parser -/

/-- The ways the parser stops the process: the six calls of `Parser::error`,
and the three uncaught exceptions (`tokens->at` past the end, and the two
exceptions of `std::stoi`). -/
inductive ParseError where
  | expectedIdentifier
  | expectedAssign
  | expectedSemicolon
  | mismatchParenthesis
  | symbolNotDefined (name : String)
  | syntaxError
  | tokenOutOfRange
  | stoiInvalidArgument
  | stoiOutOfRange
  deriving DecidableEq, Repr

/-- Value of a run of decimal digits, most significant first. -/
def digitsValue (ds : List Char) : Nat :=
  ds.foldl (fun acc c => acc * 10 + (c.toNat - 48)) 0

/-- The optional sign read by `std::stoi`: whether it is a minus, and the
characters after it. -/
def stoiSign : List Char → Bool × List Char
  | '-' :: r => (true, r)
  | '+' :: r => (false, r)
  | cs => (false, cs)

/-- The library function `std::stoi(s)` (base 10): skip leading white space,
read an optional sign and the longest run of digits, ignore what follows;
`invalid_argument` when there is no digit, `out_of_range` when the value is
not an `int`. -/
def stoi (s : String) : Except ParseError Int :=
  let signed := stoiSign (s.data.dropWhile isspace)
  let ds := signed.2.takeWhile isdigit
  if ds = [] then .error .stoiInvalidArgument
  else
    let n : Int := digitsValue ds
    let v : Int := if signed.1 then -n else n
    if v < -2147483648 ∨ 2147483647 < v then .error .stoiOutOfRange else .ok v

/-- Result of an expression routine: the value and the cursor after it, or
the error and the cursor at which the process stops. -/
inductive Eval where
  | val (value : Int) (index : Nat)
  | err (e : ParseError) (index : Nat)
  | fuel
  deriving DecidableEq, Repr

namespace Parser

mutual

/-- The member `exp`. -/
def exp (tokens : List Token) (symbol_table : SymTab) : Nat → Nat → Eval
  | 0, _ => .fuel
  | fuel + 1, index =>
    match term tokens symbol_table fuel index with
    | .val value index => expPrime tokens symbol_table fuel value index
    | r => r
termination_by structural fuel => fuel

/-- The member `expPrime`. -/
def expPrime (tokens : List Token) (symbol_table : SymTab) : Nat → Int → Nat → Eval
  | 0, _, _ => .fuel
  | fuel + 1, accumulated_value, index =>
    match tokens[index]? with
    | none => .err .tokenOutOfRange index
    | some tok =>
      if tok.lexeme = "+" then
        match term tokens symbol_table fuel (index + 1) with
        | .val value index =>
          expPrime tokens symbol_table fuel (wrap (accumulated_value + value)) index
        | r => r
      else if tok.lexeme = "-" then
        match term tokens symbol_table fuel (index + 1) with
        | .val value index =>
          expPrime tokens symbol_table fuel (wrap (accumulated_value - value)) index
        | r => r
      else .val accumulated_value index
termination_by structural fuel => fuel

/-- The member `term`. -/
def term (tokens : List Token) (symbol_table : SymTab) : Nat → Nat → Eval
  | 0, _ => .fuel
  | fuel + 1, index =>
    match fact tokens symbol_table fuel index with
    | .val value index => termPrime tokens symbol_table fuel value index
    | r => r
termination_by structural fuel => fuel

/-- The member `termPrime`. -/
def termPrime (tokens : List Token) (symbol_table : SymTab) : Nat → Int → Nat → Eval
  | 0, _, _ => .fuel
  | fuel + 1, accumulated_value, index =>
    match tokens[index]? with
    | none => .err .tokenOutOfRange index
    | some tok =>
      if tok.lexeme = "*" then
        match fact tokens symbol_table fuel (index + 1) with
        | .val value index =>
          termPrime tokens symbol_table fuel (wrap (accumulated_value * value)) index
        | r => r
      else .val accumulated_value index
termination_by structural fuel => fuel

/-- The member `fact`. -/
def fact (tokens : List Token) (symbol_table : SymTab) : Nat → Nat → Eval
  | 0, _ => .fuel
  | fuel + 1, index =>
    match tokens[index]? with
    | none => .err .tokenOutOfRange index
    | some tok =>
      if tok.lexeme = "(" then
        match exp tokens symbol_table fuel (index + 1) with
        | .val value index =>
          match tokens[index]? with
          | none => .err .tokenOutOfRange index
          | some close =>
            if close.lexeme ≠ ")" then .err .mismatchParenthesis index
            else .val value (index + 1)
        | r => r
      else if tok.lexeme = "+" then
        exp tokens symbol_table fuel (index + 1)
      else if tok.lexeme = "-" then
        match exp tokens symbol_table fuel (index + 1) with
        | .val value index => .val (wrap (-value)) index
        | r => r
      else if tok.type = .INT_LITERAL then
        match stoi tok.lexeme with
        | .ok value => .val value (index + 1)
        | .error e => .err e (index + 1)
      else if tok.type = .IDENTIFIER then
        match symbol_table.find tok.lexeme with
        | none => .err (.symbolNotDefined tok.lexeme) (index + 1)
        | some value => .val value (index + 1)
      else .err .syntaxError index
termination_by structural fuel => fuel
end

end Parser

/-- The state of a run of the parser: the cursor, the symbol table and the
lines written so far. -/
structure State where
  index : Nat
  symbol_table : SymTab
  out : List OutLine
  deriving DecidableEq, Repr

/-- Result of `program` and `assignment`: the state reached, or the error and
the state in which the process stops. -/
inductive Run where
  | done (s : State)
  | failed (e : ParseError) (s : State)
  | fuel
  deriving DecidableEq, Repr

namespace Parser

/-- The member `assignment`; `fuel` is handed to `exp`. -/
def assignment (tokens : List Token) (fuel : Nat) (s : State) : Run :=
  match tokens[s.index]? with
  | none => .failed .tokenOutOfRange s
  | some identifier =>
    if identifier.type ≠ .IDENTIFIER then .failed .expectedIdentifier s
    else
      match tokens[s.index + 1]? with
      | none => .failed .tokenOutOfRange { s with index := s.index + 1 }
      | some eq =>
        if eq.lexeme ≠ "=" then .failed .expectedAssign { s with index := s.index + 1 }
        else
          match exp tokens s.symbol_table fuel (s.index + 2) with
          | .fuel => .fuel
          | .err e index => .failed e { s with index := index }
          | .val value index =>
            match tokens[index]? with
            | none => .failed .tokenOutOfRange { s with index := index }
            | some semi =>
              if semi.lexeme ≠ ";" then .failed .expectedSemicolon { s with index := index }
              else
                .done
                  { index := index + 1
                    symbol_table := s.symbol_table.set identifier.lexeme value
                    out := s.out ++ [⟨identifier.lexeme, value⟩] }

/-- The private member `program`. -/
def program (tokens : List Token) : Nat → State → Run
  | 0, _ => .fuel
  | fuel + 1, s =>
    match tokens[s.index]? with
    | none => .failed .tokenOutOfRange s
    | some tok =>
      if tok.type = .END then .done s
      else
        match assignment tokens fuel s with
        | .done s => program tokens fuel s
        | r => r

/-- The recursion depth that is always enough for a token vector
(`run_ne_fuel`). -/
def fuelFor (tokens : List Token) : Nat := 3 * tokens.length + 3

/-- The public `Parser::program(tokens, symbol_table)`: a parser with cursor
0 on `tokens`, working on the caller's table. -/
def run (tokens : List Token) (symbol_table : SymTab) : Run :=
  program tokens (fuelFor tokens) ⟨0, symbol_table, []⟩

end Parser

/-! ## The pipeline -/

/-- How a run of the pipeline ends. -/
inductive Status where
  | success
  | lexError (e : LexError) (index : Nat)
  | parseError (e : ParseError) (index : Nat)
  | fuel
  deriving DecidableEq, Repr

/-- What can be observed of a run: how it ended, the symbol table and the
lines on standard output. -/
structure Outcome where
  status : Status
  symbol_table : SymTab
  out : List OutLine
  deriving DecidableEq, Repr

/-- Conversion of the parser's result. -/
def Outcome.ofRun : Run → Outcome
  | .done s => ⟨.success, s.symbol_table, s.out⟩
  | .failed e s => ⟨.parseError e s.index, s.symbol_table, s.out⟩
  | .fuel => ⟨.fuel, [], []⟩

/-- Tokenize `source`, then, when that succeeded, run the parser on the
tokens with the table `symbol_table` (the two calls of `main`, which starts
from the empty table). -/
def interpretFrom (symbol_table : SymTab) (source : String) : Outcome :=
  match Tokenizer.tokenize source.data with
  | .ok tokens => Outcome.ofRun (Parser.run tokens symbol_table)
  | .error e index => ⟨.lexError e index, symbol_table, []⟩
  | .fuel => ⟨.fuel, symbol_table, []⟩

/-- The pipeline of `main`: the table starts empty. -/
def interpret (source : String) : Outcome := interpretFrom [] source

/-- The text on standard output. -/
def Outcome.printed (o : Outcome) : List String := o.out.map OutLine.text

/-! ## The scanner on the rest of the input

`Tokenizer.loop` addresses the string by index.  `lex` is the same scanner
written on the characters that remain from the index on; `loop_eq_lex` shows
that the two agree, and the properties of the tokenizer are proved on `lex`.
-/

/-- The scanner of `Tokenizer.loop` on `rest`, the characters from `index`
on. -/
def lex : List Char → Nat → List Token → LexResult
  | [], _, tokens => .ok (tokens ++ [⟨.END, "$"⟩])
  | c :: rest, index, tokens =>
    if c = '0' then
      if (match rest with
          | d :: _ => isdigit d
          | [] => false) then
        .error .invalidIntegerLiteral index
      else lex rest (index + 1) (tokens ++ [⟨.INT_LITERAL, "0"⟩])
    else if isdigit c then
      lex (rest.dropWhile isdigit) (index + (1 + (rest.takeWhile isdigit).length))
        (tokens ++ [⟨.INT_LITERAL, String.mk (c :: rest.takeWhile isdigit)⟩])
    else if isIdStart c then
      lex (rest.dropWhile isIdChar) (index + (1 + (rest.takeWhile isIdChar).length))
        (tokens ++ [⟨.IDENTIFIER, String.mk (c :: rest.takeWhile isIdChar)⟩])
    else if c = '=' then lex rest (index + 1) (tokens ++ [⟨.OPERATOR, "="⟩])
    else if c = '+' then lex rest (index + 1) (tokens ++ [⟨.OPERATOR, "+"⟩])
    else if c = '-' then lex rest (index + 1) (tokens ++ [⟨.OPERATOR, "-"⟩])
    else if c = '*' then lex rest (index + 1) (tokens ++ [⟨.OPERATOR, "*"⟩])
    else if c = '(' then lex rest (index + 1) (tokens ++ [⟨.LEFT_PARENTHESIS, "("⟩])
    else if c = ')' then lex rest (index + 1) (tokens ++ [⟨.RIGHT_PARENTHESIS, ")"⟩])
    else if c = ';' then lex rest (index + 1) (tokens ++ [⟨.PUNCTUATION, ";"⟩])
    else if isspace c then lex rest (index + 1) tokens
    else .error .unrecognizedSymbol index
termination_by l => l.length
decreasing_by
  all_goals simp_wf
  all_goals first
    | omega
    | exact Nat.lt_succ_of_le (List.dropWhile_sublist _).length_le

/-! ## The source language

The lexemes of the language (section 6 of the specification), used to state
properties of programs written with arbitrary identifiers and literals.
-/

/-- An identifier of the language: `[A-Za-z_][A-Za-z0-9_]*`. -/
def IsIdentifier (s : String) : Bool :=
  match s.data with
  | [] => false
  | c :: cs => isIdStart c && cs.all isIdChar

/-- An integer literal of the language: `0` or `[1-9][0-9]*`. -/
def IsIntLiteral (s : String) : Bool :=
  match s.data with
  | [] => false
  | c :: cs => (c = '0' && cs.isEmpty) || (isdigit c && c ≠ '0' && cs.all isdigit)

/-- The number written by a list of decimal digits given least significant
digit first. -/
def decimalRev : List Char → Nat
  | [] => 0
  | c :: cs => (c.toNat - 48) + 10 * decimalRev cs

/-- The number an integer literal denotes. -/
def litValue (s : String) : Nat := decimalRev s.data.reverse

/-! ## Statements about the five expression routines at a given fuel -/

/-- One more unit of fuel gives the same result, for the five expression
routines at once. -/
def FuelStable (tokens : List Token) (tab : SymTab) (n : Nat) : Prop :=
  (∀ i r, Parser.exp tokens tab n i = r → r ≠ .fuel → Parser.exp tokens tab (n + 1) i = r) ∧
  (∀ acc i r, Parser.expPrime tokens tab n acc i = r → r ≠ .fuel →
    Parser.expPrime tokens tab (n + 1) acc i = r) ∧
  (∀ i r, Parser.term tokens tab n i = r → r ≠ .fuel → Parser.term tokens tab (n + 1) i = r) ∧
  (∀ acc i r, Parser.termPrime tokens tab n acc i = r → r ≠ .fuel →
    Parser.termPrime tokens tab (n + 1) acc i = r) ∧
  (∀ i r, Parser.fact tokens tab n i = r → r ≠ .fuel → Parser.fact tokens tab (n + 1) i = r)


/-- A token is under the cursor `j` and its lexeme is not `*`. -/
def StopsTerm (tokens : List Token) (j : Nat) : Prop :=
  ∃ t, tokens[j]? = some t ∧ t.lexeme ≠ "*"

/-- A token is under the cursor `j` and its lexeme is none of `+`, `-`,
`*`. -/
def StopsExp (tokens : List Token) (j : Nat) : Prop :=
  ∃ t, tokens[j]? = some t ∧ t.lexeme ≠ "+" ∧ t.lexeme ≠ "-" ∧ t.lexeme ≠ "*"

/-- Where the routines stop when they return a value, at a given fuel. -/
def StopFacts (tokens : List Token) (tab : SymTab) (n : Nat) : Prop :=
  (∀ i v j, Parser.exp tokens tab n i = .val v j → StopsExp tokens j) ∧
  (∀ acc i v j, Parser.expPrime tokens tab n acc i = .val v j → StopsTerm tokens i →
    StopsExp tokens j) ∧
  (∀ i v j, Parser.term tokens tab n i = .val v j → StopsTerm tokens j) ∧
  (∀ acc i v j, Parser.termPrime tokens tab n acc i = .val v j → StopsTerm tokens j)

/-! ## Reading the output -/

/-- The value shown by the last output line that names `name`, if any. -/
def lastShown (out : List OutLine) (name : String) : Option Int :=
  ((out.filter (fun l => l.name = name)).getLast?).map OutLine.value

/-- The table agrees with the output: every name is mapped to the value shown
by the last line that names it, and to nothing when no line names it. -/
def TableMatchesOutput (s : State) : Prop :=
  ∀ name, s.symbol_table.find name = lastShown s.out name

/-! ## Statements of a program -/

/-- The shape of the tokens the tokenizer produces before the final `END`. -/
def LexToken (t : Token) : Prop :=
  (t.type = .IDENTIFIER ∧ IsIdentifier t.lexeme = true) ∨
  (t.type = .INT_LITERAL ∧ IsIntLiteral t.lexeme = true) ∨
  t = ⟨.OPERATOR, "="⟩ ∨ t = ⟨.OPERATOR, "+"⟩ ∨ t = ⟨.OPERATOR, "-"⟩ ∨
  t = ⟨.OPERATOR, "*"⟩ ∨ t = ⟨.LEFT_PARENTHESIS, "("⟩ ∨ t = ⟨.RIGHT_PARENTHESIS, ")"⟩ ∨
  t = ⟨.PUNCTUATION, ";"⟩

/-- The identifiers that begin a statement: the `IDENTIFIER` tokens that
stand first in the vector (when `atStart`) or right after a `;` token, in
order. -/
def statementHeads : Bool → List Token → List String
  | _, [] => []
  | atStart, t :: ts =>
    (if atStart && decide (t.type = .IDENTIFIER) then [t.lexeme] else []) ++
      statementHeads (decide (t.type = .PUNCTUATION)) ts

/-- The number of `;` tokens (kind `PUNCTUATION`) of a token vector. -/
def countSemicolons (tokens : List Token) : Nat :=
  tokens.countP (fun t => decide (t.type = .PUNCTUATION))

/-- No token at a cursor position from `i` up to `j` (excluded) is a `;`
token. -/
def NoSemiBetween (tokens : List Token) (i j : Nat) : Prop :=
  ∀ k, i ≤ k → k < j → ∀ t, tokens[k]? = some t → t.type ≠ .PUNCTUATION

/-- What a routine that returned `r` from cursor `i` has consumed: the cursor
moved forward (strictly when `strict`), stayed within the vector, and passed
over no `;` token. -/
def Span (tokens : List Token) (strict : Bool) (i : Nat) (r : Eval) : Prop :=
  ∀ v j, r = .val v j →
    (if strict then i < j else i ≤ j) ∧ j ≤ tokens.length ∧ NoSemiBetween tokens i j

/-- The span of the five expression routines at a given fuel. -/
def SpanFacts (tokens : List Token) (tab : SymTab) (n : Nat) : Prop :=
  (∀ i, Span tokens true i (Parser.exp tokens tab n i)) ∧
  (∀ acc i, Span tokens false i (Parser.expPrime tokens tab n acc i)) ∧
  (∀ i, Span tokens true i (Parser.term tokens tab n i)) ∧
  (∀ acc i, Span tokens false i (Parser.termPrime tokens tab n acc i)) ∧
  (∀ i, Span tokens true i (Parser.fact tokens tab n i))

/-! ## The failure condition of the tokenizer -/

/-- The characters of the language: a letter, a digit, an underscore, one of
`= + - * ( ) ;`, or white space. -/
def isLanguageChar (c : Char) : Bool :=
  isalpha c || isdigit c || c = '_' || c = '=' || c = '+' || c = '-' || c = '*' ||
    c = '(' || c = ')' || c = ';' || isspace c

/-- The string contains a character that is not a character of the
language. -/
def HasForeignChar (s : List Char) : Prop := ∃ c ∈ s, isLanguageChar c = false

/-- The string contains a `0` that stands at the start of the string or
right after a character that is not a letter, digit or underscore, and that
is immediately followed by a digit. -/
def HasLeadingZero (s : List Char) : Prop :=
  ∃ (pre post : List Char) (d : Char), s = pre ++ '0' :: d :: post ∧ isdigit d = true ∧
    (pre = [] ∨ ∃ (pre' : List Char) (p : Char), pre = pre' ++ [p] ∧ isIdChar p = false)

/-- Whether the first character of `rest` is a digit. -/
def startsWithDigit : List Char → Bool
  | d :: _ => isdigit d
  | [] => false

/-- The recursive form of `HasLeadingZero`: `prevId` tells whether the
character before the list is a letter, digit or underscore. -/
def hasLeadingZero : Bool → List Char → Bool
  | _, [] => false
  | prevId, c :: rest =>
    (decide (c = '0') && !prevId && startsWithDigit rest) || hasLeadingZero (isIdChar c) rest

/-- The recursive form of the failure condition. -/
def lexFails (s : List Char) : Bool :=
  s.any (fun c => !isLanguageChar c) || hasLeadingZero false s

/-- The statement `HasLeadingZero` for a list that follows a character:
`prevId` tells whether that character is a letter, digit or underscore (it is
`false` at the start of the string). -/
def HasLeadingZeroAfter (prevId : Bool) (s : List Char) : Prop :=
  ∃ (pre post : List Char) (d : Char), s = pre ++ '0' :: d :: post ∧ isdigit d = true ∧
    ((pre = [] ∧ prevId = false) ∨
      ∃ (pre' : List Char) (p : Char), pre = pre' ++ [p] ∧ isIdChar p = false)

/-! ## Completed statements -/

/-- The state `s'` is reached from `s` by `k` assignments that ran to
completion, one after the other. -/
inductive Completed (tokens : List Token) : Nat → State → State → Prop where
  | none (s : State) : Completed tokens 0 s s
  | step {k : Nat} {s s1 s2 : State} (n : Nat) :
      Parser.assignment tokens n s = .done s1 → Completed tokens k s1 s2 →
        Completed tokens (k + 1) s s2

/-- The cursor moves forward: a routine that returns a value returns it at a
cursor after the one it started from (`exp`, `term`, `fact`) or not before it
(`expPrime`, `termPrime`). -/
def ProgressFacts (tokens : List Token) (tab : SymTab) (n : Nat) : Prop :=
  (∀ i v j, Parser.exp tokens tab n i = .val v j → i < j) ∧
  (∀ acc i v j, Parser.expPrime tokens tab n acc i = .val v j → i ≤ j) ∧
  (∀ i v j, Parser.term tokens tab n i = .val v j → i < j) ∧
  (∀ acc i v j, Parser.termPrime tokens tab n acc i = .val v j → i ≤ j) ∧
  (∀ i v j, Parser.fact tokens tab n i = .val v j → i < j)

/-- The fuel that is enough for each routine at cursor `i`: three units per
token that remains, plus the rank of the routine. -/
def FuelFacts (tokens : List Token) (tab : SymTab) (n : Nat) : Prop :=
  (∀ i, 3 * (tokens.length - i) + 3 ≤ n → Parser.exp tokens tab n i ≠ .fuel) ∧
  (∀ acc i, 3 * (tokens.length - i) + 1 ≤ n → Parser.expPrime tokens tab n acc i ≠ .fuel) ∧
  (∀ i, 3 * (tokens.length - i) + 2 ≤ n → Parser.term tokens tab n i ≠ .fuel) ∧
  (∀ acc i, 3 * (tokens.length - i) + 1 ≤ n → Parser.termPrime tokens tab n acc i ≠ .fuel) ∧
  (∀ i, 3 * (tokens.length - i) + 1 ≤ n → Parser.fact tokens tab n i ≠ .fuel)

/-! ## The cursor stays within the token vector -/

/-- The result `r` of a routine started at cursor `i` leaves the cursor at or
after `i` and on a token of the vector, and is not the exception of an access
past the end. -/
def InBounds (tokens : List Token) (i : Nat) : Eval → Prop
  | .val _ j => i ≤ j ∧ j < tokens.length
  | .err e j => i ≤ j ∧ j < tokens.length ∧ e ≠ .tokenOutOfRange
  | .fuel => True

/-- The five expression routines started on a token of the vector stay
within it, at a given fuel. -/
def BoundFacts (tokens : List Token) (tab : SymTab) (n : Nat) : Prop :=
  (∀ i, i < tokens.length → InBounds tokens i (Parser.exp tokens tab n i)) ∧
  (∀ acc i, i < tokens.length → InBounds tokens i (Parser.expPrime tokens tab n acc i)) ∧
  (∀ i, i < tokens.length → InBounds tokens i (Parser.term tokens tab n i)) ∧
  (∀ acc i, i < tokens.length → InBounds tokens i (Parser.termPrime tokens tab n acc i)) ∧
  (∀ i, i < tokens.length → InBounds tokens i (Parser.fact tokens tab n i))

/-- The same for `assignment` and `program`: the state reached has its cursor
at or after the cursor of `s` and on a token of the vector, and the run did
not stop on an access past the end. -/
def RunInBounds (tokens : List Token) (s : State) : Run → Prop
  | .done s' => s.index ≤ s'.index ∧ s'.index < tokens.length
  | .failed e s' => s.index ≤ s'.index ∧ s'.index < tokens.length ∧ e ≠ .tokenOutOfRange
  | .fuel => True

/-! ## The grammar -/

/-- The nonterminals of the grammar of section 4.2 of the specification. -/
inductive Nonterminal where
  | program
  | assignment
  | exp
  | expPrime
  | term
  | termPrime
  | fact
  deriving DecidableEq, Repr

/-- Derivability in the grammar
```
program     := assignment program | ε
assignment  := Identifier '=' exp ';'
exp         := term exp'
exp'        := '+' term exp' | '-' term exp' | ε
term        := fact term'
term'       := '*' fact term' | ε
fact        := '(' exp ')' | '+' exp | '-' exp | IntLiteral | Identifier
```
A quoted terminal is a token with that lexeme; `Identifier` and `IntLiteral`
are tokens of that kind. -/
inductive Derives : Nonterminal → List Token → Prop where
  | program_nil : Derives .program []
  | program_cons {a p : List Token} :
      Derives .assignment a → Derives .program p → Derives .program (a ++ p)
  | assignment {id eq semi : Token} {e : List Token} :
      id.type = .IDENTIFIER → eq.lexeme = "=" → Derives .exp e → semi.lexeme = ";" →
        Derives .assignment (id :: eq :: (e ++ [semi]))
  | exp {t r : List Token} : Derives .term t → Derives .expPrime r → Derives .exp (t ++ r)
  | expPrime_plus {op : Token} {t r : List Token} :
      op.lexeme = "+" → Derives .term t → Derives .expPrime r →
        Derives .expPrime (op :: (t ++ r))
  | expPrime_minus {op : Token} {t r : List Token} :
      op.lexeme = "-" → Derives .term t → Derives .expPrime r →
        Derives .expPrime (op :: (t ++ r))
  | expPrime_nil : Derives .expPrime []
  | term {f r : List Token} : Derives .fact f → Derives .termPrime r → Derives .term (f ++ r)
  | termPrime_star {op : Token} {f r : List Token} :
      op.lexeme = "*" → Derives .fact f → Derives .termPrime r →
        Derives .termPrime (op :: (f ++ r))
  | termPrime_nil : Derives .termPrime []
  | fact_paren {l r : Token} {e : List Token} :
      l.lexeme = "(" → Derives .exp e → r.lexeme = ")" → Derives .fact (l :: (e ++ [r]))
  | fact_plus {op : Token} {e : List Token} :
      op.lexeme = "+" → Derives .exp e → Derives .fact (op :: e)
  | fact_minus {op : Token} {e : List Token} :
      op.lexeme = "-" → Derives .exp e → Derives .fact (op :: e)
  | fact_int {t : Token} : t.type = .INT_LITERAL → Derives .fact [t]
  | fact_ident {t : Token} : t.type = .IDENTIFIER → Derives .fact [t]

/-- The tokens at the cursor positions from `i` up to `j` (excluded). -/
def slice (tokens : List Token) (i j : Nat) : List Token := (tokens.drop i).take (j - i)

/-- What the expression routines have recognised when they return a value,
at a given fuel: the tokens they passed over are derivable from their
nonterminal. -/
def GrammarFacts (tokens : List Token) (tab : SymTab) (n : Nat) : Prop :=
  (∀ i v j, Parser.exp tokens tab n i = .val v j → Derives .exp (slice tokens i j)) ∧
  (∀ acc i v j, Parser.expPrime tokens tab n acc i = .val v j →
    Derives .expPrime (slice tokens i j)) ∧
  (∀ i v j, Parser.term tokens tab n i = .val v j → Derives .term (slice tokens i j)) ∧
  (∀ acc i v j, Parser.termPrime tokens tab n acc i = .val v j →
    Derives .termPrime (slice tokens i j)) ∧
  (∀ i v j, Parser.fact tokens tab n i = .val v j → Derives .fact (slice tokens i j))

/-! ## Chains of one kind of operator -/

/-- The binary operators of the language. -/
inductive Op where
  | plus
  | minus
  | times
  deriving DecidableEq, Repr

/-- The character of an operator. -/
def Op.char : Op → Char
  | .plus => '+'
  | .minus => '-'
  | .times => '*'

/-- The lexeme of an operator. -/
def Op.lexeme : Op → String
  | .plus => "+"
  | .minus => "-"
  | .times => "*"

/-- The meaning of an operator on integers. -/
def Op.apply : Op → Int → Int → Int
  | .plus, a, b => a + b
  | .minus, a, b => a - b
  | .times, a, b => a * b

/-- The text ` o1 a2 o2 a3 ...` of the operators and literals that follow the
first literal of a chain. -/
def chainText : List (Op × String) → String
  | [] => ""
  | p :: rest => " " ++ p.1.lexeme ++ " " ++ p.2 ++ chainText rest

/-- The program `x = a1 o1 a2 o2 ... an;`. -/
def chainSource (x a1 : String) (rest : List (Op × String)) : String :=
  x ++ " = " ++ a1 ++ chainText rest ++ ";"

/-- The left fold `(((a1 o1 a2) o2 a3) ...)`, starting from the value `acc`
of the first literal. -/
def leftFold (acc : Int) (rest : List (Op × String)) : Int :=
  rest.foldl (fun v p => p.1.apply v (litValue p.2)) acc

/-- Every partial result of the left fold is in the range of `int`. -/
def PartialsInRange : Int → List (Op × String) → Prop
  | acc, [] => InInt32 acc
  | acc, p :: rest => InInt32 acc ∧ PartialsInRange (p.1.apply acc (litValue p.2)) rest

instance PartialsInRange.decidable :
    (acc : Int) → (rest : List (Op × String)) → Decidable (PartialsInRange acc rest)
  | acc, [] => inferInstanceAs (Decidable (InInt32 acc))
  | acc, p :: rest =>
    @instDecidableAnd _ _ (inferInstanceAs (Decidable (InInt32 acc)))
      (PartialsInRange.decidable (p.1.apply acc (litValue p.2)) rest)

/-- The characters of `chainText`. -/
def chainChars : List (Op × String) → List Char
  | [] => []
  | p :: rest => ' ' :: p.1.char :: ' ' :: (p.2.data ++ chainChars rest)

/-- The tokens of `chainText`. -/
def chainTokens : List (Op × String) → List Token
  | [] => []
  | p :: rest => ⟨.OPERATOR, p.1.lexeme⟩ :: ⟨.INT_LITERAL, p.2⟩ :: chainTokens rest

/-! # Theorems -/

theorem readWhile_eq (p : Char → Bool) (l : List Char) (index : Nat) :
    Tokenizer.readWhile p l index = index + (l.takeWhile p).length := by
  induction l generalizing index with
  | nil => simp [Tokenizer.readWhile]
  | cons c rest ih =>
    by_cases h : p c = true
    · simp [Tokenizer.readWhile, h, ih, List.takeWhile_cons]; omega
    · simp [Tokenizer.readWhile, h, List.takeWhile_cons]

theorem take_length_takeWhile (p : Char → Bool) (l : List Char) :
    l.take (l.takeWhile p).length = l.takeWhile p := by
  induction l with
  | nil => simp
  | cons c rest ih =>
    by_cases h : p c = true
    · simp [List.takeWhile_cons, h, ih]
    · simp [List.takeWhile_cons, h]

theorem drop_length_takeWhile (p : Char → Bool) (l : List Char) :
    l.drop (l.takeWhile p).length = l.dropWhile p := by
  induction l with
  | nil => simp
  | cons c rest ih =>
    by_cases h : p c = true
    · simp [List.takeWhile_cons, List.dropWhile_cons, h, ih]
    · simp [List.takeWhile_cons, List.dropWhile_cons, h]

theorem length_takeWhile_le (p : Char → Bool) (l : List Char) :
    (l.takeWhile p).length ≤ l.length := by
  induction l with
  | nil => simp
  | cons c rest ih =>
    by_cases h : p c = true
    · simp [List.takeWhile_cons, h, ih]
    · simp [List.takeWhile_cons, h]

end Interp

namespace Interp

theorem lex_cons (c : Char) (rest : List Char) (index : Nat) (tokens : List Token) :
    lex (c :: rest) index tokens =
    if c = '0' then
      if (match rest with
          | d :: _ => isdigit d
          | [] => false) then
        .error .invalidIntegerLiteral index
      else lex rest (index + 1) (tokens ++ [⟨.INT_LITERAL, "0"⟩])
    else if isdigit c then
      lex (rest.dropWhile isdigit) (index + (1 + (rest.takeWhile isdigit).length))
        (tokens ++ [⟨.INT_LITERAL, String.mk (c :: rest.takeWhile isdigit)⟩])
    else if isIdStart c then
      lex (rest.dropWhile isIdChar) (index + (1 + (rest.takeWhile isIdChar).length))
        (tokens ++ [⟨.IDENTIFIER, String.mk (c :: rest.takeWhile isIdChar)⟩])
    else if c = '=' then lex rest (index + 1) (tokens ++ [⟨.OPERATOR, "="⟩])
    else if c = '+' then lex rest (index + 1) (tokens ++ [⟨.OPERATOR, "+"⟩])
    else if c = '-' then lex rest (index + 1) (tokens ++ [⟨.OPERATOR, "-"⟩])
    else if c = '*' then lex rest (index + 1) (tokens ++ [⟨.OPERATOR, "*"⟩])
    else if c = '(' then lex rest (index + 1) (tokens ++ [⟨.LEFT_PARENTHESIS, "("⟩])
    else if c = ')' then lex rest (index + 1) (tokens ++ [⟨.RIGHT_PARENTHESIS, ")"⟩])
    else if c = ';' then lex rest (index + 1) (tokens ++ [⟨.PUNCTUATION, ";"⟩])
    else if isspace c then lex rest (index + 1) tokens
    else .error .unrecognizedSymbol index := by
  cases rest with
  | nil => rw [lex.eq_3]
  | cons d tail => rw [lex.eq_2]

theorem lex_nil (index : Nat) (tokens : List Token) :
    lex [] index tokens = .ok (tokens ++ [⟨.END, "$"⟩]) := by
  rw [lex]

theorem drop_eq_cons_of_getElem? (str : List Char) (index : Nat) (c : Char)
    (h : str[index]? = some c) : str.drop index = c :: str.drop (index + 1) := by
  have hlt : index < str.length := by
    by_contra hn
    rw [List.getElem?_eq_none (by omega)] at h
    exact Option.noConfusion h
  rw [List.drop_eq_getElem_cons hlt]
  rw [List.getElem?_eq_getElem hlt] at h
  simp at h
  rw [h]

theorem isIdChar_of_isIdStart {c : Char} (h : isIdStart c = true) : isIdChar c = true := by
  simp only [isIdStart, isIdChar, isalnum, Bool.or_eq_true, decide_eq_true_eq] at h ⊢
  rcases h with h | h
  · exact Or.inl (Or.inl h)
  · exact Or.inr h

theorem loop_eq_lex (str : List Char) :
    ∀ (fuel index : Nat) (tokens : List Token), index ≤ str.length →
      str.length < fuel + index →
      Tokenizer.loop str fuel index tokens = lex (str.drop index) index tokens := by
  intro fuel
  induction fuel with
  | zero => intro index tokens h1 h2; omega
  | succ fuel ih =>
    intro index tokens h1 h2
    rw [Tokenizer.loop]
    cases hc : str[index]? with
    | none =>
      have : str.length ≤ index := by
        by_contra hn
        rw [List.getElem?_eq_getElem (by omega)] at hc
        exact Option.noConfusion hc
      rw [List.drop_of_length_le this, lex_nil]
    | some c =>
      have hlt : index < str.length := by
        by_contra hn
        rw [List.getElem?_eq_none (by omega)] at hc
        exact Option.noConfusion hc
      have hd := drop_eq_cons_of_getElem? str index c hc
      have step : ∀ toks, Tokenizer.loop str fuel (index + 1) toks
          = lex (str.drop (index + 1)) (index + 1) toks :=
        fun toks => ih (index + 1) toks (by omega) (by omega)
      have runStep : ∀ (p : Char → Bool), p c = true → ∀ ty,
          Tokenizer.loop str fuel
              (Tokenizer.readWhile p (str.drop index) index)
              (tokens ++ [⟨ty, Tokenizer.substr str index
                (Tokenizer.readWhile p (str.drop index) index - index)⟩])
            = lex ((str.drop (index + 1)).dropWhile p)
                (index + (1 + ((str.drop (index + 1)).takeWhile p).length))
                (tokens ++ [⟨ty, String.mk (c :: (str.drop (index + 1)).takeWhile p)⟩]) := by
        intro p hp ty
        have hlen := length_takeWhile_le p (str.drop (index + 1))
        have hdl : (str.drop (index + 1)).length = str.length - (index + 1) := by simp
        have e1 : Tokenizer.readWhile p (str.drop index) index
            = index + (1 + ((str.drop (index + 1)).takeWhile p).length) := by
          rw [readWhile_eq, hd, List.takeWhile_cons, if_pos hp]
          simp; omega
        have e2 : Tokenizer.substr str index
            (Tokenizer.readWhile p (str.drop index) index - index)
            = String.mk (c :: (str.drop (index + 1)).takeWhile p) := by
          rw [e1, Tokenizer.substr, hd]
          have : index + (1 + ((str.drop (index + 1)).takeWhile p).length) - index
              = ((str.drop (index + 1)).takeWhile p).length + 1 := by omega
          rw [this, List.take_succ_cons, take_length_takeWhile]
        rw [e2, e1, ih _ _ (by omega) (by omega)]
        congr 1
        rw [show index + (1 + ((str.drop (index + 1)).takeWhile p).length)
            = (index + 1) + ((str.drop (index + 1)).takeWhile p).length by omega,
          ← List.drop_drop, drop_length_takeWhile]
      have hnext : (decide (index < str.length - 1) &&
            (match str[index + 1]? with
              | some d => isdigit d
              | none => false))
          = (match str.drop (index + 1) with
              | d :: _ => isdigit d
              | [] => false) := by
        cases hn : str[index + 1]? with
        | none =>
          have : str.length ≤ index + 1 := by
            by_contra hh
            rw [List.getElem?_eq_getElem (by omega)] at hn
            exact Option.noConfusion hn
          rw [List.drop_of_length_le this]
          simp
        | some d =>
          have hlt2 : index + 1 < str.length := by
            by_contra hh
            rw [List.getElem?_eq_none (by omega)] at hn
            exact Option.noConfusion hn
          rw [drop_eq_cons_of_getElem? str (index + 1) d hn]
          simp
          intro _
          omega
      rw [hd, lex_cons]
      simp only [Tokenizer.addIntLiteral, Tokenizer.addIdentifier, hnext, step, runStep isdigit,
        runStep isIdChar]
      by_cases h0 : c = '0'
      · simp only [h0, if_true]
      · simp only [h0, if_false]
        by_cases h1 : isdigit c = true
        · simp only [h1, if_true]
          exact runStep isdigit h1 _
        · simp only [h1, if_false]
          by_cases h2 : isIdStart c = true
          · simp only [h2, if_true]
            exact runStep isIdChar (isIdChar_of_isIdStart h2) _
          · simp [h1, h2]

theorem tokenize_eq_lex (str : List Char) : Tokenizer.tokenize str = lex str 0 [] := by
  rw [Tokenizer.tokenize, loop_eq_lex str _ 0 [] (by omega) (by omega)]
  simp

end Interp

namespace Interp

theorem char_le_iff (a b : Char) : a ≤ b ↔ a.toNat ≤ b.toNat := Iff.rfl

theorem char_eq_iff (a b : Char) : a = b ↔ a.toNat = b.toNat := by
  constructor
  · intro h; rw [h]
  · intro h
    rw [← Char.ofNat_toNat a, ← Char.ofNat_toNat b, h]

theorem isdigit_iff (c : Char) : isdigit c = true ↔ 48 ≤ c.toNat ∧ c.toNat ≤ 57 := by
  simp only [isdigit, Bool.and_eq_true, decide_eq_true_eq, char_le_iff]
  rfl

theorem isalpha_iff (c : Char) :
    isalpha c = true ↔ (97 ≤ c.toNat ∧ c.toNat ≤ 122) ∨ (65 ≤ c.toNat ∧ c.toNat ≤ 90) := by
  simp only [isalpha, Bool.or_eq_true, Bool.and_eq_true, decide_eq_true_eq, char_le_iff]
  rfl

theorem isIdStart_iff (c : Char) :
    isIdStart c = true ↔
      (97 ≤ c.toNat ∧ c.toNat ≤ 122) ∨ (65 ≤ c.toNat ∧ c.toNat ≤ 90) ∨ c.toNat = 95 := by
  simp only [isIdStart, Bool.or_eq_true, isalpha_iff, decide_eq_true_eq, char_eq_iff c '_']
  have : ('_' : Char).toNat = 95 := rfl
  rw [this]; tauto

theorem isIdChar_iff (c : Char) :
    isIdChar c = true ↔
      (97 ≤ c.toNat ∧ c.toNat ≤ 122) ∨ (65 ≤ c.toNat ∧ c.toNat ≤ 90) ∨
        (48 ≤ c.toNat ∧ c.toNat ≤ 57) ∨ c.toNat = 95 := by
  simp only [isIdChar, isalnum, Bool.or_eq_true, isalpha_iff, isdigit_iff, decide_eq_true_eq,
    char_eq_iff c '_']
  have : ('_' : Char).toNat = 95 := rfl
  rw [this]; tauto

theorem isspace_iff (c : Char) :
    isspace c = true ↔
      c.toNat = 32 ∨ c.toNat = 9 ∨ c.toNat = 10 ∨ c.toNat = 11 ∨ c.toNat = 12 ∨ c.toNat = 13 := by
  simp only [isspace, Bool.or_eq_true, decide_eq_true_eq, char_eq_iff c]
  have h1 : (' ' : Char).toNat = 32 := rfl
  have h2 : ('\t' : Char).toNat = 9 := rfl
  have h3 : ('\n' : Char).toNat = 10 := rfl
  have h4 : (Char.ofNat 11).toNat = 11 := rfl
  have h5 : (Char.ofNat 12).toNat = 12 := rfl
  have h6 : ('\r' : Char).toNat = 13 := rfl
  rw [h1, h2, h3, h4, h5, h6]; tauto

theorem bool_eq_false_iff_not (b : Bool) : b = false ↔ ¬ b = true := by
  cases b <;> simp

end Interp

namespace Interp


theorem digitsValue_append (ds : List Char) (c : Char) :
    digitsValue (ds ++ [c]) = digitsValue ds * 10 + (c.toNat - 48) := by
  simp [digitsValue, List.foldl_append]

theorem digitsValue_eq_decimalRev (ds : List Char) :
    digitsValue ds = decimalRev ds.reverse := by
  induction ds using List.reverseRecOn with
  | nil => simp [digitsValue, decimalRev]
  | append_singleton ds c ih =>
    rw [digitsValue_append, ih]
    simp [decimalRev]
    omega

theorem takeWhile_eq_nil_of_head (p : Char → Bool) (rest : List Char)
    (h : ∀ r ∈ rest.head?, p r = false) : rest.takeWhile p = [] := by
  cases rest with
  | nil => rfl
  | cons r rs =>
    have := h r (by simp)
    simp [List.takeWhile_cons, this]

theorem dropWhile_eq_self_of_head (p : Char → Bool) (rest : List Char)
    (h : ∀ r ∈ rest.head?, p r = false) : rest.dropWhile p = rest := by
  cases rest with
  | nil => rfl
  | cons r rs =>
    have := h r (by simp)
    simp [List.dropWhile_cons, this]

theorem takeWhile_run (p : Char → Bool) (cs rest : List Char)
    (hcs : ∀ c ∈ cs, p c = true) (h : ∀ r ∈ rest.head?, p r = false) :
    (cs ++ rest).takeWhile p = cs := by
  rw [List.takeWhile_append_of_pos hcs, takeWhile_eq_nil_of_head p rest h]
  simp

theorem dropWhile_run (p : Char → Bool) (cs rest : List Char)
    (hcs : ∀ c ∈ cs, p c = true) (h : ∀ r ∈ rest.head?, p r = false) :
    (cs ++ rest).dropWhile p = rest := by
  rw [List.dropWhile_append_of_pos hcs, dropWhile_eq_self_of_head p rest h]

end Interp

namespace Interp

/-- Scanning a single-character token or a blank. -/
theorem lex_eq (rest : List Char) (i : Nat) (toks : List Token) :
    lex ('=' :: rest) i toks = lex rest (i + 1) (toks ++ [⟨.OPERATOR, "="⟩]) := by
  rw [lex_cons]; simp [isdigit, isIdStart, isalpha]

theorem lex_plus (rest : List Char) (i : Nat) (toks : List Token) :
    lex ('+' :: rest) i toks = lex rest (i + 1) (toks ++ [⟨.OPERATOR, "+"⟩]) := by
  rw [lex_cons]; simp [isdigit, isIdStart, isalpha]

theorem lex_minus (rest : List Char) (i : Nat) (toks : List Token) :
    lex ('-' :: rest) i toks = lex rest (i + 1) (toks ++ [⟨.OPERATOR, "-"⟩]) := by
  rw [lex_cons]; simp [isdigit, isIdStart, isalpha]

theorem lex_star (rest : List Char) (i : Nat) (toks : List Token) :
    lex ('*' :: rest) i toks = lex rest (i + 1) (toks ++ [⟨.OPERATOR, "*"⟩]) := by
  rw [lex_cons]; simp [isdigit, isIdStart, isalpha]

theorem lex_lparen (rest : List Char) (i : Nat) (toks : List Token) :
    lex ('(' :: rest) i toks = lex rest (i + 1) (toks ++ [⟨.LEFT_PARENTHESIS, "("⟩]) := by
  rw [lex_cons]; simp [isdigit, isIdStart, isalpha]

theorem lex_rparen (rest : List Char) (i : Nat) (toks : List Token) :
    lex (')' :: rest) i toks = lex rest (i + 1) (toks ++ [⟨.RIGHT_PARENTHESIS, ")"⟩]) := by
  rw [lex_cons]; simp [isdigit, isIdStart, isalpha]

theorem lex_semi (rest : List Char) (i : Nat) (toks : List Token) :
    lex (';' :: rest) i toks = lex rest (i + 1) (toks ++ [⟨.PUNCTUATION, ";"⟩]) := by
  rw [lex_cons]; simp [isdigit, isIdStart, isalpha]

theorem lex_space (rest : List Char) (i : Nat) (toks : List Token) :
    lex (' ' :: rest) i toks = lex rest (i + 1) toks := by
  rw [lex_cons]; simp [isdigit, isIdStart, isalpha, isspace]

/-- Scanning an identifier that is followed by a character that cannot
continue it. -/
theorem lex_identifier (x : String) (hx : IsIdentifier x = true) (rest : List Char)
    (hr : ∀ r ∈ rest.head?, isIdChar r = false) (i : Nat) (toks : List Token) :
    lex (x.data ++ rest) i toks
      = lex rest (i + x.data.length) (toks ++ [⟨.IDENTIFIER, x⟩]) := by
  unfold IsIdentifier at hx
  cases hd : x.data with
  | nil => rw [hd] at hx; simp at hx
  | cons c cs =>
    rw [hd] at hx
    simp only [Bool.and_eq_true, List.all_eq_true] at hx
    have hc := hx.1
    have h0 : c ≠ '0' := by
      rw [Ne, char_eq_iff]; rw [isIdStart_iff] at hc
      have : ('0' : Char).toNat = 48 := rfl
      omega
    have h1 : isdigit c = false := by
      rw [bool_eq_false_iff_not, isdigit_iff]; rw [isIdStart_iff] at hc; omega
    rw [List.cons_append, lex_cons, if_neg h0, h1, hc]
    simp only [if_true, Bool.false_eq_true, if_false]
    rw [takeWhile_run isIdChar cs rest hx.2 hr, dropWhile_run isIdChar cs rest hx.2 hr]
    have : x = String.mk (c :: cs) := by rw [← hd]
    rw [← this]
    simp [Nat.add_comm]

/-- Scanning an integer literal that is followed by a character that is not
a digit. -/
theorem lex_intLiteral (a : String) (ha : IsIntLiteral a = true) (rest : List Char)
    (hr : ∀ r ∈ rest.head?, isdigit r = false) (i : Nat) (toks : List Token) :
    lex (a.data ++ rest) i toks
      = lex rest (i + a.data.length) (toks ++ [⟨.INT_LITERAL, a⟩]) := by
  unfold IsIntLiteral at ha
  cases hd : a.data with
  | nil => rw [hd] at ha; simp at ha
  | cons c cs =>
    rw [hd] at ha
    have hs : a = String.mk (c :: cs) := by rw [← hd]
    simp only [Bool.or_eq_true, Bool.and_eq_true, decide_eq_true_eq, List.isEmpty_iff,
      List.all_eq_true, ne_eq, decide_not, Bool.not_eq_true', decide_eq_false_iff_not] at ha
    rcases ha with ⟨h0, hnil⟩ | ⟨⟨hdig, hn0⟩, hall⟩
    · subst hnil
      subst h0
      have hz : a = "0" := hs
      subst hz
      cases rest with
      | nil => simp [lex_cons]
      | cons r rs =>
        have hrd := hr r (by simp)
        simp [lex_cons, hrd]
    · rw [List.cons_append, lex_cons, if_neg hn0, hdig]
      simp only [if_true]
      rw [takeWhile_run isdigit cs rest hall hr, dropWhile_run isdigit cs rest hall hr, ← hs]
      simp [Nat.add_comm]

end Interp

namespace Interp

theorem wrap_of_inInt32 {z : Int} (h : InInt32 z) : wrap z = z := by
  unfold InInt32 at h
  unfold wrap
  omega

theorem intLiteral_digits {a : String} (ha : IsIntLiteral a = true) :
    a.data ≠ [] ∧ ∀ c ∈ a.data, isdigit c = true := by
  unfold IsIntLiteral at ha
  cases hd : a.data with
  | nil => rw [hd] at ha; simp at ha
  | cons c cs =>
    rw [hd] at ha
    simp only [Bool.or_eq_true, Bool.and_eq_true, decide_eq_true_eq, List.isEmpty_iff,
      List.all_eq_true, ne_eq, decide_not, Bool.not_eq_true', decide_eq_false_iff_not] at ha
    refine ⟨by simp, ?_⟩
    rcases ha with ⟨h0, hnil⟩ | ⟨⟨hdig, _⟩, hall⟩
    · subst hnil; subst h0
      intro c hc
      simp at hc
      subst hc
      decide
    · intro d hdm
      rcases List.mem_cons.mp hdm with h | h
      · rw [h]; exact hdig
      · exact hall d h

/-- The conversion `std::stoi` of an integer literal that fits in an `int`
is the number the literal denotes. -/
theorem stoi_intLiteral {a : String} (ha : IsIntLiteral a = true)
    (hv : litValue a ≤ 2147483647) : stoi a = .ok (litValue a : Int) := by
  obtain ⟨hne, hall⟩ := intLiteral_digits ha
  cases hd : a.data with
  | nil => exact absurd hd hne
  | cons c cs =>
    have hc : isdigit c = true := hall c (by rw [hd]; simp)
    have hcn := (isdigit_iff c).mp hc
    have hsp : isspace c = false := by
      rw [bool_eq_false_iff_not, isspace_iff]; omega
    have hm : c ≠ '-' := by
      rw [Ne, char_eq_iff]
      have : ('-' : Char).toNat = 45 := rfl
      omega
    have hp : c ≠ '+' := by
      rw [Ne, char_eq_iff]
      have : ('+' : Char).toNat = 43 := rfl
      omega
    have htw : (c :: cs).takeWhile isdigit = c :: cs := by
      rw [← hd]
      have := takeWhile_run isdigit a.data [] hall (by simp)
      simpa using this
    have hval : (digitsValue (c :: cs) : Int) = (litValue a : Int) := by
      rw [digitsValue_eq_decimalRev, litValue, hd]
    have hsign : stoiSign (c :: cs) = (false, c :: cs) := by
      unfold stoiSign
      split
      · next r heq => simp at heq; exact absurd heq.1 hm
      · next r heq => simp at heq; exact absurd heq.1 hp
      · rfl
    unfold stoi
    rw [hd]
    simp only [List.dropWhile_cons, hsp, Bool.false_eq_true, if_false, hsign, htw]
    rw [if_neg (by simp), hval]
    rw [if_neg (by omega)]

end Interp

namespace Interp

theorem intLiteral_ne {a : String} (ha : IsIntLiteral a = true) :
    a ≠ "(" ∧ a ≠ ")" ∧ a ≠ "+" ∧ a ≠ "-" ∧ a ≠ "*" ∧ a ≠ "=" ∧ a ≠ ";" := by
  refine ⟨?_, ?_, ?_, ?_, ?_, ?_, ?_⟩ <;>
    (intro h; subst h; exact absurd ha (by decide))

theorem identifier_ne {x : String} (hx : IsIdentifier x = true) :
    x ≠ "(" ∧ x ≠ ")" ∧ x ≠ "+" ∧ x ≠ "-" ∧ x ≠ "*" ∧ x ≠ "=" ∧ x ≠ ";" := by
  refine ⟨?_, ?_, ?_, ?_, ?_, ?_, ?_⟩ <;>
    (intro h; subst h; exact absurd hx (by decide))

theorem head_nondigit (c : Char) (rest : List Char) (h : isdigit c = false) :
    ∀ r ∈ (c :: rest).head?, isdigit r = false := by
  intro r hr; simp at hr; rw [← hr]; exact h

theorem head_nonid (c : Char) (rest : List Char) (h : isIdChar c = false) :
    ∀ r ∈ (c :: rest).head?, isIdChar r = false := by
  intro r hr; simp at hr; rw [← hr]; exact h

theorem tokens_add_mul (x a b c : String) (hx : IsIdentifier x = true)
    (ha : IsIntLiteral a = true) (hb : IsIntLiteral b = true) (hc : IsIntLiteral c = true) :
    Tokenizer.tokenize (x ++ " = " ++ a ++ " + " ++ b ++ " * " ++ c ++ ";").data
      = .ok [⟨.IDENTIFIER, x⟩, ⟨.OPERATOR, "="⟩, ⟨.INT_LITERAL, a⟩, ⟨.OPERATOR, "+"⟩,
          ⟨.INT_LITERAL, b⟩, ⟨.OPERATOR, "*"⟩, ⟨.INT_LITERAL, c⟩, ⟨.PUNCTUATION, ";"⟩,
          ⟨.END, "$"⟩] := by
  rw [tokenize_eq_lex]
  simp only [String.data_append, List.append_assoc]
  simp only [List.cons_append, List.nil_append]
  rw [lex_identifier x hx _ (head_nonid _ _ (by decide)), lex_space, lex_eq, lex_space,
    lex_intLiteral a ha _ (head_nondigit _ _ (by decide)), lex_space, lex_plus, lex_space,
    lex_intLiteral b hb _ (head_nondigit _ _ (by decide)), lex_space, lex_star, lex_space,
    lex_intLiteral c hc _ (head_nondigit _ _ (by decide)), lex_semi, lex_nil]
  simp

/-! ### One step of each routine -/

section Steps

variable (tokens : List Token) (tab : SymTab)

theorem exp_step (n i : Nat) {v : Int} {j : Nat}
    (h : Parser.term tokens tab n i = .val v j) :
    Parser.exp tokens tab (n + 1) i = Parser.expPrime tokens tab n v j := by
  rw [Parser.exp, h]

theorem term_step (n i : Nat) {v : Int} {j : Nat}
    (h : Parser.fact tokens tab n i = .val v j) :
    Parser.term tokens tab (n + 1) i = Parser.termPrime tokens tab n v j := by
  rw [Parser.term, h]

theorem expPrime_stop (n i : Nat) (acc : Int) {t : Token} (ht : tokens[i]? = some t)
    (h1 : t.lexeme ≠ "+") (h2 : t.lexeme ≠ "-") :
    Parser.expPrime tokens tab (n + 1) acc i = .val acc i := by
  rw [Parser.expPrime, ht]
  simp only [if_neg h1, if_neg h2]

theorem expPrime_plus (n i : Nat) (acc : Int) {t : Token} (ht : tokens[i]? = some t)
    (h1 : t.lexeme = "+") {v : Int} {j : Nat}
    (h : Parser.term tokens tab n (i + 1) = .val v j) :
    Parser.expPrime tokens tab (n + 1) acc i
      = Parser.expPrime tokens tab n (wrap (acc + v)) j := by
  rw [Parser.expPrime, ht]
  simp only [if_pos h1, h]

theorem expPrime_minus (n i : Nat) (acc : Int) {t : Token} (ht : tokens[i]? = some t)
    (h1 : t.lexeme = "-") {v : Int} {j : Nat}
    (h : Parser.term tokens tab n (i + 1) = .val v j) :
    Parser.expPrime tokens tab (n + 1) acc i
      = Parser.expPrime tokens tab n (wrap (acc - v)) j := by
  have hne : t.lexeme ≠ "+" := by rw [h1]; decide
  rw [Parser.expPrime, ht]
  simp only [if_neg hne, if_pos h1, h]

theorem termPrime_stop (n i : Nat) (acc : Int) {t : Token} (ht : tokens[i]? = some t)
    (h1 : t.lexeme ≠ "*") :
    Parser.termPrime tokens tab (n + 1) acc i = .val acc i := by
  rw [Parser.termPrime, ht]
  simp only [if_neg h1]

theorem termPrime_star (n i : Nat) (acc : Int) {t : Token} (ht : tokens[i]? = some t)
    (h1 : t.lexeme = "*") {v : Int} {j : Nat}
    (h : Parser.fact tokens tab n (i + 1) = .val v j) :
    Parser.termPrime tokens tab (n + 1) acc i
      = Parser.termPrime tokens tab n (wrap (acc * v)) j := by
  rw [Parser.termPrime, ht]
  simp only [if_pos h1, h]

theorem fact_intLiteral (n i : Nat) {a : String} (ht : tokens[i]? = some ⟨.INT_LITERAL, a⟩)
    (ha : IsIntLiteral a = true) (hv : litValue a ≤ 2147483647) :
    Parser.fact tokens tab (n + 1) i = .val (litValue a) (i + 1) := by
  obtain ⟨a1, a2, a3, a4, a5, a6, a7⟩ := intLiteral_ne ha
  rw [Parser.fact, ht]
  simp only [if_neg a1, if_neg a3, if_neg a4, if_true, stoi_intLiteral ha hv]

theorem fact_identifier (n i : Nat) {x : String} (ht : tokens[i]? = some ⟨.IDENTIFIER, x⟩)
    (hx : IsIdentifier x = true) :
    Parser.fact tokens tab (n + 1) i =
      match tab.find x with
      | none => .err (.symbolNotDefined x) (i + 1)
      | some value => .val value (i + 1) := by
  obtain ⟨a1, a2, a3, a4, a5, a6, a7⟩ := identifier_ne hx
  rw [Parser.fact, ht]
  simp only [if_neg a1, if_neg a3, if_neg a4, if_true]
  rw [if_neg (by decide)]

theorem fact_paren (n i : Nat) {t : Token} (ht : tokens[i]? = some t) (h1 : t.lexeme = "(")
    {v : Int} {j : Nat} (h : Parser.exp tokens tab n (i + 1) = .val v j) {u : Token}
    (hu : tokens[j]? = some u) (h2 : u.lexeme = ")") :
    Parser.fact tokens tab (n + 1) i = .val v (j + 1) := by
  rw [Parser.fact, ht]
  simp only [if_pos h1, h, hu, h2, ne_eq, not_true_eq_false, if_false]

theorem fact_paren_mismatch (n i : Nat) {t : Token} (ht : tokens[i]? = some t)
    (h1 : t.lexeme = "(") {v : Int} {j : Nat}
    (h : Parser.exp tokens tab n (i + 1) = .val v j) {u : Token}
    (hu : tokens[j]? = some u) (h2 : u.lexeme ≠ ")") :
    Parser.fact tokens tab (n + 1) i = .err .mismatchParenthesis j := by
  rw [Parser.fact, ht]
  simp only [if_pos h1, h, hu, h2, ne_eq, not_false_eq_true, if_true]

theorem fact_plus (n i : Nat) {t : Token} (ht : tokens[i]? = some t) (h1 : t.lexeme = "+") :
    Parser.fact tokens tab (n + 1) i = Parser.exp tokens tab n (i + 1) := by
  have hne : t.lexeme ≠ "(" := by rw [h1]; decide
  rw [Parser.fact, ht]
  simp only [if_neg hne, if_pos h1]

theorem fact_minus (n i : Nat) {t : Token} (ht : tokens[i]? = some t) (h1 : t.lexeme = "-")
    {v : Int} {j : Nat} (h : Parser.exp tokens tab n (i + 1) = .val v j) :
    Parser.fact tokens tab (n + 1) i = .val (wrap (-v)) j := by
  have hne : t.lexeme ≠ "(" := by rw [h1]; decide
  have hne2 : t.lexeme ≠ "+" := by rw [h1]; decide
  rw [Parser.fact, ht]
  simp only [if_neg hne, if_neg hne2, if_pos h1, h]

/-- A complete assignment: identifier, `=`, an expression that evaluates, and
`;`. -/
theorem assignment_done (n : Nat) (s : State) {x : String}
    (h0 : tokens[s.index]? = some ⟨.IDENTIFIER, x⟩) {e : Token}
    (h1 : tokens[s.index + 1]? = some e) (he : e.lexeme = "=") {v : Int} {j : Nat}
    (h : Parser.exp tokens s.symbol_table n (s.index + 2) = .val v j) {u : Token}
    (hu : tokens[j]? = some u) (h2 : u.lexeme = ";") :
    Parser.assignment tokens n s
      = .done ⟨j + 1, s.symbol_table.set x v, s.out ++ [⟨x, v⟩]⟩ := by
  rw [Parser.assignment, h0]
  simp only [ne_eq, not_true_eq_false, if_false, h1, he, h, hu, h2]

/-- An assignment whose expression stops the process. -/
theorem assignment_err (n : Nat) (s : State) {x : String}
    (h0 : tokens[s.index]? = some ⟨.IDENTIFIER, x⟩) {e : Token}
    (h1 : tokens[s.index + 1]? = some e) (he : e.lexeme = "=") {err : ParseError} {j : Nat}
    (h : Parser.exp tokens s.symbol_table n (s.index + 2) = .err err j) :
    Parser.assignment tokens n s = .failed err { s with index := j } := by
  rw [Parser.assignment, h0]
  simp only [ne_eq, not_true_eq_false, if_false, h1, he, h]

theorem program_end (n : Nat) (s : State) {t : Token} (ht : tokens[s.index]? = some t)
    (h : t.type = .END) : Parser.program tokens (n + 1) s = .done s := by
  rw [Parser.program, ht]
  simp only [if_pos h]

theorem program_step (n : Nat) (s : State) {t : Token} (ht : tokens[s.index]? = some t)
    (h : t.type ≠ .END) {s' : State} (ha : Parser.assignment tokens n s = .done s') :
    Parser.program tokens (n + 1) s = Parser.program tokens n s' := by
  rw [Parser.program, ht]
  simp only [if_neg h, ha]

theorem program_failed (n : Nat) (s : State) {t : Token} (ht : tokens[s.index]? = some t)
    (h : t.type ≠ .END) {e : ParseError} {s' : State}
    (ha : Parser.assignment tokens n s = .failed e s') :
    Parser.program tokens (n + 1) s = .failed e s' := by
  rw [Parser.program, ht]
  simp only [if_neg h, ha]

end Steps

theorem run_add_mul (x a b c : String)
    (ha : IsIntLiteral a = true) (hb : IsIntLiteral b = true) (hc : IsIntLiteral c = true)
    (hav : litValue a ≤ 2147483647) (hbv : litValue b ≤ 2147483647)
    (hcv : litValue c ≤ 2147483647)
    (hr : litValue a + litValue b * litValue c ≤ 2147483647) (tab : SymTab) :
    Parser.run [⟨.IDENTIFIER, x⟩, ⟨.OPERATOR, "="⟩, ⟨.INT_LITERAL, a⟩, ⟨.OPERATOR, "+"⟩,
          ⟨.INT_LITERAL, b⟩, ⟨.OPERATOR, "*"⟩, ⟨.INT_LITERAL, c⟩, ⟨.PUNCTUATION, ";"⟩,
          ⟨.END, "$"⟩] tab
      = .done ⟨8, tab.set x (litValue a + litValue b * litValue c),
          [⟨x, litValue a + litValue b * litValue c⟩]⟩ := by
  obtain ⟨a1, a2, a3, a4, a5, a6, a7⟩ := intLiteral_ne ha
  obtain ⟨b1, b2, b3, b4, b5, b6, b7⟩ := intLiteral_ne hb
  obtain ⟨c1, c2, c3, c4, c5, c6, c7⟩ := intLiteral_ne hc
  have hmul : ((litValue b * litValue c : Nat) : Int) = (litValue b : Int) * litValue c :=
    Nat.cast_mul _ _
  have w1 : wrap ((litValue b : Int) * litValue c) = litValue b * litValue c := by
    apply wrap_of_inInt32
    rw [← hmul]
    generalize litValue b * litValue c = p at *
    unfold InInt32
    omega
  have w2 : wrap ((litValue a : Int) + litValue b * litValue c)
      = litValue a + litValue b * litValue c := by
    apply wrap_of_inInt32
    rw [← hmul]
    generalize litValue b * litValue c = p at *
    unfold InInt32
    omega
  generalize htoks : ([⟨.IDENTIFIER, x⟩, ⟨.OPERATOR, "="⟩, ⟨.INT_LITERAL, a⟩, ⟨.OPERATOR, "+"⟩,
          ⟨.INT_LITERAL, b⟩, ⟨.OPERATOR, "*"⟩, ⟨.INT_LITERAL, c⟩, ⟨.PUNCTUATION, ";"⟩,
          ⟨.END, "$"⟩] : List Token) = toks
  have t0 : toks[0]? = some ⟨.IDENTIFIER, x⟩ := by rw [← htoks]; rfl
  have t1 : toks[1]? = some ⟨.OPERATOR, "="⟩ := by rw [← htoks]; rfl
  have t2 : toks[2]? = some ⟨.INT_LITERAL, a⟩ := by rw [← htoks]; rfl
  have t3 : toks[3]? = some ⟨.OPERATOR, "+"⟩ := by rw [← htoks]; rfl
  have t4 : toks[4]? = some ⟨.INT_LITERAL, b⟩ := by rw [← htoks]; rfl
  have t5 : toks[5]? = some ⟨.OPERATOR, "*"⟩ := by rw [← htoks]; rfl
  have t6 : toks[6]? = some ⟨.INT_LITERAL, c⟩ := by rw [← htoks]; rfl
  have t7 : toks[7]? = some ⟨.PUNCTUATION, ";"⟩ := by rw [← htoks]; rfl
  have t8 : toks[8]? = some ⟨.END, "$"⟩ := by rw [← htoks]; rfl
  have hlen : Parser.fuelFor toks = 30 := by rw [← htoks]; rfl
  have f2 : Parser.term toks tab 28 2 = .val (litValue a) 3 := by
    rw [term_step toks tab 27 2 (fact_intLiteral toks tab 26 2 t2 ha hav)]
    exact termPrime_stop toks tab 26 3 _ t3 (by decide)
  have f6 : Parser.fact toks tab 26 6 = .val (litValue c) 7 :=
    fact_intLiteral toks tab 25 6 t6 hc hcv
  have f4 : Parser.term toks tab 27 4 = .val (litValue b * litValue c) 7 := by
    rw [term_step toks tab 26 4 (fact_intLiteral toks tab 25 4 t4 hb hbv),
      termPrime_star toks tab 25 5 _ t5 rfl (fact_intLiteral toks tab 24 6 t6 hc hcv), w1]
    exact termPrime_stop toks tab 24 7 _ t7 (by decide)
  have e2 : Parser.exp toks tab 29 2 = .val (litValue a + litValue b * litValue c) 7 := by
    rw [exp_step toks tab 28 2 f2, expPrime_plus toks tab 27 3 _ t3 rfl f4, w2]
    exact expPrime_stop toks tab 26 7 _ t7 (by decide) (by decide)
  have as : Parser.assignment toks 29 ⟨0, tab, []⟩
      = .done ⟨8, tab.set x (litValue a + litValue b * litValue c),
          [⟨x, litValue a + litValue b * litValue c⟩]⟩ :=
    assignment_done toks 29 ⟨0, tab, []⟩ t0 t1 rfl e2 t7 rfl
  rw [Parser.run, hlen, program_step toks 29 ⟨0, tab, []⟩ t0 (by simp) as]
  exact program_end toks 28 _ t8 rfl

theorem toString_natCast (n : Nat) : toString ((n : Nat) : Int) = toString n := rfl

/-- C1. Multiplication binds tighter than addition: for every identifier `x`
and integer literals `a`, `b`, `c` whose values and whose result `a + b * c`
fit in an `int`, the program `x = a + b * c;` run from the empty symbol table
succeeds, stores `a + (b * c)` under `x` and prints exactly the one line
`x = <a + (b * c)>`. -/
theorem C1_multiplication_binds_tighter (x a b c : String) (hx : IsIdentifier x = true)
    (ha : IsIntLiteral a = true) (hb : IsIntLiteral b = true) (hc : IsIntLiteral c = true)
    (hav : litValue a ≤ 2147483647) (hbv : litValue b ≤ 2147483647)
    (hcv : litValue c ≤ 2147483647)
    (hr : litValue a + litValue b * litValue c ≤ 2147483647) :
    interpret (x ++ " = " ++ a ++ " + " ++ b ++ " * " ++ c ++ ";")
        = ⟨.success, [(x, ((litValue a + litValue b * litValue c : Nat) : Int))],
            [⟨x, ((litValue a + litValue b * litValue c : Nat) : Int)⟩]⟩ ∧
      (interpret (x ++ " = " ++ a ++ " + " ++ b ++ " * " ++ c ++ ";")).printed
        = [x ++ " = " ++ toString (litValue a + litValue b * litValue c)] := by
  have h : interpret (x ++ " = " ++ a ++ " + " ++ b ++ " * " ++ c ++ ";")
        = ⟨.success, [(x, ((litValue a + litValue b * litValue c : Nat) : Int))],
            [⟨x, ((litValue a + litValue b * litValue c : Nat) : Int)⟩]⟩ := by
    rw [interpret, interpretFrom, tokens_add_mul x a b c hx ha hb hc]
    simp only []
    rw [run_add_mul x a b c ha hb hc hav hbv hcv hr]
    simp [Outcome.ofRun, SymTab.set]
  refine ⟨h, ?_⟩
  rw [h]
  simp only [Outcome.printed, List.map, OutLine.text, toString_natCast]

/-- The instance of C1 given in the specification: `x = 2 + 3 * 4;` prints
`x = 14`. -/
theorem C1_witness :
    interpret "x = 2 + 3 * 4;" = ⟨.success, [("x", 14)], [⟨"x", 14⟩]⟩ ∧
      (interpret "x = 2 + 3 * 4;").printed = ["x = 14"] :=
  C1_multiplication_binds_tighter "x" "2" "3" "4" (by decide) (by decide) (by decide)
    (by decide) (by decide) (by decide) (by decide) (by decide)

end Interp

namespace Interp

/-! ### More fuel does not change a result -/

theorem fuelStable (tokens : List Token) (tab : SymTab) : ∀ n, FuelStable tokens tab n := by
  intro n
  induction n with
  | zero =>
    refine ⟨?_, ?_, ?_, ?_, ?_⟩
    · intro i r h hr; rw [Parser.exp] at h; exact absurd h.symm hr
    · intro acc i r h hr; rw [Parser.expPrime] at h; exact absurd h.symm hr
    · intro i r h hr; rw [Parser.term] at h; exact absurd h.symm hr
    · intro acc i r h hr; rw [Parser.termPrime] at h; exact absurd h.symm hr
    · intro i r h hr; rw [Parser.fact] at h; exact absurd h.symm hr
  | succ n ih =>
    obtain ⟨ihE, ihEP, ihT, ihTP, ihF⟩ := ih
    refine ⟨?_, ?_, ?_, ?_, ?_⟩
    · intro i r h hr
      rw [Parser.exp] at h ⊢
      cases ht : Parser.term tokens tab n i with
      | val v j =>
        rw [ht] at h
        rw [ihT _ _ ht (by simp)]
        exact ihEP _ _ _ h hr
      | err e k =>
        rw [ht] at h
        rw [ihT _ _ ht (by simp)]
        exact h
      | fuel =>
        rw [ht] at h
        exact absurd h.symm hr
    · intro acc i r h hr
      rw [Parser.expPrime] at h ⊢
      cases hg : tokens[i]? with
      | none => rw [hg] at h; exact h
      | some tok =>
        rw [hg] at h
        simp only at h ⊢
        by_cases h1 : tok.lexeme = "+"
        · simp only [if_pos h1] at h ⊢
          cases ht : Parser.term tokens tab n (i + 1) with
          | val v j =>
            rw [ht] at h
            rw [ihT _ _ ht (by simp)]
            exact ihEP _ _ _ h hr
          | err e k =>
            rw [ht] at h
            rw [ihT _ _ ht (by simp)]
            exact h
          | fuel =>
            rw [ht] at h
            exact absurd h.symm hr
        · simp only [if_neg h1] at h ⊢
          by_cases h2 : tok.lexeme = "-"
          · simp only [if_pos h2] at h ⊢
            cases ht : Parser.term tokens tab n (i + 1) with
            | val v j =>
              rw [ht] at h
              rw [ihT _ _ ht (by simp)]
              exact ihEP _ _ _ h hr
            | err e k =>
              rw [ht] at h
              rw [ihT _ _ ht (by simp)]
              exact h
            | fuel =>
              rw [ht] at h
              exact absurd h.symm hr
          · simp only [if_neg h2] at h ⊢
            exact h
    · intro i r h hr
      rw [Parser.term] at h ⊢
      cases ht : Parser.fact tokens tab n i with
      | val v j =>
        rw [ht] at h
        rw [ihF _ _ ht (by simp)]
        exact ihTP _ _ _ h hr
      | err e k =>
        rw [ht] at h
        rw [ihF _ _ ht (by simp)]
        exact h
      | fuel =>
        rw [ht] at h
        exact absurd h.symm hr
    · intro acc i r h hr
      rw [Parser.termPrime] at h ⊢
      cases hg : tokens[i]? with
      | none => rw [hg] at h; exact h
      | some tok =>
        rw [hg] at h
        simp only at h ⊢
        by_cases h1 : tok.lexeme = "*"
        · simp only [if_pos h1] at h ⊢
          cases ht : Parser.fact tokens tab n (i + 1) with
          | val v j =>
            rw [ht] at h
            rw [ihF _ _ ht (by simp)]
            exact ihTP _ _ _ h hr
          | err e k =>
            rw [ht] at h
            rw [ihF _ _ ht (by simp)]
            exact h
          | fuel =>
            rw [ht] at h
            exact absurd h.symm hr
        · simp only [if_neg h1] at h ⊢
          exact h
    · intro i r h hr
      rw [Parser.fact] at h ⊢
      cases hg : tokens[i]? with
      | none => rw [hg] at h; exact h
      | some tok =>
        rw [hg] at h
        simp only at h ⊢
        by_cases h1 : tok.lexeme = "("
        · simp only [if_pos h1] at h ⊢
          cases ht : Parser.exp tokens tab n (i + 1) with
          | val v j =>
            rw [ht] at h
            rw [ihE _ _ ht (by simp)]
            exact h
          | err e k =>
            rw [ht] at h
            rw [ihE _ _ ht (by simp)]
            exact h
          | fuel =>
            rw [ht] at h
            exact absurd h.symm hr
        · simp only [if_neg h1] at h ⊢
          by_cases h2 : tok.lexeme = "+"
          · simp only [if_pos h2] at h ⊢
            exact ihE _ _ h hr
          · simp only [if_neg h2] at h ⊢
            by_cases h3 : tok.lexeme = "-"
            · simp only [if_pos h3] at h ⊢
              cases ht : Parser.exp tokens tab n (i + 1) with
              | val v j =>
                rw [ht] at h
                rw [ihE _ _ ht (by simp)]
                exact h
              | err e k =>
                rw [ht] at h
                rw [ihE _ _ ht (by simp)]
                exact h
              | fuel =>
                rw [ht] at h
                exact absurd h.symm hr
            · simp only [if_neg h3] at h ⊢
              exact h

end Interp

namespace Interp

theorem exp_mono (tokens : List Token) (tab : SymTab) {n i : Nat} {r : Eval}
    (h : Parser.exp tokens tab n i = r) (hr : r ≠ .fuel) :
    ∀ m, n ≤ m → Parser.exp tokens tab m i = r := by
  intro m hm
  induction m, hm using Nat.le_induction with
  | base => exact h
  | succ k _ ih => exact (fuelStable tokens tab k).1 i r ih hr

theorem expPrime_mono (tokens : List Token) (tab : SymTab) {n i : Nat} {acc : Int} {r : Eval}
    (h : Parser.expPrime tokens tab n acc i = r) (hr : r ≠ .fuel) :
    ∀ m, n ≤ m → Parser.expPrime tokens tab m acc i = r := by
  intro m hm
  induction m, hm using Nat.le_induction with
  | base => exact h
  | succ k _ ih => exact (fuelStable tokens tab k).2.1 acc i r ih hr

theorem term_mono (tokens : List Token) (tab : SymTab) {n i : Nat} {r : Eval}
    (h : Parser.term tokens tab n i = r) (hr : r ≠ .fuel) :
    ∀ m, n ≤ m → Parser.term tokens tab m i = r := by
  intro m hm
  induction m, hm using Nat.le_induction with
  | base => exact h
  | succ k _ ih => exact (fuelStable tokens tab k).2.2.1 i r ih hr

theorem termPrime_mono (tokens : List Token) (tab : SymTab) {n i : Nat} {acc : Int}
    {r : Eval} (h : Parser.termPrime tokens tab n acc i = r) (hr : r ≠ .fuel) :
    ∀ m, n ≤ m → Parser.termPrime tokens tab m acc i = r := by
  intro m hm
  induction m, hm using Nat.le_induction with
  | base => exact h
  | succ k _ ih => exact (fuelStable tokens tab k).2.2.2.1 acc i r ih hr

theorem fact_mono (tokens : List Token) (tab : SymTab) {n i : Nat} {r : Eval}
    (h : Parser.fact tokens tab n i = r) (hr : r ≠ .fuel) :
    ∀ m, n ≤ m → Parser.fact tokens tab m i = r := by
  intro m hm
  induction m, hm using Nat.le_induction with
  | base => exact h
  | succ k _ ih => exact (fuelStable tokens tab k).2.2.2.2 i r ih hr

/-! ### Where an expression stops -/

theorem stopFacts (tokens : List Token) (tab : SymTab) : ∀ n, StopFacts tokens tab n := by
  intro n
  induction n with
  | zero =>
    refine ⟨?_, ?_, ?_, ?_⟩
    · intro i v j h; rw [Parser.exp] at h; exact Eval.noConfusion h
    · intro acc i v j h; rw [Parser.expPrime] at h; exact Eval.noConfusion h
    · intro i v j h; rw [Parser.term] at h; exact Eval.noConfusion h
    · intro acc i v j h; rw [Parser.termPrime] at h; exact Eval.noConfusion h
  | succ n ih =>
    obtain ⟨ihE, ihEP, ihT, ihTP⟩ := ih
    refine ⟨?_, ?_, ?_, ?_⟩
    · intro i v j h
      rw [Parser.exp] at h
      cases ht : Parser.term tokens tab n i with
      | val w k =>
        rw [ht] at h
        exact ihEP _ _ _ _ h (ihT _ _ _ ht)
      | err e k => rw [ht] at h; exact Eval.noConfusion h
      | fuel => rw [ht] at h; exact Eval.noConfusion h
    · intro acc i v j h hs
      rw [Parser.expPrime] at h
      cases hg : tokens[i]? with
      | none => rw [hg] at h; exact Eval.noConfusion h
      | some tok =>
        rw [hg] at h
        simp only at h
        by_cases h1 : tok.lexeme = "+"
        · simp only [if_pos h1] at h
          cases ht : Parser.term tokens tab n (i + 1) with
          | val w k =>
            rw [ht] at h
            exact ihEP _ _ _ _ h (ihT _ _ _ ht)
          | err e k => rw [ht] at h; exact Eval.noConfusion h
          | fuel => rw [ht] at h; exact Eval.noConfusion h
        · simp only [if_neg h1] at h
          by_cases h2 : tok.lexeme = "-"
          · simp only [if_pos h2] at h
            cases ht : Parser.term tokens tab n (i + 1) with
            | val w k =>
              rw [ht] at h
              exact ihEP _ _ _ _ h (ihT _ _ _ ht)
            | err e k => rw [ht] at h; exact Eval.noConfusion h
            | fuel => rw [ht] at h; exact Eval.noConfusion h
          · simp only [if_neg h2] at h
            injection h with hv hj
            subst hj
            obtain ⟨t, ht, hstar⟩ := hs
            rw [hg] at ht
            injection ht with ht
            subst ht
            exact ⟨tok, hg, h1, h2, hstar⟩
    · intro i v j h
      rw [Parser.term] at h
      cases ht : Parser.fact tokens tab n i with
      | val w k =>
        rw [ht] at h
        exact ihTP _ _ _ _ h
      | err e k => rw [ht] at h; exact Eval.noConfusion h
      | fuel => rw [ht] at h; exact Eval.noConfusion h
    · intro acc i v j h
      rw [Parser.termPrime] at h
      cases hg : tokens[i]? with
      | none => rw [hg] at h; exact Eval.noConfusion h
      | some tok =>
        rw [hg] at h
        simp only at h
        by_cases h1 : tok.lexeme = "*"
        · simp only [if_pos h1] at h
          cases ht : Parser.fact tokens tab n (i + 1) with
          | val w k =>
            rw [ht] at h
            exact ihTP _ _ _ _ h
          | err e k => rw [ht] at h; exact Eval.noConfusion h
          | fuel => rw [ht] at h; exact Eval.noConfusion h
        · simp only [if_neg h1] at h
          injection h with hv hj
          subst hj
          exact ⟨tok, hg, h1⟩

/-- After a unary sign, the value of the whole expression that follows is
what `fact`, `term` and `exp` return, at the cursor where it stopped. -/
theorem sign_spans_exp (tokens : List Token) (tab : SymTab) {i n j : Nat} {v w : Int}
    (hf : Parser.fact tokens tab (n + 1) i = .val w j)
    (h : Parser.exp tokens tab n (i + 1) = .val v j) :
    ∀ m, n + 3 ≤ m →
      Parser.exp tokens tab m i = .val w j ∧ Parser.term tokens tab m i = .val w j ∧
        Parser.fact tokens tab m i = .val w j := by
  obtain ⟨t, ht, hp, hm, hs⟩ := (stopFacts tokens tab n).1 _ _ _ h
  have hterm : Parser.term tokens tab (n + 2) i = .val w j := by
    rw [term_step tokens tab (n + 1) i hf]
    exact termPrime_stop tokens tab n j w ht hs
  have hexp : Parser.exp tokens tab (n + 3) i = .val w j := by
    rw [exp_step tokens tab (n + 2) i hterm]
    exact expPrime_stop tokens tab (n + 1) j w ht hp hm
  intro m hm
  exact ⟨exp_mono tokens tab hexp (by simp) m hm,
    term_mono tokens tab hterm (by simp) m (by omega),
    fact_mono tokens tab hf (by simp) m (by omega)⟩

end Interp

namespace Interp

theorem tokens_neg_add (x a b : String) (hx : IsIdentifier x = true)
    (ha : IsIntLiteral a = true) (hb : IsIntLiteral b = true) :
    Tokenizer.tokenize (x ++ " = -" ++ a ++ " + " ++ b ++ ";").data
      = .ok [⟨.IDENTIFIER, x⟩, ⟨.OPERATOR, "="⟩, ⟨.OPERATOR, "-"⟩, ⟨.INT_LITERAL, a⟩,
          ⟨.OPERATOR, "+"⟩, ⟨.INT_LITERAL, b⟩, ⟨.PUNCTUATION, ";"⟩, ⟨.END, "$"⟩] := by
  rw [tokenize_eq_lex]
  simp only [String.data_append, List.append_assoc]
  simp only [List.cons_append, List.nil_append]
  rw [lex_identifier x hx _ (head_nonid _ _ (by decide)), lex_space, lex_eq, lex_space,
    lex_minus, lex_intLiteral a ha _ (head_nondigit _ _ (by decide)), lex_space, lex_plus,
    lex_space, lex_intLiteral b hb _ (head_nondigit _ _ (by decide)), lex_semi, lex_nil]
  simp

theorem run_neg_add (x a b : String)
    (ha : IsIntLiteral a = true) (hb : IsIntLiteral b = true)
    (hr : litValue a + litValue b ≤ 2147483647) (tab : SymTab) :
    Parser.run [⟨.IDENTIFIER, x⟩, ⟨.OPERATOR, "="⟩, ⟨.OPERATOR, "-"⟩, ⟨.INT_LITERAL, a⟩,
          ⟨.OPERATOR, "+"⟩, ⟨.INT_LITERAL, b⟩, ⟨.PUNCTUATION, ";"⟩, ⟨.END, "$"⟩] tab
      = .done ⟨7, tab.set x (-((litValue a + litValue b : Nat) : Int)),
          [⟨x, -((litValue a + litValue b : Nat) : Int)⟩]⟩ := by
  have w1 : wrap ((litValue a : Int) + litValue b) = ((litValue a + litValue b : Nat) : Int) := by
    rw [wrap_of_inInt32]
    · push_cast; rfl
    · unfold InInt32; omega
  have w2 : wrap (-((litValue a + litValue b : Nat) : Int))
      = -((litValue a + litValue b : Nat) : Int) := by
    apply wrap_of_inInt32
    unfold InInt32; omega
  generalize htoks : ([⟨.IDENTIFIER, x⟩, ⟨.OPERATOR, "="⟩, ⟨.OPERATOR, "-"⟩, ⟨.INT_LITERAL, a⟩,
          ⟨.OPERATOR, "+"⟩, ⟨.INT_LITERAL, b⟩, ⟨.PUNCTUATION, ";"⟩, ⟨.END, "$"⟩] : List Token)
    = toks
  have t0 : toks[0]? = some ⟨.IDENTIFIER, x⟩ := by rw [← htoks]; rfl
  have t1 : toks[1]? = some ⟨.OPERATOR, "="⟩ := by rw [← htoks]; rfl
  have t2 : toks[2]? = some ⟨.OPERATOR, "-"⟩ := by rw [← htoks]; rfl
  have t3 : toks[3]? = some ⟨.INT_LITERAL, a⟩ := by rw [← htoks]; rfl
  have t4 : toks[4]? = some ⟨.OPERATOR, "+"⟩ := by rw [← htoks]; rfl
  have t5 : toks[5]? = some ⟨.INT_LITERAL, b⟩ := by rw [← htoks]; rfl
  have t6 : toks[6]? = some ⟨.PUNCTUATION, ";"⟩ := by rw [← htoks]; rfl
  have t7 : toks[7]? = some ⟨.END, "$"⟩ := by rw [← htoks]; rfl
  have hlen : Parser.fuelFor toks = 27 := by rw [← htoks]; rfl
  have f3 : Parser.term toks tab 3 3 = .val (litValue a) 4 := by
    rw [term_step toks tab 2 3 (fact_intLiteral toks tab 1 3 t3 ha (by omega))]
    exact termPrime_stop toks tab 1 4 _ t4 (by decide)
  have f5 : Parser.term toks tab 2 5 = .val (litValue b) 6 := by
    rw [term_step toks tab 1 5 (fact_intLiteral toks tab 0 5 t5 hb (by omega))]
    exact termPrime_stop toks tab 0 6 _ t6 (by decide)
  have e3 : Parser.exp toks tab 4 3 = .val ((litValue a + litValue b : Nat) : Int) 6 := by
    rw [exp_step toks tab 3 3 f3, expPrime_plus toks tab 2 4 _ t4 rfl f5, w1]
    exact expPrime_stop toks tab 1 6 _ t6 (by decide) (by decide)
  have f2 : Parser.fact toks tab 5 2 = .val (-((litValue a + litValue b : Nat) : Int)) 6 := by
    rw [fact_minus toks tab 4 2 t2 rfl e3, w2]
  have e2 := (sign_spans_exp toks tab f2 e3 26 (by omega)).1
  have as : Parser.assignment toks 26 ⟨0, tab, []⟩
      = .done ⟨7, tab.set x (-((litValue a + litValue b : Nat) : Int)),
          [⟨x, -((litValue a + litValue b : Nat) : Int)⟩]⟩ :=
    assignment_done toks 26 ⟨0, tab, []⟩ t0 t1 rfl e2 t6 rfl
  rw [Parser.run, hlen, program_step toks 26 ⟨0, tab, []⟩ t0 (by simp) as]
  exact program_end toks 25 _ t7 rfl

/-- C2. The unary sign spans a full expression.  In any token vector, when
the token under the cursor `i` has lexeme `-` and `exp` from `i + 1` returns
`v` at cursor `j` (with `-v` an `int`), then, given enough fuel, `exp`, `term`
and `fact` from `i` return `-v` at the same cursor `j`; with `+` they return
`v`.  Consequently `x = -a + b;` stores and prints `-(a + b)`. -/
theorem C2_unary_sign_spans_expression :
    (∀ (tokens : List Token) (tab : SymTab) (i n j : Nat) (t : Token) (v : Int),
      tokens[i]? = some t → Parser.exp tokens tab n (i + 1) = .val v j →
        (t.lexeme = "-" → InInt32 (-v) → ∀ m, n + 3 ≤ m →
          Parser.exp tokens tab m i = .val (-v) j ∧ Parser.term tokens tab m i = .val (-v) j ∧
            Parser.fact tokens tab m i = .val (-v) j) ∧
        (t.lexeme = "+" → ∀ m, n + 3 ≤ m →
          Parser.exp tokens tab m i = .val v j ∧ Parser.term tokens tab m i = .val v j ∧
            Parser.fact tokens tab m i = .val v j)) ∧
    (∀ x a b : String, IsIdentifier x = true → IsIntLiteral a = true → IsIntLiteral b = true →
      litValue a + litValue b ≤ 2147483647 →
        interpret (x ++ " = -" ++ a ++ " + " ++ b ++ ";")
            = ⟨.success, [(x, -((litValue a + litValue b : Nat) : Int))],
                [⟨x, -((litValue a + litValue b : Nat) : Int)⟩]⟩ ∧
          (interpret (x ++ " = -" ++ a ++ " + " ++ b ++ ";")).printed
            = [x ++ " = " ++ toString (-((litValue a + litValue b : Nat) : Int))]) := by
  constructor
  · intro tokens tab i n j t v ht h
    constructor
    · intro hl hv m hm
      have hf : Parser.fact tokens tab (n + 1) i = .val (-v) j := by
        rw [fact_minus tokens tab n i ht hl h, wrap_of_inInt32 hv]
      exact sign_spans_exp tokens tab hf h m hm
    · intro hl m hm
      have hf : Parser.fact tokens tab (n + 1) i = .val v j := by
        rw [fact_plus tokens tab n i ht hl, h]
      exact sign_spans_exp tokens tab hf h m hm
  · intro x a b hx ha hb hr
    have h : interpret (x ++ " = -" ++ a ++ " + " ++ b ++ ";")
            = ⟨.success, [(x, -((litValue a + litValue b : Nat) : Int))],
                [⟨x, -((litValue a + litValue b : Nat) : Int)⟩]⟩ := by
      rw [interpret, interpretFrom, tokens_neg_add x a b hx ha hb]
      simp only []
      rw [run_neg_add x a b ha hb hr]
      simp [Outcome.ofRun, SymTab.set]
    refine ⟨h, ?_⟩
    rw [h]
    simp only [Outcome.printed, List.map, OutLine.text]

/-- The instance of C2 given in the specification: in `x = -5 + 2;` the
expression after `=` evaluates to `-7`, and the program prints `x = -7`. -/
theorem C2_witness :
    (Parser.exp [⟨.IDENTIFIER, "x"⟩, ⟨.OPERATOR, "="⟩, ⟨.OPERATOR, "-"⟩, ⟨.INT_LITERAL, "5"⟩,
        ⟨.OPERATOR, "+"⟩, ⟨.INT_LITERAL, "2"⟩, ⟨.PUNCTUATION, ";"⟩, ⟨.END, "$"⟩] [] 7 2
      = .val (-7) 6) ∧
    interpret "x = -5 + 2;" = ⟨.success, [("x", -7)], [⟨"x", -7⟩]⟩ ∧
    (interpret "x = -5 + 2;").printed = ["x = -7"] :=
  ⟨((C2_unary_sign_spans_expression.1 _ [] 2 4 6 ⟨.OPERATOR, "-"⟩ 7 (by rfl) (by decide)).1
      (by rfl) (by decide) 7 (by decide)).1,
    C2_unary_sign_spans_expression.2 "x" "5" "2" (by decide) (by decide) (by decide)
      (by decide)⟩

end Interp

namespace Interp

theorem wrap_mul_wrap (a b : Int) : wrap (a * wrap b) = wrap (a * b) := by
  unfold wrap
  have h : (b + 2147483648) % 4294967296
      = (b + 2147483648) - 4294967296 * ((b + 2147483648) / 4294967296) :=
    Int.emod_def _ _
  rw [h]
  have e : a * (b + 2147483648 - 4294967296 * ((b + 2147483648) / 4294967296) - 2147483648)
        + 2147483648
      = (a * b + 2147483648) + 4294967296 * (-(a * ((b + 2147483648) / 4294967296))) := by
    ring
  rw [e, Int.add_mul_emod_self_left]

theorem tokens_mul_paren (x a b c : String) (hx : IsIdentifier x = true)
    (ha : IsIntLiteral a = true) (hb : IsIntLiteral b = true) (hc : IsIntLiteral c = true) :
    Tokenizer.tokenize (x ++ " = " ++ a ++ " * (" ++ b ++ " + " ++ c ++ ");").data
      = .ok [⟨.IDENTIFIER, x⟩, ⟨.OPERATOR, "="⟩, ⟨.INT_LITERAL, a⟩, ⟨.OPERATOR, "*"⟩,
          ⟨.LEFT_PARENTHESIS, "("⟩, ⟨.INT_LITERAL, b⟩, ⟨.OPERATOR, "+"⟩, ⟨.INT_LITERAL, c⟩,
          ⟨.RIGHT_PARENTHESIS, ")"⟩, ⟨.PUNCTUATION, ";"⟩, ⟨.END, "$"⟩] := by
  rw [tokenize_eq_lex]
  simp only [String.data_append, List.append_assoc]
  simp only [List.cons_append, List.nil_append]
  rw [lex_identifier x hx _ (head_nonid _ _ (by decide)), lex_space, lex_eq, lex_space,
    lex_intLiteral a ha _ (head_nondigit _ _ (by decide)), lex_space, lex_star, lex_space,
    lex_lparen, lex_intLiteral b hb _ (head_nondigit _ _ (by decide)), lex_space, lex_plus,
    lex_space, lex_intLiteral c hc _ (head_nondigit _ _ (by decide)), lex_rparen, lex_semi,
    lex_nil]
  simp

theorem run_mul_paren (x a b c : String)
    (ha : IsIntLiteral a = true) (hb : IsIntLiteral b = true) (hc : IsIntLiteral c = true)
    (hav : litValue a ≤ 2147483647) (hbv : litValue b ≤ 2147483647)
    (hcv : litValue c ≤ 2147483647)
    (hr : litValue a * (litValue b + litValue c) ≤ 2147483647) (tab : SymTab) :
    Parser.run [⟨.IDENTIFIER, x⟩, ⟨.OPERATOR, "="⟩, ⟨.INT_LITERAL, a⟩, ⟨.OPERATOR, "*"⟩,
          ⟨.LEFT_PARENTHESIS, "("⟩, ⟨.INT_LITERAL, b⟩, ⟨.OPERATOR, "+"⟩, ⟨.INT_LITERAL, c⟩,
          ⟨.RIGHT_PARENTHESIS, ")"⟩, ⟨.PUNCTUATION, ";"⟩, ⟨.END, "$"⟩] tab
      = .done ⟨10, tab.set x ((litValue a * (litValue b + litValue c) : Nat) : Int),
          [⟨x, ((litValue a * (litValue b + litValue c) : Nat) : Int)⟩]⟩ := by
  have w : wrap ((litValue a : Int) * wrap ((litValue b : Int) + litValue c))
      = ((litValue a * (litValue b + litValue c) : Nat) : Int) := by
    rw [wrap_mul_wrap]
    have e : (litValue a : Int) * ((litValue b : Int) + litValue c)
        = ((litValue a * (litValue b + litValue c) : Nat) : Int) := by push_cast; ring
    rw [e]
    apply wrap_of_inInt32
    unfold InInt32
    omega
  generalize htoks : ([⟨.IDENTIFIER, x⟩, ⟨.OPERATOR, "="⟩, ⟨.INT_LITERAL, a⟩, ⟨.OPERATOR, "*"⟩,
          ⟨.LEFT_PARENTHESIS, "("⟩, ⟨.INT_LITERAL, b⟩, ⟨.OPERATOR, "+"⟩, ⟨.INT_LITERAL, c⟩,
          ⟨.RIGHT_PARENTHESIS, ")"⟩, ⟨.PUNCTUATION, ";"⟩, ⟨.END, "$"⟩] : List Token) = toks
  have t0 : toks[0]? = some ⟨.IDENTIFIER, x⟩ := by rw [← htoks]; rfl
  have t1 : toks[1]? = some ⟨.OPERATOR, "="⟩ := by rw [← htoks]; rfl
  have t2 : toks[2]? = some ⟨.INT_LITERAL, a⟩ := by rw [← htoks]; rfl
  have t3 : toks[3]? = some ⟨.OPERATOR, "*"⟩ := by rw [← htoks]; rfl
  have t4 : toks[4]? = some ⟨.LEFT_PARENTHESIS, "("⟩ := by rw [← htoks]; rfl
  have t5 : toks[5]? = some ⟨.INT_LITERAL, b⟩ := by rw [← htoks]; rfl
  have t6 : toks[6]? = some ⟨.OPERATOR, "+"⟩ := by rw [← htoks]; rfl
  have t7 : toks[7]? = some ⟨.INT_LITERAL, c⟩ := by rw [← htoks]; rfl
  have t8 : toks[8]? = some ⟨.RIGHT_PARENTHESIS, ")"⟩ := by rw [← htoks]; rfl
  have t9 : toks[9]? = some ⟨.PUNCTUATION, ";"⟩ := by rw [← htoks]; rfl
  have t10 : toks[10]? = some ⟨.END, "$"⟩ := by rw [← htoks]; rfl
  have hlen : Parser.fuelFor toks = 36 := by rw [← htoks]; rfl
  have f5 : Parser.term toks tab 30 5 = .val (litValue b) 6 := by
    rw [term_step toks tab 29 5 (fact_intLiteral toks tab 28 5 t5 hb hbv)]
    exact termPrime_stop toks tab 28 6 _ t6 (by decide)
  have f7 : Parser.term toks tab 29 7 = .val (litValue c) 8 := by
    rw [term_step toks tab 28 7 (fact_intLiteral toks tab 27 7 t7 hc hcv)]
    exact termPrime_stop toks tab 27 8 _ t8 (by decide)
  have e5 : Parser.exp toks tab 31 5 = .val (wrap ((litValue b : Int) + litValue c)) 8 := by
    rw [exp_step toks tab 30 5 f5, expPrime_plus toks tab 29 6 _ t6 rfl f7]
    exact expPrime_stop toks tab 28 8 _ t8 (by decide) (by decide)
  have f4 : Parser.fact toks tab 32 4 = .val (wrap ((litValue b : Int) + litValue c)) 9 :=
    fact_paren toks tab 31 4 t4 rfl e5 t8 rfl
  have f2 : Parser.term toks tab 34 2
      = .val ((litValue a * (litValue b + litValue c) : Nat) : Int) 9 := by
    rw [term_step toks tab 33 2 (fact_intLiteral toks tab 32 2 t2 ha hav),
      termPrime_star toks tab 32 3 _ t3 rfl f4, w]
    exact termPrime_stop toks tab 31 9 _ t9 (by decide)
  have e2 : Parser.exp toks tab 35 2
      = .val ((litValue a * (litValue b + litValue c) : Nat) : Int) 9 := by
    rw [exp_step toks tab 34 2 f2]
    exact expPrime_stop toks tab 33 9 _ t9 (by decide) (by decide)
  have as := assignment_done toks 35 ⟨0, tab, []⟩ t0 t1 rfl e2 t9 rfl
  rw [Parser.run, hlen, program_step toks 35 ⟨0, tab, []⟩ t0 (by simp) as]
  exact program_end toks 34 _ t10 rfl

/-- C3. Parentheses override precedence: for every identifier `x` and
integer literals `a`, `b`, `c` whose values and whose result `a * (b + c)` fit
in an `int`, the program `x = a * (b + c);` run from the empty symbol table
succeeds, stores `a * (b + c)` under `x` and prints exactly the one line
`x = <a * (b + c)>`. -/
theorem C3_parentheses_override_precedence (x a b c : String) (hx : IsIdentifier x = true)
    (ha : IsIntLiteral a = true) (hb : IsIntLiteral b = true) (hc : IsIntLiteral c = true)
    (hav : litValue a ≤ 2147483647) (hbv : litValue b ≤ 2147483647)
    (hcv : litValue c ≤ 2147483647)
    (hr : litValue a * (litValue b + litValue c) ≤ 2147483647) :
    interpret (x ++ " = " ++ a ++ " * (" ++ b ++ " + " ++ c ++ ");")
        = ⟨.success, [(x, ((litValue a * (litValue b + litValue c) : Nat) : Int))],
            [⟨x, ((litValue a * (litValue b + litValue c) : Nat) : Int)⟩]⟩ ∧
      (interpret (x ++ " = " ++ a ++ " * (" ++ b ++ " + " ++ c ++ ");")).printed
        = [x ++ " = " ++ toString (litValue a * (litValue b + litValue c))] := by
  have h : interpret (x ++ " = " ++ a ++ " * (" ++ b ++ " + " ++ c ++ ");")
        = ⟨.success, [(x, ((litValue a * (litValue b + litValue c) : Nat) : Int))],
            [⟨x, ((litValue a * (litValue b + litValue c) : Nat) : Int)⟩]⟩ := by
    rw [interpret, interpretFrom, tokens_mul_paren x a b c hx ha hb hc]
    simp only []
    rw [run_mul_paren x a b c ha hb hc hav hbv hcv hr]
    simp [Outcome.ofRun, SymTab.set]
  refine ⟨h, ?_⟩
  rw [h]
  simp only [Outcome.printed, List.map, OutLine.text, toString_natCast]

/-- The instance of C3 given in the specification: `x = 2 * (3 + 4);` prints
`x = 14`. -/
theorem C3_witness :
    interpret "x = 2 * (3 + 4);" = ⟨.success, [("x", 14)], [⟨"x", 14⟩]⟩ ∧
      (interpret "x = 2 * (3 + 4);").printed = ["x = 14"] :=
  C3_parentheses_override_precedence "x" "2" "3" "4" (by decide) (by decide) (by decide)
    (by decide) (by decide) (by decide) (by decide) (by decide)

end Interp

namespace Interp

theorem find_set_self (t : SymTab) (k : String) (v : Int) : (t.set k v).find k = some v := by
  induction t with
  | nil => simp [SymTab.set, SymTab.find, List.lookup]
  | cons p rest ih =>
    obtain ⟨k', v'⟩ := p
    by_cases h : k' = k
    · simp [SymTab.set, SymTab.find, List.lookup, h]
    · have h' : (k == k') = false := by simpa using fun e => h e.symm
      simp only [SymTab.set, if_neg h, SymTab.find, List.lookup, h']
      exact ih

theorem find_set_other (t : SymTab) (k y : String) (v : Int) (hy : y ≠ k) :
    (t.set k v).find y = t.find y := by
  induction t with
  | nil =>
    have h' : (y == k) = false := by simpa using hy
    simp [SymTab.set, SymTab.find, List.lookup, h']
  | cons p rest ih =>
    obtain ⟨k', v'⟩ := p
    by_cases h : k' = k
    · subst h
      have h' : (y == k') = false := by simpa using hy
      simp [SymTab.set, SymTab.find, List.lookup, h']
    · simp only [SymTab.set, if_neg h, SymTab.find, List.lookup]
      cases hyk : (y == k') with
      | true => rfl
      | false => exact ih

theorem tokens_two_statements (a b m n : String) (ha : IsIdentifier a = true)
    (hb : IsIdentifier b = true) (hm : IsIntLiteral m = true) (hn : IsIntLiteral n = true) :
    Tokenizer.tokenize (a ++ " = " ++ m ++ "; " ++ b ++ " = " ++ a ++ " + " ++ n ++ ";").data
      = .ok [⟨.IDENTIFIER, a⟩, ⟨.OPERATOR, "="⟩, ⟨.INT_LITERAL, m⟩, ⟨.PUNCTUATION, ";"⟩,
          ⟨.IDENTIFIER, b⟩, ⟨.OPERATOR, "="⟩, ⟨.IDENTIFIER, a⟩, ⟨.OPERATOR, "+"⟩,
          ⟨.INT_LITERAL, n⟩, ⟨.PUNCTUATION, ";"⟩, ⟨.END, "$"⟩] := by
  rw [tokenize_eq_lex]
  simp only [String.data_append, List.append_assoc]
  simp only [List.cons_append, List.nil_append]
  rw [lex_identifier a ha _ (head_nonid _ _ (by decide)), lex_space, lex_eq, lex_space,
    lex_intLiteral m hm _ (head_nondigit _ _ (by decide)), lex_semi, lex_space,
    lex_identifier b hb _ (head_nonid _ _ (by decide)), lex_space, lex_eq, lex_space,
    lex_identifier a ha _ (head_nonid _ _ (by decide)), lex_space, lex_plus, lex_space,
    lex_intLiteral n hn _ (head_nondigit _ _ (by decide)), lex_semi, lex_nil]
  simp

theorem run_two_statements (a b m n : String) (ha : IsIdentifier a = true)
    (hm : IsIntLiteral m = true) (hn : IsIntLiteral n = true)
    (hmv : litValue m ≤ 2147483647) (hnv : litValue n ≤ 2147483647)
    (hr : litValue m + litValue n ≤ 2147483647) :
    Parser.run [⟨.IDENTIFIER, a⟩, ⟨.OPERATOR, "="⟩, ⟨.INT_LITERAL, m⟩, ⟨.PUNCTUATION, ";"⟩,
          ⟨.IDENTIFIER, b⟩, ⟨.OPERATOR, "="⟩, ⟨.IDENTIFIER, a⟩, ⟨.OPERATOR, "+"⟩,
          ⟨.INT_LITERAL, n⟩, ⟨.PUNCTUATION, ";"⟩, ⟨.END, "$"⟩] []
      = .done ⟨10, SymTab.set [(a, (litValue m : Int))] b ((litValue m + litValue n : Nat) : Int),
          [⟨a, (litValue m : Int)⟩, ⟨b, ((litValue m + litValue n : Nat) : Int)⟩]⟩ := by
  have w : wrap ((litValue m : Int) + litValue n) = ((litValue m + litValue n : Nat) : Int) := by
    rw [wrap_of_inInt32]
    · push_cast; rfl
    · unfold InInt32; omega
  generalize htoks : ([⟨.IDENTIFIER, a⟩, ⟨.OPERATOR, "="⟩, ⟨.INT_LITERAL, m⟩,
          ⟨.PUNCTUATION, ";"⟩, ⟨.IDENTIFIER, b⟩, ⟨.OPERATOR, "="⟩, ⟨.IDENTIFIER, a⟩,
          ⟨.OPERATOR, "+"⟩, ⟨.INT_LITERAL, n⟩, ⟨.PUNCTUATION, ";"⟩, ⟨.END, "$"⟩] : List Token)
    = toks
  have t0 : toks[0]? = some ⟨.IDENTIFIER, a⟩ := by rw [← htoks]; rfl
  have t1 : toks[1]? = some ⟨.OPERATOR, "="⟩ := by rw [← htoks]; rfl
  have t2 : toks[2]? = some ⟨.INT_LITERAL, m⟩ := by rw [← htoks]; rfl
  have t3 : toks[3]? = some ⟨.PUNCTUATION, ";"⟩ := by rw [← htoks]; rfl
  have t4 : toks[4]? = some ⟨.IDENTIFIER, b⟩ := by rw [← htoks]; rfl
  have t5 : toks[5]? = some ⟨.OPERATOR, "="⟩ := by rw [← htoks]; rfl
  have t6 : toks[6]? = some ⟨.IDENTIFIER, a⟩ := by rw [← htoks]; rfl
  have t7 : toks[7]? = some ⟨.OPERATOR, "+"⟩ := by rw [← htoks]; rfl
  have t8 : toks[8]? = some ⟨.INT_LITERAL, n⟩ := by rw [← htoks]; rfl
  have t9 : toks[9]? = some ⟨.PUNCTUATION, ";"⟩ := by rw [← htoks]; rfl
  have t10 : toks[10]? = some ⟨.END, "$"⟩ := by rw [← htoks]; rfl
  have hlen : Parser.fuelFor toks = 36 := by rw [← htoks]; rfl
  -- first statement
  have f2 : Parser.term toks [] 34 2 = .val (litValue m) 3 := by
    rw [term_step toks [] 33 2 (fact_intLiteral toks [] 32 2 t2 hm hmv)]
    exact termPrime_stop toks [] 32 3 _ t3 (by decide)
  have e2 : Parser.exp toks [] 35 2 = .val (litValue m) 3 := by
    rw [exp_step toks [] 34 2 f2]
    exact expPrime_stop toks [] 33 3 _ t3 (by decide) (by decide)
  have as1 := assignment_done toks 35 ⟨0, [], []⟩ t0 t1 rfl e2 t3 rfl
  -- second statement
  have hfind : SymTab.find (SymTab.set [] a (litValue m : Int)) a = some (litValue m : Int) :=
    find_set_self [] a _
  have f6 : Parser.fact toks (SymTab.set [] a (litValue m : Int)) 32 6
      = .val (litValue m) 7 := by
    rw [fact_identifier toks _ 31 6 t6 ha, hfind]
  have g6 : Parser.term toks (SymTab.set [] a (litValue m : Int)) 33 6
      = .val (litValue m) 7 := by
    rw [term_step toks _ 32 6 f6]
    exact termPrime_stop toks _ 31 7 _ t7 (by decide)
  have g8 : Parser.term toks (SymTab.set [] a (litValue m : Int)) 32 8
      = .val (litValue n) 9 := by
    rw [term_step toks _ 31 8 (fact_intLiteral toks _ 30 8 t8 hn hnv)]
    exact termPrime_stop toks _ 30 9 _ t9 (by decide)
  have e6 : Parser.exp toks (SymTab.set [] a (litValue m : Int)) 34 6
      = .val ((litValue m + litValue n : Nat) : Int) 9 := by
    rw [exp_step toks _ 33 6 g6, expPrime_plus toks _ 32 7 _ t7 rfl g8, w]
    exact expPrime_stop toks _ 31 9 _ t9 (by decide) (by decide)
  have as2 := assignment_done toks 34
    ⟨4, SymTab.set [] a (litValue m : Int), [] ++ [⟨a, (litValue m : Int)⟩]⟩ t4 t5 rfl e6 t9 rfl
  rw [Parser.run, hlen, program_step toks 35 ⟨0, [], []⟩ t0 (by simp) as1,
    program_step toks 34 _ t4 (by simp) as2]
  exact program_end toks 33 _ t10 rfl

/-- C4. An identifier on a right-hand side evaluates to the value most
recently assigned to it: for identifiers `a`, `b` (equal or distinct) and
integer literals `m`, `n` with `m`, `n` and `m + n` in the range of `int`, the
program `a = m; b = a + n;` run from the empty symbol table succeeds and
prints exactly the two lines `a = <m>` and `b = <m + n>`, in that order. -/
theorem C4_identifier_reads_last_assignment (a b m n : String) (ha : IsIdentifier a = true)
    (hb : IsIdentifier b = true) (hm : IsIntLiteral m = true) (hn : IsIntLiteral n = true)
    (hmv : litValue m ≤ 2147483647) (hnv : litValue n ≤ 2147483647)
    (hr : litValue m + litValue n ≤ 2147483647) :
    interpret (a ++ " = " ++ m ++ "; " ++ b ++ " = " ++ a ++ " + " ++ n ++ ";")
        = ⟨.success,
            SymTab.set [(a, (litValue m : Int))] b ((litValue m + litValue n : Nat) : Int),
            [⟨a, (litValue m : Int)⟩, ⟨b, ((litValue m + litValue n : Nat) : Int)⟩]⟩ ∧
      (interpret (a ++ " = " ++ m ++ "; " ++ b ++ " = " ++ a ++ " + " ++ n ++ ";")).printed
        = [a ++ " = " ++ toString (litValue m),
            b ++ " = " ++ toString (litValue m + litValue n)] := by
  have h : interpret (a ++ " = " ++ m ++ "; " ++ b ++ " = " ++ a ++ " + " ++ n ++ ";")
        = ⟨.success,
            SymTab.set [(a, (litValue m : Int))] b ((litValue m + litValue n : Nat) : Int),
            [⟨a, (litValue m : Int)⟩, ⟨b, ((litValue m + litValue n : Nat) : Int)⟩]⟩ := by
    rw [interpret, interpretFrom, tokens_two_statements a b m n ha hb hm hn]
    simp only []
    rw [run_two_statements a b m n ha hm hn hmv hnv hr]
    rfl
  refine ⟨h, ?_⟩
  rw [h]
  simp only [Outcome.printed, List.map, OutLine.text, toString_natCast]

/-- The instances of C4: `x = 5; y = x + 3;` prints `x = 5` then `y = 8`, and
with the same identifier on both sides `x = 5; x = x + 3;` prints `x = 5`
then `x = 8`. -/
theorem C4_witness :
    (interpret "x = 5; y = x + 3;" = ⟨.success, [("x", 5), ("y", 8)], [⟨"x", 5⟩, ⟨"y", 8⟩]⟩ ∧
      (interpret "x = 5; y = x + 3;").printed = ["x = 5", "y = 8"]) ∧
    (interpret "x = 5; x = x + 3;" = ⟨.success, [("x", 8)], [⟨"x", 5⟩, ⟨"x", 8⟩]⟩ ∧
      (interpret "x = 5; x = x + 3;").printed = ["x = 5", "x = 8"]) :=
  ⟨C4_identifier_reads_last_assignment "x" "y" "5" "3" (by decide) (by decide) (by decide)
      (by decide) (by decide) (by decide) (by decide),
    C4_identifier_reads_last_assignment "x" "x" "5" "3" (by decide) (by decide) (by decide)
      (by decide) (by decide) (by decide) (by decide)⟩

end Interp

namespace Interp

theorem lastShown_append (out : List OutLine) (x y : String) (v : Int) :
    lastShown (out ++ [⟨x, v⟩]) y = if x = y then some v else lastShown out y := by
  unfold lastShown
  by_cases h : x = y
  · simp [List.filter_append, h]
  · simp [List.filter_append, h]

theorem lastShown_isSome (out : List OutLine) (name : String) :
    (lastShown out name).isSome = true ↔ ∃ l ∈ out, l.name = name := by
  unfold lastShown
  rw [Option.isSome_map']
  constructor
  · intro h
    have hne : out.filter (fun l => decide (l.name = name)) ≠ [] := by
      intro he
      rw [he] at h
      simp at h
    obtain ⟨l, hl⟩ := List.exists_mem_of_ne_nil _ hne
    rw [List.mem_filter] at hl
    exact ⟨l, hl.1, by simpa using hl.2⟩
  · rintro ⟨l, hl, hn⟩
    have hm : l ∈ out.filter (fun l => decide (l.name = name)) := by
      rw [List.mem_filter]
      exact ⟨hl, by simpa using hn⟩
    cases hf : out.filter (fun l => decide (l.name = name)) with
    | nil => rw [hf] at hm; simp at hm
    | cons a as => simp [List.getLast?_cons]

/-- What a completed assignment did to the state. -/
theorem assignment_done_inv (tokens : List Token) (n : Nat) (s s' : State)
    (h : Parser.assignment tokens n s = .done s') :
    ∃ (x : Token) (v : Int) (j : Nat),
      tokens[s.index]? = some x ∧ x.type = .IDENTIFIER ∧
      Parser.exp tokens s.symbol_table n (s.index + 2) = .val v j ∧
      (∃ semi, tokens[j]? = some semi ∧ semi.lexeme = ";") ∧
      s' = ⟨j + 1, s.symbol_table.set x.lexeme v, s.out ++ [⟨x.lexeme, v⟩]⟩ := by
  unfold Parser.assignment at h
  cases h0 : tokens[s.index]? with
  | none => rw [h0] at h; exact Run.noConfusion h
  | some x =>
    rw [h0] at h
    simp only at h
    by_cases hx : x.type = .IDENTIFIER
    · simp only [hx, ne_eq, not_true_eq_false, if_false] at h
      cases h1 : tokens[s.index + 1]? with
      | none => rw [h1] at h; exact Run.noConfusion h
      | some e =>
        rw [h1] at h
        simp only at h
        by_cases he : e.lexeme = "="
        · simp only [he, ne_eq, not_true_eq_false, if_false] at h
          cases hexp : Parser.exp tokens s.symbol_table n (s.index + 2) with
          | fuel => rw [hexp] at h; exact Run.noConfusion h
          | err e k => rw [hexp] at h; exact Run.noConfusion h
          | val v j =>
            rw [hexp] at h
            simp only at h
            cases hj : tokens[j]? with
            | none => rw [hj] at h; exact Run.noConfusion h
            | some semi =>
              rw [hj] at h
              simp only at h
              by_cases hs : semi.lexeme = ";"
              · simp only [hs, ne_eq, not_true_eq_false, if_false] at h
                injection h with h
                exact ⟨x, v, j, rfl, hx, rfl, ⟨semi, hj, hs⟩, h.symm⟩
              · simp only [hs, ne_eq, not_false_eq_true, if_true] at h
                exact Run.noConfusion h
        · simp only [he, ne_eq, not_false_eq_true, if_true] at h
          exact Run.noConfusion h
    · simp only [hx, ne_eq, not_false_eq_true, if_true] at h
      exact Run.noConfusion h

theorem assignment_keeps_match (tokens : List Token) (n : Nat) (s s' : State)
    (h : Parser.assignment tokens n s = .done s') (hs : TableMatchesOutput s) :
    TableMatchesOutput s' := by
  obtain ⟨x, v, j, _, _, _, _, rfl⟩ := assignment_done_inv tokens n s s' h
  intro name
  simp only
  rw [lastShown_append]
  by_cases hn : x.lexeme = name
  · rw [if_pos hn, ← hn, find_set_self]
  · rw [if_neg hn, find_set_other _ _ _ _ (fun e => hn e.symm)]
    exact hs name

theorem program_keeps_match (tokens : List Token) :
    ∀ (n : Nat) (s s' : State), Parser.program tokens n s = .done s' →
      TableMatchesOutput s → TableMatchesOutput s' := by
  intro n
  induction n with
  | zero => intro s s' h; rw [Parser.program] at h; exact Run.noConfusion h
  | succ n ih =>
    intro s s' h hs
    rw [Parser.program] at h
    cases ht : tokens[s.index]? with
    | none => rw [ht] at h; exact Run.noConfusion h
    | some tok =>
      rw [ht] at h
      simp only at h
      by_cases he : tok.type = .END
      · simp only [if_pos he] at h
        injection h with h
        rw [← h]; exact hs
      · simp only [if_neg he] at h
        cases ha : Parser.assignment tokens n s with
        | done s1 =>
          rw [ha] at h
          exact ih s1 s' h (assignment_keeps_match tokens n s s1 ha hs)
        | failed e s1 => rw [ha] at h; exact Run.noConfusion h
        | fuel => rw [ha] at h; exact Run.noConfusion h

theorem interpret_success_inv (source : String) (h : (interpret source).status = .success) :
    ∃ tokens s, Tokenizer.tokenize source.data = .ok tokens ∧
      Parser.run tokens [] = .done s ∧
      interpret source = ⟨.success, s.symbol_table, s.out⟩ := by
  unfold interpret interpretFrom at h ⊢
  cases ht : Tokenizer.tokenize source.data with
  | ok tokens =>
    rw [ht] at h
    simp only at h ⊢
    cases hr : Parser.run tokens [] with
    | done s => exact ⟨tokens, s, rfl, hr, rfl⟩
    | failed e s => rw [hr] at h; simp [Outcome.ofRun] at h
    | fuel => rw [hr] at h; simp [Outcome.ofRun] at h
  | error e i => rw [ht] at h; simp at h
  | fuel => rw [ht] at h; simp at h

/-- C5. Last write wins and nothing is deleted.  For every program that runs
to completion from the empty symbol table, the keys of the final table are
exactly the identifiers named in the output lines, and each is mapped to the
value shown in the last output line that names it (stated for a source text
and for an arbitrary token vector); and a completed assignment appends one
line for its identifier `x`, stores that value under `x`, and leaves the
value of every other identifier unchanged. -/
theorem C5_last_write_wins :
    (∀ source : String, (interpret source).status = .success →
      ∀ name,
        (interpret source).symbol_table.find name = lastShown (interpret source).out name ∧
        (((interpret source).symbol_table.find name).isSome = true ↔
          ∃ l ∈ (interpret source).out, l.name = name)) ∧
    (∀ (tokens : List Token) (s : State), Parser.run tokens [] = .done s →
      ∀ name,
        s.symbol_table.find name = lastShown s.out name ∧
        ((s.symbol_table.find name).isSome = true ↔ ∃ l ∈ s.out, l.name = name)) ∧
    (∀ (tokens : List Token) (n : Nat) (s s' : State),
      Parser.assignment tokens n s = .done s' →
        ∃ x v, s'.out = s.out ++ [⟨x, v⟩] ∧ s'.symbol_table.find x = some v ∧
          ∀ y, y ≠ x → s'.symbol_table.find y = s.symbol_table.find y) := by
  have key : ∀ (tokens : List Token) (s : State), Parser.run tokens [] = .done s →
      ∀ name,
        s.symbol_table.find name = lastShown s.out name ∧
        ((s.symbol_table.find name).isSome = true ↔ ∃ l ∈ s.out, l.name = name) := by
    intro tokens s h name
    have hm : TableMatchesOutput s :=
      program_keeps_match tokens _ _ s h (fun _ => rfl)
    refine ⟨hm name, ?_⟩
    rw [hm name]
    exact lastShown_isSome s.out name
  refine ⟨?_, key, ?_⟩
  · intro source h name
    obtain ⟨tokens, s, _, hr, hi⟩ := interpret_success_inv source h
    rw [hi]
    exact key tokens s hr name
  · intro tokens n s s' h
    obtain ⟨x, v, j, _, _, _, _, rfl⟩ := assignment_done_inv tokens n s s' h
    exact ⟨x.lexeme, v, rfl, find_set_self _ _ _, fun y hy => find_set_other _ _ _ _ hy⟩

/-- The instance of C5 given in the specification: `x = 1; x = 2;` prints
`x = 1` then `x = 2` and ends with `x` mapped to 2. -/
theorem C5_witness :
    (interpret "x = 1; x = 2;").printed = ["x = 1", "x = 2"] ∧
    (interpret "x = 1; x = 2;").symbol_table = [("x", 2)] ∧
    ∀ name,
      (interpret "x = 1; x = 2;").symbol_table.find name
          = lastShown (interpret "x = 1; x = 2;").out name ∧
        (((interpret "x = 1; x = 2;").symbol_table.find name).isSome = true ↔
          ∃ l ∈ (interpret "x = 1; x = 2;").out, l.name = name) :=
  ⟨by decide, by decide, C5_last_write_wins.1 "x = 1; x = 2;" (by decide)⟩

end Interp

namespace Interp

/-! ### The tokens of a successful scan -/

theorem lex_ok_inv : ∀ (k : Nat) (rest : List Char), rest.length ≤ k →
    ∀ (i : Nat) (toks out : List Token), lex rest i toks = .ok out →
      ∃ body, out = toks ++ body ++ [⟨.END, "$"⟩] ∧ ∀ t ∈ body, LexToken t := by
  intro k
  induction k with
  | zero =>
    intro rest hk i toks out h
    have : rest = [] := List.length_eq_zero.mp (by omega)
    subst this
    rw [lex_nil] at h
    injection h with h
    exact ⟨[], by simp [h], by simp⟩
  | succ k ih =>
    intro rest hk i toks out h
    cases rest with
    | nil =>
      rw [lex_nil] at h
      injection h with h
      exact ⟨[], by simp [h], by simp⟩
    | cons c r =>
      have hr : r.length ≤ k := by simpa using hk
      have step : ∀ (tk : Token) (r' : List Char) (i' : Nat), LexToken tk → r'.length ≤ k →
          lex r' i' (toks ++ [tk]) = .ok out →
          ∃ body, out = toks ++ body ++ [⟨.END, "$"⟩] ∧ ∀ t ∈ body, LexToken t := by
        intro tk r' i' htk hr' h'
        obtain ⟨body, hb, hall⟩ := ih r' hr' i' _ out h'
        refine ⟨tk :: body, by simp [hb], ?_⟩
        intro t ht
        rcases List.mem_cons.mp ht with e | e
        · rw [e]; exact htk
        · exact hall t e
      rw [lex_cons] at h
      by_cases h0 : c = '0'
      · rw [if_pos h0] at h
        split at h
        · exact LexResult.noConfusion h
        · exact step _ r _ (Or.inr (Or.inl ⟨rfl, by decide⟩)) hr h
      · rw [if_neg h0] at h
        by_cases h1 : isdigit c = true
        · rw [if_pos h1] at h
          refine step _ _ _ (Or.inr (Or.inl ⟨rfl, ?_⟩))
            (le_trans (List.dropWhile_sublist _).length_le hr) h
          unfold IsIntLiteral
          simp only [h1, h0, decide_False, Bool.false_and, Bool.false_or, Bool.true_and,
            ne_eq, not_false_eq_true, decide_True, List.all_eq_true]
          intro d hd
          exact (List.mem_takeWhile_imp hd)
        · rw [if_neg h1] at h
          by_cases h2 : isIdStart c = true
          · rw [if_pos h2] at h
            refine step _ _ _ (Or.inl ⟨rfl, ?_⟩)
              (le_trans (List.dropWhile_sublist _).length_le hr) h
            unfold IsIdentifier
            simp only [h2, Bool.true_and, List.all_eq_true]
            intro d hd
            exact (List.mem_takeWhile_imp hd)
          · rw [if_neg h2] at h
            by_cases h3 : c = '='
            · rw [if_pos h3] at h
              exact step _ r _ (by simp [LexToken]) hr h
            · rw [if_neg h3] at h
              by_cases h4 : c = '+'
              · rw [if_pos h4] at h
                exact step _ r _ (by simp [LexToken]) hr h
              · rw [if_neg h4] at h
                by_cases h5 : c = '-'
                · rw [if_pos h5] at h
                  exact step _ r _ (by simp [LexToken]) hr h
                · rw [if_neg h5] at h
                  by_cases h6 : c = '*'
                  · rw [if_pos h6] at h
                    exact step _ r _ (by simp [LexToken]) hr h
                  · rw [if_neg h6] at h
                    by_cases h7 : c = '('
                    · rw [if_pos h7] at h
                      exact step _ r _ (by simp [LexToken]) hr h
                    · rw [if_neg h7] at h
                      by_cases h8 : c = ')'
                      · rw [if_pos h8] at h
                        exact step _ r _ (by simp [LexToken]) hr h
                      · rw [if_neg h8] at h
                        by_cases h9 : c = ';'
                        · rw [if_pos h9] at h
                          exact step _ r _ (by simp [LexToken]) hr h
                        · rw [if_neg h9] at h
                          by_cases h10 : isspace c = true
                          · rw [if_pos h10] at h
                            obtain ⟨body, hb, hall⟩ := ih r hr _ _ out h
                            exact ⟨body, hb, hall⟩
                          · rw [if_neg h10] at h
                            exact LexResult.noConfusion h

/-- The token vector of a successful `tokenize`: tokens of the shape
`LexToken`, then the `END` token. -/
theorem tokenize_ok_inv (str : List Char) (tokens : List Token)
    (h : Tokenizer.tokenize str = .ok tokens) :
    ∃ body, tokens = body ++ [⟨.END, "$"⟩] ∧ ∀ t ∈ body, LexToken t := by
  rw [tokenize_eq_lex] at h
  obtain ⟨body, hb, hall⟩ := lex_ok_inv str.length str (le_refl _) 0 [] tokens h
  exact ⟨body, by simpa using hb, hall⟩

theorem lexToken_type_ne_end {t : Token} (h : LexToken t) : t.type ≠ .END := by
  unfold LexToken at h
  rcases h with ⟨h, _⟩ | ⟨h, _⟩ | h | h | h | h | h | h | h <;> simp [h]

theorem lexToken_punct_iff {t : Token} (h : LexToken t) :
    t.type = .PUNCTUATION ↔ t.lexeme = ";" := by
  unfold LexToken at h
  rcases h with ⟨h, hx⟩ | ⟨h, hx⟩ | h | h | h | h | h | h | h
  · simp [h, (identifier_ne hx).2.2.2.2.2.2]
  · simp [h, (intLiteral_ne hx).2.2.2.2.2.2]
  all_goals (subst h; decide)

end Interp

namespace Interp

/-! ### What an expression consumes -/

theorem getElem?_lt {tokens : List Token} {i : Nat} {t : Token} (h : tokens[i]? = some t) :
    i < tokens.length := by
  by_contra hn
  rw [List.getElem?_eq_none (by omega)] at h
  exact Option.noConfusion h

theorem getElem?_mem {tokens : List Token} {i : Nat} {t : Token} (h : tokens[i]? = some t) :
    t ∈ tokens := by
  have hlt := getElem?_lt h
  rw [List.getElem?_eq_getElem hlt] at h
  injection h with h
  rw [← h]
  exact List.getElem_mem _

theorem noSemi_refl (tokens : List Token) (i : Nat) : NoSemiBetween tokens i i := by
  intro k h1 h2; omega

theorem noSemi_cons {tokens : List Token} {i j : Nat} {t : Token} (ht : tokens[i]? = some t)
    (hp : t.type ≠ .PUNCTUATION) (h : NoSemiBetween tokens (i + 1) j) :
    NoSemiBetween tokens i j := by
  intro k h1 h2 u hu
  by_cases hk : k = i
  · subst hk
    rw [ht] at hu
    injection hu with hu
    rw [← hu]; exact hp
  · exact h k (by omega) h2 u hu

theorem noSemi_trans {tokens : List Token} {i j k : Nat} (h1 : NoSemiBetween tokens i j)
    (h2 : NoSemiBetween tokens j k) : NoSemiBetween tokens i k := by
  intro m hm1 hm2 u hu
  by_cases hm : m < j
  · exact h1 m hm1 hm u hu
  · exact h2 m (by omega) hm2 u hu

theorem noSemi_one {tokens : List Token} {i : Nat} {t : Token} (ht : tokens[i]? = some t)
    (hp : t.type ≠ .PUNCTUATION) : NoSemiBetween tokens i (i + 1) :=
  noSemi_cons ht hp (noSemi_refl tokens (i + 1))

theorem span_fuel (tokens : List Token) (b : Bool) (i : Nat) : Span tokens b i .fuel := by
  intro v j h; exact Eval.noConfusion h

theorem span_err (tokens : List Token) (b : Bool) (i : Nat) (e : ParseError) (k : Nat) :
    Span tokens b i (.err e k) := by
  intro v j h; exact Eval.noConfusion h

/-- The span of a routine that first consumes from `i` to `k` (strictly) and
then continues from `k`. -/
theorem span_seq {tokens : List Token} {i k : Nat} {r : Eval} (b : Bool) (hik : i < k)
    (hns : NoSemiBetween tokens i k) (h : Span tokens false k r) : Span tokens b i r := by
  intro v j hr
  obtain ⟨h1, h2, h3⟩ := h v j hr
  simp only [Bool.false_eq_true, if_false] at h1
  refine ⟨?_, h2, noSemi_trans hns h3⟩
  cases b
  · simp only [Bool.false_eq_true, if_false]; omega
  · simp only [if_true]; omega

theorem spanFacts (tokens : List Token) (tab : SymTab)
    (hT : ∀ t ∈ tokens, t.type = .PUNCTUATION → t.lexeme = ";") :
    ∀ n, SpanFacts tokens tab n := by
  have notSemi : ∀ {i : Nat} {t : Token}, tokens[i]? = some t → t.lexeme ≠ ";" →
      t.type ≠ .PUNCTUATION := fun ht hl hp => hl (hT _ (getElem?_mem ht) hp)
  intro n
  induction n with
  | zero =>
    refine ⟨?_, ?_, ?_, ?_, ?_⟩
    · intro i; rw [Parser.exp]; exact span_fuel _ _ _
    · intro acc i; rw [Parser.expPrime]; exact span_fuel _ _ _
    · intro i; rw [Parser.term]; exact span_fuel _ _ _
    · intro acc i; rw [Parser.termPrime]; exact span_fuel _ _ _
    · intro i; rw [Parser.fact]; exact span_fuel _ _ _
  | succ n ih =>
    obtain ⟨ihE, ihEP, ihT, ihTP, ihF⟩ := ih
    refine ⟨?_, ?_, ?_, ?_, ?_⟩
    · intro i
      rw [Parser.exp]
      cases ht : Parser.term tokens tab n i with
      | val w k =>
        obtain ⟨h1, _, h3⟩ := ihT i w k (by rw [ht])
        exact span_seq true (by simpa using h1) h3 (ihEP w k)
      | err e k => exact span_err _ _ _ _ _
      | fuel => exact span_fuel _ _ _
    · intro acc i
      rw [Parser.expPrime]
      cases hg : tokens[i]? with
      | none => exact span_err _ _ _ _ _
      | some tok =>
        simp only
        by_cases h1 : tok.lexeme = "+"
        · simp only [if_pos h1]
          have hp : tok.type ≠ .PUNCTUATION := notSemi hg (by rw [h1]; decide)
          cases ht : Parser.term tokens tab n (i + 1) with
          | val w k =>
            obtain ⟨h1', _, h3⟩ := ihT (i + 1) w k (by rw [ht])
            have hlt : i + 1 < k := by simpa using h1'
            exact span_seq false (by omega) (noSemi_cons hg hp h3) (ihEP _ k)
          | err e k => exact span_err _ _ _ _ _
          | fuel => exact span_fuel _ _ _
        · simp only [if_neg h1]
          by_cases h2 : tok.lexeme = "-"
          · simp only [if_pos h2]
            have hp : tok.type ≠ .PUNCTUATION := notSemi hg (by rw [h2]; decide)
            cases ht : Parser.term tokens tab n (i + 1) with
            | val w k =>
              obtain ⟨h1', _, h3⟩ := ihT (i + 1) w k (by rw [ht])
              have hlt : i + 1 < k := by simpa using h1'
              exact span_seq false (by omega) (noSemi_cons hg hp h3) (ihEP _ k)
            | err e k => exact span_err _ _ _ _ _
            | fuel => exact span_fuel _ _ _
          · simp only [if_neg h2]
            intro v j hr
            injection hr with _ hj
            subst hj
            exact ⟨by simp, le_of_lt (getElem?_lt hg), noSemi_refl _ _⟩
    · intro i
      rw [Parser.term]
      cases ht : Parser.fact tokens tab n i with
      | val w k =>
        obtain ⟨h1, _, h3⟩ := ihF i w k (by rw [ht])
        exact span_seq true (by simpa using h1) h3 (ihTP w k)
      | err e k => exact span_err _ _ _ _ _
      | fuel => exact span_fuel _ _ _
    · intro acc i
      rw [Parser.termPrime]
      cases hg : tokens[i]? with
      | none => exact span_err _ _ _ _ _
      | some tok =>
        simp only
        by_cases h1 : tok.lexeme = "*"
        · simp only [if_pos h1]
          have hp : tok.type ≠ .PUNCTUATION := notSemi hg (by rw [h1]; decide)
          cases ht : Parser.fact tokens tab n (i + 1) with
          | val w k =>
            obtain ⟨h1', _, h3⟩ := ihF (i + 1) w k (by rw [ht])
            have hlt : i + 1 < k := by simpa using h1'
            exact span_seq false (by omega) (noSemi_cons hg hp h3) (ihTP _ k)
          | err e k => exact span_err _ _ _ _ _
          | fuel => exact span_fuel _ _ _
        · simp only [if_neg h1]
          intro v j hr
          injection hr with _ hj
          subst hj
          exact ⟨by simp, le_of_lt (getElem?_lt hg), noSemi_refl _ _⟩
    · intro i
      rw [Parser.fact]
      cases hg : tokens[i]? with
      | none => exact span_err _ _ _ _ _
      | some tok =>
        simp only
        have hlt := getElem?_lt hg
        by_cases h1 : tok.lexeme = "("
        · simp only [if_pos h1]
          have hp : tok.type ≠ .PUNCTUATION := notSemi hg (by rw [h1]; decide)
          cases ht : Parser.exp tokens tab n (i + 1) with
          | val w k =>
            simp only
            obtain ⟨h1', _, h3⟩ := ihE (i + 1) w k (by rw [ht])
            have hlt : i + 1 < k := by simpa using h1'
            cases hk : tokens[k]? with
            | none => exact span_err _ _ _ _ _
            | some close =>
              simp only
              by_cases hc : close.lexeme = ")"
              · simp only [hc, ne_eq, not_true_eq_false, if_false]
                have hpc : close.type ≠ .PUNCTUATION := notSemi hk (by rw [hc]; decide)
                intro v j hr
                injection hr with _ hj
                subst hj
                refine ⟨by simp; omega, getElem?_lt hk, ?_⟩
                exact noSemi_trans (noSemi_cons hg hp h3) (noSemi_one hk hpc)
              · simp only [hc, ne_eq, not_false_eq_true, if_true]
                exact span_err _ _ _ _ _
          | err e k => exact span_err _ _ _ _ _
          | fuel => exact span_fuel _ _ _
        · simp only [if_neg h1]
          by_cases h2 : tok.lexeme = "+"
          · simp only [if_pos h2]
            have hp : tok.type ≠ .PUNCTUATION := notSemi hg (by rw [h2]; decide)
            intro v j hr
            obtain ⟨h1', h2', h3⟩ := ihE (i + 1) v j hr
            have hlt : i + 1 < j := by simpa using h1'
            exact ⟨by simp; omega, h2', noSemi_cons hg hp h3⟩
          · simp only [if_neg h2]
            by_cases h3 : tok.lexeme = "-"
            · simp only [if_pos h3]
              have hp : tok.type ≠ .PUNCTUATION := notSemi hg (by rw [h3]; decide)
              cases ht : Parser.exp tokens tab n (i + 1) with
              | val w k =>
                simp only
                obtain ⟨h1', h2', h3'⟩ := ihE (i + 1) w k (by rw [ht])
                have hlt : i + 1 < k := by simpa using h1'
                intro v j hr
                injection hr with _ hj
                subst hj
                exact ⟨by simp; omega, h2', noSemi_cons hg hp h3'⟩
              | err e k => exact span_err _ _ _ _ _
              | fuel => exact span_fuel _ _ _
            · simp only [if_neg h3]
              by_cases h4 : tok.type = .INT_LITERAL
              · simp only [if_pos h4]
                have hp : tok.type ≠ .PUNCTUATION := by rw [h4]; decide
                cases hs : stoi tok.lexeme with
                | ok value =>
                  simp only
                  intro v j hr
                  injection hr with _ hj
                  subst hj
                  exact ⟨by simp, hlt, noSemi_one hg hp⟩
                | error e => exact span_err _ _ _ _ _
              · simp only [if_neg h4]
                by_cases h5 : tok.type = .IDENTIFIER
                · simp only [if_pos h5]
                  have hp : tok.type ≠ .PUNCTUATION := by rw [h5]; decide
                  cases hs : tab.find tok.lexeme with
                  | none => exact span_err _ _ _ _ _
                  | some value =>
                    simp only
                    intro v j hr
                    injection hr with _ hj
                    subst hj
                    exact ⟨by simp, hlt, noSemi_one hg hp⟩
                · simp only [if_neg h5]
                  exact span_err _ _ _ _ _

end Interp

namespace Interp

/-! ### Statements and output lines -/

theorem drop_eq_cons_of_getElem?_tok (tokens : List Token) (i : Nat) (t : Token)
    (h : tokens[i]? = some t) : tokens.drop i = t :: tokens.drop (i + 1) := by
  have hlt := getElem?_lt h
  rw [List.drop_eq_getElem_cons hlt]
  rw [List.getElem?_eq_getElem hlt] at h
  injection h with h
  rw [h]

/-- From inside a statement up to its `;`: no new statement starts, and one
`;` is counted. -/
theorem heads_to_semicolon (tokens : List Token) (j : Nat) (semi : Token)
    (hj : tokens[j]? = some semi) (hs : semi.type = .PUNCTUATION) :
    ∀ (d a : Nat), a + d = j → NoSemiBetween tokens a j →
      statementHeads false (tokens.drop a) = statementHeads true (tokens.drop (j + 1)) ∧
      countSemicolons (tokens.drop a) = 1 + countSemicolons (tokens.drop (j + 1)) := by
  intro d
  induction d with
  | zero =>
    intro a ha _
    have : a = j := by omega
    subst this
    rw [drop_eq_cons_of_getElem?_tok tokens a semi hj]
    simp [statementHeads, countSemicolons, hs, Nat.add_comm]
  | succ d ih =>
    intro a ha hns
    have hlt : a < tokens.length := by
      have := getElem?_lt hj
      omega
    have hta : tokens[a]? = some (tokens[a]) := List.getElem?_eq_getElem hlt
    have hp : (tokens[a]).type ≠ .PUNCTUATION := hns a (le_refl _) (by omega) _ hta
    obtain ⟨ih1, ih2⟩ := ih (a + 1) (by omega) (fun k h1 h2 => hns k (by omega) h2)
    rw [drop_eq_cons_of_getElem?_tok tokens a _ hta]
    constructor
    · simp only [statementHeads, Bool.false_and, Bool.false_eq_true, if_false, List.nil_append,
        hp, decide_False]
      exact ih1
    · simp only [countSemicolons] at ih2 ⊢
      rw [List.countP_cons_of_neg _ _ (by simpa using hp)]
      exact ih2

/-- A completed assignment covers one statement: it starts on an identifier,
ends just after the first `;` that follows, and writes the line of that
identifier. -/
theorem assignment_statement (tokens : List Token)
    (hT : ∀ t ∈ tokens, t.type = .PUNCTUATION ↔ t.lexeme = ";")
    (n : Nat) (s s' : State) (h : Parser.assignment tokens n s = .done s') :
    s.index < s'.index ∧ s'.index ≤ tokens.length ∧
    s'.out.map OutLine.name
        ++ statementHeads true (tokens.drop s'.index)
      = s.out.map OutLine.name ++ statementHeads true (tokens.drop s.index) ∧
    s'.out.length + countSemicolons (tokens.drop s'.index)
      = s.out.length + countSemicolons (tokens.drop s.index) := by
  obtain ⟨x, v, j, h0, hx, hexp, ⟨semi, hj, hsl⟩, rfl⟩ := assignment_done_inv tokens n s s' h
  have hTs : ∀ t ∈ tokens, t.type = .PUNCTUATION → t.lexeme = ";" := fun t ht => (hT t ht).mp
  obtain ⟨h1, _, h3⟩ := (spanFacts tokens s.symbol_table hTs n).1 (s.index + 2) v j hexp
  have hlt : s.index + 2 < j := by simpa using h1
  have hsemi : semi.type = .PUNCTUATION := (hT semi (getElem?_mem hj)).mpr hsl
  have hxp : x.type ≠ .PUNCTUATION := by rw [hx]; decide
  -- the token after the identifier is `=`
  have h1lt : s.index + 1 < tokens.length := by
    have := getElem?_lt hj
    omega
  have ht1 : tokens[s.index + 1]? = some (tokens[s.index + 1]) := List.getElem?_eq_getElem h1lt
  have heq : (tokens[s.index + 1]).type ≠ .PUNCTUATION := by
    intro hp
    have hl := (hT _ (getElem?_mem ht1)).mp hp
    unfold Parser.assignment at h
    rw [h0] at h
    simp only [hx, ne_eq, not_true_eq_false, if_false, ht1, hl] at h
    simp at h
  have hns : NoSemiBetween tokens (s.index + 1) j := noSemi_cons ht1 heq h3
  obtain ⟨e1, e2⟩ := heads_to_semicolon tokens j semi hj hsemi (j - (s.index + 1)) (s.index + 1)
    (by omega) hns
  refine ⟨by simp only; omega, getElem?_lt hj, ?_, ?_⟩
  · rw [drop_eq_cons_of_getElem?_tok tokens s.index x h0]
    simp only [statementHeads, hx, decide_True, Bool.and_self, if_true, List.map_append,
      List.map_cons, List.map_nil, List.append_assoc, List.singleton_append, List.cons_append,
      List.nil_append]
    have : decide (TokenType.IDENTIFIER = TokenType.PUNCTUATION) = false := by decide
    rw [this, e1]
  · rw [drop_eq_cons_of_getElem?_tok tokens s.index x h0]
    simp only [countSemicolons] at e2 ⊢
    rw [List.countP_cons_of_neg _ _ (by simpa using hxp), e2]
    simp only [List.length_append, List.length_singleton]
    omega

/-- A completed run of `program` writes one line per statement of the rest
of the token vector, in order. -/
theorem program_statements (tokens : List Token)
    (hT : ∀ t ∈ tokens, t.type = .PUNCTUATION ↔ t.lexeme = ";")
    (hEnd : ∀ k t, tokens[k]? = some t → t.type = .END → k + 1 = tokens.length) :
    ∀ (n : Nat) (s s' : State), Parser.program tokens n s = .done s' →
      s'.out.map OutLine.name
        = s.out.map OutLine.name ++ statementHeads true (tokens.drop s.index) ∧
      s'.out.length = s.out.length + countSemicolons (tokens.drop s.index) := by
  intro n
  induction n with
  | zero => intro s s' h; rw [Parser.program] at h; exact Run.noConfusion h
  | succ n ih =>
    intro s s' h
    rw [Parser.program] at h
    cases ht : tokens[s.index]? with
    | none => rw [ht] at h; exact Run.noConfusion h
    | some tok =>
      rw [ht] at h
      simp only at h
      by_cases he : tok.type = .END
      · simp only [if_pos he] at h
        injection h with h
        subst h
        have hlast := hEnd _ _ ht he
        rw [drop_eq_cons_of_getElem?_tok tokens s.index tok ht,
          List.drop_of_length_le (by omega)]
        simp [statementHeads, countSemicolons, he]
      · simp only [if_neg he] at h
        cases ha : Parser.assignment tokens n s with
        | done s1 =>
          rw [ha] at h
          obtain ⟨_, _, a1, a2⟩ := assignment_statement tokens hT n s s1 ha
          obtain ⟨i1, i2⟩ := ih s1 s' h
          constructor
          · rw [i1, a1]
          · rw [i2, a2]
        | failed e s1 => rw [ha] at h; exact Run.noConfusion h
        | fuel => rw [ha] at h; exact Run.noConfusion h

end Interp

namespace Interp

/-- The two facts about a tokenized vector that the count of statements
rests on: a token has kind `PUNCTUATION` exactly when its lexeme is `;`, and
an `END` token is the last token. -/
theorem tokenize_shape (str : List Char) (tokens : List Token)
    (h : Tokenizer.tokenize str = .ok tokens) :
    (∀ t ∈ tokens, t.type = .PUNCTUATION ↔ t.lexeme = ";") ∧
    (∀ k t, tokens[k]? = some t → t.type = .END → k + 1 = tokens.length) := by
  obtain ⟨body, rfl, hall⟩ := tokenize_ok_inv str tokens h
  constructor
  · intro t ht
    rcases List.mem_append.mp ht with hb | he
    · exact lexToken_punct_iff (hall t hb)
    · simp only [List.mem_singleton] at he
      subst he
      decide
  · intro k t hk he
    by_cases hlt : k < body.length
    · rw [List.getElem?_append_left hlt] at hk
      exact absurd he (lexToken_type_ne_end (hall t (getElem?_mem hk)))
    · have hlen := getElem?_lt hk
      simp only [List.length_append, List.length_singleton] at hlen ⊢
      omega

/-- C6. For every source text on which tokenizing and running complete
without error, the number of output lines equals the number of `;` tokens of
the token vector, that is the number of assignment statements, and the lines
appear in statement order: the identifiers of the lines are, in order, the
identifiers that begin the statements. -/
theorem C6_one_line_per_statement (source : String) (tokens : List Token)
    (ht : Tokenizer.tokenize source.data = .ok tokens)
    (hs : (interpret source).status = .success) :
    (interpret source).printed.length = countSemicolons tokens ∧
    (interpret source).out.length = countSemicolons tokens ∧
    (interpret source).out.map OutLine.name = statementHeads true tokens := by
  obtain ⟨tokens', s, ht', hr, hi⟩ := interpret_success_inv source hs
  rw [ht] at ht'
  injection ht' with ht'
  subst ht'
  obtain ⟨hT, hEnd⟩ := tokenize_shape source.data tokens ht
  obtain ⟨h1, h2⟩ := program_statements tokens hT hEnd _ _ s hr
  rw [hi]
  simp only [Outcome.printed, List.length_map]
  simp only [List.map_nil, List.nil_append, List.drop_zero, List.length_nil, Nat.zero_add]
    at h1 h2
  exact ⟨h2, h2, h1⟩

/-- An instance of C6: the two statements of `x = 5; y = x + 3;` give two
lines, the first for `x` and the second for `y`. -/
theorem C6_witness :
    (interpret "x = 5; y = x + 3;").printed.length = 2 ∧
    (interpret "x = 5; y = x + 3;").out.length = 2 ∧
    (interpret "x = 5; y = x + 3;").out.map OutLine.name = ["x", "y"] :=
  C6_one_line_per_statement "x = 5; y = x + 3;"
    [⟨.IDENTIFIER, "x"⟩, ⟨.OPERATOR, "="⟩, ⟨.INT_LITERAL, "5"⟩, ⟨.PUNCTUATION, ";"⟩,
      ⟨.IDENTIFIER, "y"⟩, ⟨.OPERATOR, "="⟩, ⟨.IDENTIFIER, "x"⟩, ⟨.OPERATOR, "+"⟩,
      ⟨.INT_LITERAL, "3"⟩, ⟨.PUNCTUATION, ";"⟩, ⟨.END, "$"⟩]
    (by decide) (by decide)

end Interp

namespace Interp

theorem term_err (tokens : List Token) (tab : SymTab) (n i : Nat) {e : ParseError} {k : Nat}
    (h : Parser.fact tokens tab n i = .err e k) :
    Parser.term tokens tab (n + 1) i = .err e k := by
  rw [Parser.term, h]

theorem exp_err (tokens : List Token) (tab : SymTab) (n i : Nat) {e : ParseError} {k : Nat}
    (h : Parser.term tokens tab n i = .err e k) :
    Parser.exp tokens tab (n + 1) i = .err e k := by
  rw [Parser.exp, h]

theorem tokens_copy (x y : String) (hx : IsIdentifier x = true) (hy : IsIdentifier y = true) :
    Tokenizer.tokenize (y ++ " = " ++ x ++ ";").data
      = .ok [⟨.IDENTIFIER, y⟩, ⟨.OPERATOR, "="⟩, ⟨.IDENTIFIER, x⟩, ⟨.PUNCTUATION, ";"⟩,
          ⟨.END, "$"⟩] := by
  rw [tokenize_eq_lex]
  simp only [String.data_append, List.append_assoc]
  simp only [List.cons_append, List.nil_append]
  rw [lex_identifier y hy _ (head_nonid _ _ (by decide)), lex_space, lex_eq, lex_space,
    lex_identifier x hx _ (head_nonid _ _ (by decide)), lex_semi, lex_nil]
  simp

theorem run_copy_undefined (S : SymTab) (x y : String) (hx : IsIdentifier x = true)
    (hS : S.find x = none) :
    Parser.run [⟨.IDENTIFIER, y⟩, ⟨.OPERATOR, "="⟩, ⟨.IDENTIFIER, x⟩, ⟨.PUNCTUATION, ";"⟩,
          ⟨.END, "$"⟩] S
      = .failed (.symbolNotDefined x) ⟨3, S, []⟩ := by
  generalize htoks : ([⟨.IDENTIFIER, y⟩, ⟨.OPERATOR, "="⟩, ⟨.IDENTIFIER, x⟩,
    ⟨.PUNCTUATION, ";"⟩, ⟨.END, "$"⟩] : List Token) = toks
  have t0 : toks[0]? = some ⟨.IDENTIFIER, y⟩ := by rw [← htoks]; rfl
  have t1 : toks[1]? = some ⟨.OPERATOR, "="⟩ := by rw [← htoks]; rfl
  have t2 : toks[2]? = some ⟨.IDENTIFIER, x⟩ := by rw [← htoks]; rfl
  have hlen : Parser.fuelFor toks = 18 := by rw [← htoks]; rfl
  have f2 : Parser.fact toks S 15 2 = .err (.symbolNotDefined x) 3 := by
    rw [fact_identifier toks S 14 2 t2 hx, hS]
  have e2 : Parser.exp toks S 17 2 = .err (.symbolNotDefined x) 3 :=
    exp_err toks S 16 2 (term_err toks S 15 2 f2)
  have as := assignment_err toks 17 ⟨0, S, []⟩ t0 t1 rfl e2
  rw [Parser.run, hlen]
  exact program_failed toks 17 ⟨0, S, []⟩ t0 (by simp) as

/-- C7. An undefined identifier is rejected: for every symbol table `S` and
identifiers `y` and `x` (equal or distinct) with `x` not a key of `S`, the
program `y = x;` run on `S` stops with the undefined-symbol error for `x`,
writes no output line, and leaves the table equal to `S` (so `y` is not
added). -/
theorem C7_undefined_identifier_rejected (S : SymTab) (x y : String)
    (hx : IsIdentifier x = true) (hy : IsIdentifier y = true) (hS : S.find x = none) :
    interpretFrom S (y ++ " = " ++ x ++ ";")
        = ⟨.parseError (.symbolNotDefined x) 3, S, []⟩ ∧
      (interpretFrom S (y ++ " = " ++ x ++ ";")).printed = [] ∧
      (interpretFrom S (y ++ " = " ++ x ++ ";")).symbol_table.find y = S.find y := by
  have h : interpretFrom S (y ++ " = " ++ x ++ ";")
        = ⟨.parseError (.symbolNotDefined x) 3, S, []⟩ := by
    rw [interpretFrom, tokens_copy x y hx hy]
    simp only []
    rw [run_copy_undefined S x y hx hS]
    rfl
  refine ⟨h, ?_, ?_⟩
  · rw [h]; rfl
  · rw [h]

/-- The instances of C7: `y = x;` and `x = x;` from the empty table, and
`y = x;` from a table that defines only `z`. -/
theorem C7_witness :
    (interpret "y = x;" = ⟨.parseError (.symbolNotDefined "x") 3, [], []⟩ ∧
      (interpret "y = x;").printed = [] ∧
      (interpret "y = x;").symbol_table.find "y" = none) ∧
    (interpret "x = x;" = ⟨.parseError (.symbolNotDefined "x") 3, [], []⟩ ∧
      (interpret "x = x;").printed = [] ∧
      (interpret "x = x;").symbol_table.find "x" = none) ∧
    (interpretFrom [("z", 1)] "y = x;"
        = ⟨.parseError (.symbolNotDefined "x") 3, [("z", 1)], []⟩ ∧
      (interpretFrom [("z", 1)] "y = x;").printed = [] ∧
      (interpretFrom [("z", 1)] "y = x;").symbol_table.find "y" = none) :=
  ⟨C7_undefined_identifier_rejected [] "x" "y" (by decide) (by decide) (by decide),
    C7_undefined_identifier_rejected [] "x" "x" (by decide) (by decide) (by decide),
    C7_undefined_identifier_rejected [("z", 1)] "x" "y" (by decide) (by decide) (by decide)⟩

end Interp

namespace Interp

/-- An assignment that stops the process has written nothing: the table and
the output are those it started from. -/
theorem assignment_failed_inv (tokens : List Token) (n : Nat) (s s' : State) (e : ParseError)
    (h : Parser.assignment tokens n s = .failed e s') :
    s'.symbol_table = s.symbol_table ∧ s'.out = s.out := by
  unfold Parser.assignment at h
  cases h0 : tokens[s.index]? with
  | none => rw [h0] at h; injection h with _ h; rw [← h]; exact ⟨rfl, rfl⟩
  | some x =>
    rw [h0] at h
    simp only at h
    by_cases hx : x.type = .IDENTIFIER
    · simp only [hx, ne_eq, not_true_eq_false, if_false] at h
      cases h1 : tokens[s.index + 1]? with
      | none => rw [h1] at h; injection h with _ h; rw [← h]; exact ⟨rfl, rfl⟩
      | some eq =>
        rw [h1] at h
        simp only at h
        by_cases he : eq.lexeme = "="
        · simp only [he, ne_eq, not_true_eq_false, if_false] at h
          cases hexp : Parser.exp tokens s.symbol_table n (s.index + 2) with
          | fuel => rw [hexp] at h; exact Run.noConfusion h
          | err e k => rw [hexp] at h; injection h with _ h; rw [← h]; exact ⟨rfl, rfl⟩
          | val v j =>
            rw [hexp] at h
            simp only at h
            cases hj : tokens[j]? with
            | none => rw [hj] at h; injection h with _ h; rw [← h]; exact ⟨rfl, rfl⟩
            | some semi =>
              rw [hj] at h
              simp only at h
              by_cases hs : semi.lexeme = ";"
              · simp only [hs, ne_eq, not_true_eq_false, if_false] at h
                exact Run.noConfusion h
              · simp only [hs, ne_eq, not_false_eq_true, if_true] at h
                injection h with _ h; rw [← h]; exact ⟨rfl, rfl⟩
        · simp only [he, ne_eq, not_false_eq_true, if_true] at h
          injection h with _ h; rw [← h]; exact ⟨rfl, rfl⟩
    · simp only [hx, ne_eq, not_false_eq_true, if_true] at h
      injection h with _ h; rw [← h]; exact ⟨rfl, rfl⟩

/-- C8. A mismatched parenthesis is rejected at the offending token.  In any
token vector, when `fact` consumes `(` at cursor `i`, the enclosed `exp`
returns a value at cursor `j`, and the token under `j` is not `)`, then
(given enough fuel) `fact` stops with the mismatched-parenthesis error with
the cursor on `j`; an assignment whose expression stops with an error stops
with that error at that cursor, and an assignment that stops with an error
has written no output line and has not changed the table. -/
theorem C8_mismatched_parenthesis :
    (∀ (tokens : List Token) (tab : SymTab) (n i j : Nat) (t u : Token) (v : Int),
      tokens[i]? = some t → t.lexeme = "(" →
      Parser.exp tokens tab n (i + 1) = .val v j →
      tokens[j]? = some u → u.lexeme ≠ ")" →
        ∀ m, n + 1 ≤ m → Parser.fact tokens tab m i = .err .mismatchParenthesis j) ∧
    (∀ (tokens : List Token) (n : Nat) (s : State) (x e : Token) (err : ParseError) (j : Nat),
      tokens[s.index]? = some x → x.type = .IDENTIFIER →
      tokens[s.index + 1]? = some e → e.lexeme = "=" →
      Parser.exp tokens s.symbol_table n (s.index + 2) = .err err j →
        Parser.assignment tokens n s = .failed err ⟨j, s.symbol_table, s.out⟩) ∧
    (∀ (tokens : List Token) (n : Nat) (s s' : State) (err : ParseError),
      Parser.assignment tokens n s = .failed err s' →
        s'.out = s.out ∧ s'.symbol_table = s.symbol_table) := by
  refine ⟨?_, ?_, ?_⟩
  · intro tokens tab n i j t u v ht hl he hu hc m hm
    exact fact_mono tokens tab (fact_paren_mismatch tokens tab n i ht hl he hu hc) (by simp)
      m hm
  · intro tokens n s x e err j h0 hx h1 he hexp
    obtain ⟨xt, xl⟩ := x
    simp only at hx
    subst hx
    exact assignment_err tokens n s h0 h1 he hexp
  · intro tokens n s s' err h
    obtain ⟨h1, h2⟩ := assignment_failed_inv tokens n s s' err h
    exact ⟨h2, h1⟩

/-- The instance of C8 given in the specification: in `x = (1 + 2;` the
parenthesised expression evaluates to 3 and stops on the `;` token (index 6),
`fact` stops there with the mismatched-parenthesis error, and the program
prints nothing. -/
theorem C8_witness :
    Parser.fact [⟨.IDENTIFIER, "x"⟩, ⟨.OPERATOR, "="⟩, ⟨.LEFT_PARENTHESIS, "("⟩,
        ⟨.INT_LITERAL, "1"⟩, ⟨.OPERATOR, "+"⟩, ⟨.INT_LITERAL, "2"⟩, ⟨.PUNCTUATION, ";"⟩,
        ⟨.END, "$"⟩] [] 5 2 = .err .mismatchParenthesis 6 ∧
    interpret "x = (1 + 2;" = ⟨.parseError .mismatchParenthesis 6, [], []⟩ ∧
    (interpret "x = (1 + 2;").printed = [] :=
  ⟨C8_mismatched_parenthesis.1 _ [] 4 2 6 ⟨.LEFT_PARENTHESIS, "("⟩ ⟨.PUNCTUATION, ";"⟩ 3
      (by rfl) (by rfl) (by decide) (by rfl) (by decide) 5 (by decide),
    by decide, by decide⟩

end Interp

namespace Interp

/-- C9. A lexical error anywhere suppresses all output: for every source
text on which `tokenize` fails, the pipeline stops with that lexical error,
the parser is never run, no output line is written and the symbol table stays
empty. -/
theorem C9_lexical_error_suppresses_output (source : String) (e : LexError) (index : Nat)
    (h : Tokenizer.tokenize source.data = .error e index) :
    interpret source = ⟨.lexError e index, [], []⟩ ∧
      (interpret source).printed = [] ∧ (interpret source).symbol_table = [] := by
  have hi : interpret source = ⟨.lexError e index, [], []⟩ := by
    rw [interpret, interpretFrom, h]
  rw [hi]
  exact ⟨rfl, rfl, rfl⟩

/-- The instances of C9 given in the specification: `x = 007;` and
`x = 1; y = 007;` (a well-formed statement before the malformed literal)
both print nothing. -/
theorem C9_witness :
    (interpret "x = 007;" = ⟨.lexError .invalidIntegerLiteral 4, [], []⟩ ∧
      (interpret "x = 007;").printed = [] ∧ (interpret "x = 007;").symbol_table = []) ∧
    (interpret "x = 1; y = 007;" = ⟨.lexError .invalidIntegerLiteral 11, [], []⟩ ∧
      (interpret "x = 1; y = 007;").printed = [] ∧
      (interpret "x = 1; y = 007;").symbol_table = []) :=
  ⟨C9_lexical_error_suppresses_output "x = 007;" .invalidIntegerLiteral 4 (by decide),
    C9_lexical_error_suppresses_output "x = 1; y = 007;" .invalidIntegerLiteral 11
      (by decide)⟩

end Interp

namespace Interp

theorem ne_zero_of_not_digit {c : Char} (h : isdigit c = false) : c ≠ '0' := by
  intro e; subst e; exact absurd h (by decide)

theorem ne_zero_of_not_idChar {c : Char} (h : isIdChar c = false) : c ≠ '0' := by
  intro e; subst e; exact absurd h (by decide)


theorem hasLeadingZero_prev (p q : Bool) (s : List Char)
    (h : ∀ c ∈ s.head?, c ≠ '0') : hasLeadingZero p s = hasLeadingZero q s := by
  cases s with
  | nil => rfl
  | cons c rest =>
    have hc : c ≠ '0' := h c (by simp)
    simp [hasLeadingZero, hc]

theorem hasLeadingZero_run (run rest : List Char) (h : ∀ c ∈ run, isIdChar c = true) :
    hasLeadingZero true (run ++ rest) = hasLeadingZero true rest := by
  induction run with
  | nil => rfl
  | cons c cs ih =>
    have hc : isIdChar c = true := h c (by simp)
    rw [List.cons_append, hasLeadingZero, hc]
    simp only [Bool.not_true, Bool.and_false, Bool.false_and, Bool.false_or]
    exact ih (fun d hd => h d (List.mem_cons_of_mem _ hd))

theorem any_run (run rest : List Char) (h : ∀ c ∈ run, isIdChar c = true) :
    (run ++ rest).any (fun c => !isLanguageChar c) = rest.any (fun c => !isLanguageChar c) := by
  rw [List.any_append]
  have : run.any (fun c => !isLanguageChar c) = false := by
    rw [List.any_eq_false]
    intro c hc
    have hi := h c hc
    simp only [isIdChar, isalnum, Bool.or_eq_true, decide_eq_true_eq] at hi
    simp only [isLanguageChar, Bool.not_eq_true', Bool.not_eq_false, Bool.or_eq_true,
      decide_eq_true_eq]
    rcases hi with (hi | hi) | hi
    · simp [hi]
    · simp [hi]
    · simp [hi]
  rw [this, Bool.false_or]

theorem isIdChar_of_isdigit {c : Char} (h : isdigit c = true) : isIdChar c = true := by
  simp [isIdChar, isalnum, h]

theorem lex_zero_digit (r : List Char) (i : Nat) (toks : List Token)
    (h : startsWithDigit r = true) :
    lex ('0' :: r) i toks = .error .invalidIntegerLiteral i := by
  cases r with
  | nil => simp [startsWithDigit] at h
  | cons d ds =>
    simp only [startsWithDigit] at h
    rw [lex_cons, if_pos rfl]
    simp [h]

theorem lex_zero (r : List Char) (i : Nat) (toks : List Token)
    (h : startsWithDigit r = false) :
    lex ('0' :: r) i toks = lex r (i + 1) (toks ++ [⟨.INT_LITERAL, "0"⟩]) := by
  cases r with
  | nil => rw [lex_cons, if_pos rfl]; simp
  | cons d ds =>
    simp only [startsWithDigit] at h
    rw [lex_cons, if_pos rfl]
    simp [h]

theorem lex_digit (c : Char) (r : List Char) (i : Nat) (toks : List Token) (h0 : c ≠ '0')
    (h1 : isdigit c = true) :
    lex (c :: r) i toks
      = lex (r.dropWhile isdigit) (i + (1 + (r.takeWhile isdigit).length))
          (toks ++ [⟨.INT_LITERAL, String.mk (c :: r.takeWhile isdigit)⟩]) := by
  rw [lex_cons, if_neg h0, if_pos h1]

theorem lex_idStart (c : Char) (r : List Char) (i : Nat) (toks : List Token)
    (h2 : isIdStart c = true) :
    lex (c :: r) i toks
      = lex (r.dropWhile isIdChar) (i + (1 + (r.takeWhile isIdChar).length))
          (toks ++ [⟨.IDENTIFIER, String.mk (c :: r.takeWhile isIdChar)⟩]) := by
  have h0 : c ≠ '0' := by
    intro e; subst e; exact absurd h2 (by decide)
  have h1 : ¬ isdigit c = true := by
    have hs := (isIdStart_iff c).mp h2
    rw [isdigit_iff]; omega
  rw [lex_cons, if_neg h0, if_neg h1, if_pos h2]

theorem isIdChar_eq (c : Char) : isIdChar c = (isIdStart c || isdigit c) := by
  simp only [isIdChar, isIdStart, isalnum]
  cases isalpha c <;> cases isdigit c <;> cases decide (c = '_') <;> rfl

/-- A character of the language that is not a letter, digit or underscore is
consumed alone. -/
theorem lex_single (c : Char) (r : List Char) (i : Nat) (toks : List Token)
    (hl : isLanguageChar c = true) (hid : isIdChar c = false) :
    ∃ i' toks', lex (c :: r) i toks = lex r i' toks' := by
  have h0 : c ≠ '0' := ne_zero_of_not_idChar hid
  rw [isIdChar_eq, Bool.or_eq_false_iff] at hid
  obtain ⟨h2, h1⟩ := hid
  have halpha : isalpha c = false ∧ c ≠ '_' := by simpa [isIdStart] using h2
  rw [lex_cons, if_neg h0, if_neg (by simp [h1]), if_neg (by simp [h2])]
  simp only [isLanguageChar, halpha.1, h1, halpha.2, decide_False,
    Bool.false_or, Bool.or_eq_true, decide_eq_true_eq] at hl
  by_cases c1 : c = '='
  · exact ⟨_, _, by rw [if_pos c1]⟩
  by_cases c2 : c = '+'
  · exact ⟨_, _, by rw [if_neg c1, if_pos c2]⟩
  by_cases c3 : c = '-'
  · exact ⟨_, _, by rw [if_neg c1, if_neg c2, if_pos c3]⟩
  by_cases c4 : c = '*'
  · exact ⟨_, _, by rw [if_neg c1, if_neg c2, if_neg c3, if_pos c4]⟩
  by_cases c5 : c = '('
  · exact ⟨_, _, by rw [if_neg c1, if_neg c2, if_neg c3, if_neg c4, if_pos c5]⟩
  by_cases c6 : c = ')'
  · exact ⟨_, _, by
      rw [if_neg c1, if_neg c2, if_neg c3, if_neg c4, if_neg c5, if_pos c6]⟩
  by_cases c7 : c = ';'
  · exact ⟨_, _, by
      rw [if_neg c1, if_neg c2, if_neg c3, if_neg c4, if_neg c5, if_neg c6, if_pos c7]⟩
  have c8 : isspace c = true := by
    simpa [c1, c2, c3, c4, c5, c6, c7] using hl
  exact ⟨_, _, by
    rw [if_neg c1, if_neg c2, if_neg c3, if_neg c4, if_neg c5, if_neg c6, if_neg c7,
      if_pos c8]⟩

/-- A character that is not of the language stops the scanner. -/
theorem lex_foreign (c : Char) (r : List Char) (i : Nat) (toks : List Token)
    (hl : isLanguageChar c = false) :
    lex (c :: r) i toks = .error .unrecognizedSymbol i := by
  simp only [isLanguageChar, Bool.or_eq_false_iff, decide_eq_false_iff_not] at hl
  obtain ⟨⟨⟨⟨⟨⟨⟨⟨⟨⟨ha, hd⟩, hu⟩, c1⟩, c2⟩, c3⟩, c4⟩, c5⟩, c6⟩, c7⟩, c8⟩ := hl
  have h0 : c ≠ '0' := ne_zero_of_not_digit hd
  have h2 : ¬ isIdStart c = true := by simp [isIdStart, ha, hu]
  rw [lex_cons, if_neg h0, if_neg (by simp [hd]), if_neg h2, if_neg c1, if_neg c2, if_neg c3,
    if_neg c4, if_neg c5, if_neg c6, if_neg c7, if_neg (by simp [c8])]

theorem head_dropWhile_not (p : Char → Bool) (l : List Char) :
    ∀ c ∈ (l.dropWhile p).head?, p c = false := by
  induction l with
  | nil => simp
  | cons a as ih =>
    by_cases h : p a = true
    · simpa [List.dropWhile_cons, h] using ih
    · intro c hc
      simp [List.dropWhile_cons, h] at hc
      rw [← hc]; simpa using h

/-- The scanner fails exactly when `lexFails` holds of the rest of the
input, and succeeds otherwise. -/
theorem lex_result : ∀ (k : Nat) (rest : List Char), rest.length ≤ k →
    ∀ (i : Nat) (toks : List Token),
      (lexFails rest = true → ∃ e j, lex rest i toks = .error e j) ∧
      (lexFails rest = false → ∃ out, lex rest i toks = .ok out) := by
  intro k
  induction k with
  | zero =>
    intro rest hk i toks
    have : rest = [] := List.length_eq_zero.mp (by omega)
    subst this
    exact ⟨by simp [lexFails, hasLeadingZero], fun _ => ⟨_, lex_nil i toks⟩⟩
  | succ k ih =>
    intro rest hk i toks
    cases rest with
    | nil => exact ⟨by simp [lexFails, hasLeadingZero], fun _ => ⟨_, lex_nil i toks⟩⟩
    | cons c r =>
      have hr : r.length ≤ k := by simpa using hk
      have run : ∀ (p : Char → Bool) (i' : Nat) (toks' : List Token),
          (∀ d, p d = true → isIdChar d = true) → (∀ d, p d = false → d ≠ '0') →
          isIdChar c = true → c ≠ '0' →
          lex (c :: r) i toks = lex (r.dropWhile p) i' toks' →
          (lexFails (c :: r) = true → ∃ e j, lex (c :: r) i toks = .error e j) ∧
          (lexFails (c :: r) = false → ∃ out, lex (c :: r) i toks = .ok out) := by
        intro p i' toks' hp hp0 hid hc0 hstep
        have hrun : ∀ d ∈ r.takeWhile p, isIdChar d = true :=
          fun d hd => hp d (List.mem_takeWhile_imp hd)
        have hsplit : r = r.takeWhile p ++ r.dropWhile p :=
          (List.takeWhile_append_dropWhile p r).symm
        have hlang : isLanguageChar c = true := by
          have := any_run [c] [] (by simpa using hid)
          simpa using this
        have e : lexFails (c :: r) = lexFails (r.dropWhile p) := by
          simp only [lexFails, List.any_cons, hlang, Bool.not_true, Bool.false_or,
            hasLeadingZero, hc0, decide_False, Bool.false_and, hid]
          conv_lhs => rw [hsplit]
          rw [any_run _ _ hrun, hasLeadingZero_run _ _ hrun,
            hasLeadingZero_prev true false _
              (fun d hd => hp0 d (head_dropWhile_not p r d hd))]
        rw [e, hstep]
        exact ih _ (le_trans (List.dropWhile_sublist _).length_le hr) i' toks'
      by_cases h0 : c = '0'
      · subst h0
        by_cases hd : startsWithDigit r = true
        · rw [lex_zero_digit r i toks hd]
          refine ⟨fun _ => ⟨_, _, rfl⟩, ?_⟩
          intro hf
          simp [lexFails, hasLeadingZero, hd] at hf
        · have hd' : startsWithDigit r = false := by simpa using hd
          have hhead : ∀ d ∈ r.head?, d ≠ '0' := by
            intro d hdm
            cases r with
            | nil => simp at hdm
            | cons a as =>
              simp at hdm
              subst hdm
              exact ne_zero_of_not_digit hd'
          have e : lexFails ('0' :: r) = lexFails r := by
            simp only [lexFails, List.any_cons, hasLeadingZero, hd', Bool.and_false,
              Bool.false_or]
            rw [hasLeadingZero_prev (isIdChar '0') false r hhead]
            have : isLanguageChar '0' = true := by decide
            simp [this]
          rw [e, lex_zero r i toks hd']
          exact ih r hr _ _
      · by_cases h1 : isdigit c = true
        · exact run isdigit _ _ (fun d hd => isIdChar_of_isdigit hd)
            (fun d hd => ne_zero_of_not_digit hd) (isIdChar_of_isdigit h1) h0
            (lex_digit c r i toks h0 h1)
        · by_cases h2 : isIdStart c = true
          · exact run isIdChar _ _ (fun d hd => hd) (fun d hd => ne_zero_of_not_idChar hd)
              (isIdChar_of_isIdStart h2) h0 (lex_idStart c r i toks h2)
          · have hid : isIdChar c = false := by
              rw [isIdChar_eq]; simp [h1, h2]
            by_cases hl : isLanguageChar c = true
            · obtain ⟨i', toks', hstep⟩ := lex_single c r i toks hl hid
              have e : lexFails (c :: r) = lexFails r := by
                simp [lexFails, hasLeadingZero, hl, hid, h0]
              rw [e, hstep]
              exact ih r hr i' toks'
            · have hl' : isLanguageChar c = false := by simpa using hl
              rw [lex_foreign c r i toks hl']
              refine ⟨fun _ => ⟨_, _, rfl⟩, ?_⟩
              intro hf
              simp [lexFails, hl'] at hf

end Interp

namespace Interp

theorem hasLeadingZero_iff : ∀ (s : List Char) (prevId : Bool),
    hasLeadingZero prevId s = true ↔ HasLeadingZeroAfter prevId s := by
  intro s
  induction s with
  | nil =>
    intro prevId
    constructor
    · intro h; simp [hasLeadingZero] at h
    · rintro ⟨pre, post, d, h, _⟩
      simp at h
  | cons c rest ih =>
    intro prevId
    constructor
    · intro h
      simp only [hasLeadingZero, Bool.or_eq_true, Bool.and_eq_true, decide_eq_true_eq,
        Bool.not_eq_true'] at h
      rcases h with ⟨⟨hc, hp⟩, hd⟩ | h
      · cases rest with
        | nil => simp [startsWithDigit] at hd
        | cons d post =>
          simp only [startsWithDigit] at hd
          exact ⟨[], post, d, by simp [hc], hd, Or.inl ⟨rfl, hp⟩⟩
      · obtain ⟨pre, post, d, hs, hd, hpre⟩ := (ih (isIdChar c)).mp h
        refine ⟨c :: pre, post, d, by simp [hs], hd, Or.inr ?_⟩
        rcases hpre with ⟨hnil, hid⟩ | ⟨pre', p, hp, hid⟩
        · exact ⟨[], c, by simp [hnil], hid⟩
        · exact ⟨c :: pre', p, by simp [hp], hid⟩
    · rintro ⟨pre, post, d, hs, hd, hpre⟩
      simp only [hasLeadingZero, Bool.or_eq_true, Bool.and_eq_true, decide_eq_true_eq,
        Bool.not_eq_true']
      cases pre with
      | nil =>
        simp only [List.nil_append, List.cons.injEq] at hs
        rcases hpre with ⟨_, hp⟩ | ⟨pre', p, hp, _⟩
        · left
          refine ⟨⟨hs.1, hp⟩, ?_⟩
          rw [hs.2]
          simpa [startsWithDigit] using hd
        · simp at hp
      | cons a pre2 =>
        simp only [List.cons_append, List.cons.injEq] at hs
        obtain ⟨hca, hrest⟩ := hs
        right
        rw [ih (isIdChar c)]
        rcases hpre with ⟨hnil, _⟩ | ⟨pre', p, hp, hid⟩
        · simp at hnil
        · refine ⟨pre2, post, d, hrest, hd, ?_⟩
          rcases List.eq_nil_or_concat pre2 with hn | ⟨L, b, hL⟩
          · left
            refine ⟨hn, ?_⟩
            rw [hn] at hp
            have hl := congrArg List.getLast? hp
            simp at hl
            rw [hca, hl]
            exact hid
          · right
            rw [List.concat_eq_append] at hL
            refine ⟨L, b, hL, ?_⟩
            rw [hL] at hp
            have hp' : (a :: L) ++ [b] = pre' ++ [p] := hp
            have hl := (List.append_inj' hp' rfl).2
            injection hl with hl
            rw [hl]
            exact hid

theorem hasLeadingZero_false_iff (s : List Char) :
    hasLeadingZero false s = true ↔ HasLeadingZero s := by
  rw [hasLeadingZero_iff]
  unfold HasLeadingZeroAfter HasLeadingZero
  constructor
  · rintro ⟨pre, post, d, hs, hd, h⟩
    refine ⟨pre, post, d, hs, hd, ?_⟩
    rcases h with ⟨h, _⟩ | h
    · exact Or.inl h
    · exact Or.inr h
  · rintro ⟨pre, post, d, hs, hd, h⟩
    refine ⟨pre, post, d, hs, hd, ?_⟩
    rcases h with h | h
    · exact Or.inl ⟨h, rfl⟩
    · exact Or.inr h

theorem lexFails_iff (s : List Char) :
    lexFails s = true ↔ HasForeignChar s ∨ HasLeadingZero s := by
  unfold lexFails
  rw [Bool.or_eq_true, hasLeadingZero_false_iff]
  unfold HasForeignChar
  simp only [List.any_eq_true, Bool.not_eq_true']

/-- C10. The exact failure condition of the tokenizer: for every source
string `s`, `tokenize s` fails if and only if `s` contains a character that is
none of a letter, a digit, an underscore, `= + - * ( ) ;` or white space, or
`s` contains a `0` that stands at the start of `s` or right after a character
that is not a letter, digit or underscore and that is immediately followed by
a digit; in every other case `tokenize s` succeeds. -/
theorem C10_tokenize_fails_iff (s : List Char) :
    ((∃ e index, Tokenizer.tokenize s = .error e index) ↔
        (HasForeignChar s ∨ HasLeadingZero s)) ∧
      (¬ (HasForeignChar s ∨ HasLeadingZero s) → ∃ tokens, Tokenizer.tokenize s = .ok tokens) := by
  rw [tokenize_eq_lex, ← lexFails_iff]
  obtain ⟨h1, h2⟩ := lex_result s.length s (le_refl _) 0 []
  refine ⟨⟨?_, h1⟩, ?_⟩
  · rintro ⟨e, j, he⟩
    by_contra hn
    obtain ⟨out, ho⟩ := h2 (by simpa using hn)
    rw [ho] at he
    exact LexResult.noConfusion he
  · intro hn
    exact h2 (by simpa using hn)

/-- Instances of C10: `x = 007;` has a `0` after a blank and before a digit,
and `tokenize` fails on it; `x = #;` has a foreign character, and `tokenize`
fails on it; `x = 100;` has neither, and `tokenize` succeeds. -/
theorem C10_witness :
    (∃ e index, Tokenizer.tokenize "x = 007;".data = .error e index) ∧
    (∃ e index, Tokenizer.tokenize "x = #;".data = .error e index) ∧
    (∃ tokens, Tokenizer.tokenize "x = 100;".data = .ok tokens) :=
  ⟨(C10_tokenize_fails_iff "x = 007;".data).1.2
      (Or.inr ⟨"x = ".data, "7;".data, '0', rfl, by decide,
        Or.inr ⟨"x =".data, ' ', rfl, by decide⟩⟩),
    (C10_tokenize_fails_iff "x = #;".data).1.2 (Or.inl ⟨'#', by decide, by decide⟩),
    (C10_tokenize_fails_iff "x = 100;".data).2 (by rw [← lexFails_iff]; decide)⟩

end Interp

namespace Interp

/-- C11. For every source string on which `tokenize` succeeds, the token
vector is not empty, its last token is the `END` token with lexeme `$`, and
no other token has kind `END`: an `END` token stands only at the last
position, and there is exactly one. -/
theorem C11_exactly_one_end (s : List Char) (tokens : List Token)
    (h : Tokenizer.tokenize s = .ok tokens) :
    tokens ≠ [] ∧ tokens.getLast? = some ⟨.END, "$"⟩ ∧
      (∀ k t, tokens[k]? = some t → t.type = .END → k + 1 = tokens.length) ∧
      tokens.countP (fun t => decide (t.type = .END)) = 1 := by
  obtain ⟨body, hb, hall⟩ := tokenize_ok_inv s tokens h
  refine ⟨?_, ?_, (tokenize_shape s tokens h).2, ?_⟩
  · rw [hb]; simp
  · rw [hb]; simp
  · rw [hb, List.countP_append]
    have h0 : body.countP (fun t => decide (t.type = .END)) = 0 := by
      rw [List.countP_eq_zero]
      intro t ht
      simpa using lexToken_type_ne_end (hall t ht)
    rw [h0]
    rfl

/-- An instance of C11: the tokens of `x = 1;`. -/
theorem C11_witness :
    ([⟨.IDENTIFIER, "x"⟩, ⟨.OPERATOR, "="⟩, ⟨.INT_LITERAL, "1"⟩, ⟨.PUNCTUATION, ";"⟩,
        ⟨.END, "$"⟩] : List Token) ≠ [] ∧
    ([⟨.IDENTIFIER, "x"⟩, ⟨.OPERATOR, "="⟩, ⟨.INT_LITERAL, "1"⟩, ⟨.PUNCTUATION, ";"⟩,
        ⟨.END, "$"⟩] : List Token).getLast? = some ⟨.END, "$"⟩ ∧
    (∀ k t, ([⟨.IDENTIFIER, "x"⟩, ⟨.OPERATOR, "="⟩, ⟨.INT_LITERAL, "1"⟩, ⟨.PUNCTUATION, ";"⟩,
        ⟨.END, "$"⟩] : List Token)[k]? = some t → t.type = .END →
      k + 1 = ([⟨.IDENTIFIER, "x"⟩, ⟨.OPERATOR, "="⟩, ⟨.INT_LITERAL, "1"⟩,
        ⟨.PUNCTUATION, ";"⟩, ⟨.END, "$"⟩] : List Token).length) ∧
    ([⟨.IDENTIFIER, "x"⟩, ⟨.OPERATOR, "="⟩, ⟨.INT_LITERAL, "1"⟩, ⟨.PUNCTUATION, ";"⟩,
        ⟨.END, "$"⟩] : List Token).countP (fun t => decide (t.type = .END)) = 1 :=
  C11_exactly_one_end "x = 1;".data _ (by decide)

/-- C12. For every source string on which `tokenize` succeeds, every
`INT_LITERAL` token has a lexeme of the form `0|[1-9][0-9]*`: it is not
empty, it consists of decimal digits only, and its first character is `0`
only if the lexeme is exactly `0`. -/
theorem C12_intLiteral_lexemes (s : List Char) (tokens : List Token)
    (h : Tokenizer.tokenize s = .ok tokens) :
    ∀ t ∈ tokens, t.type = .INT_LITERAL →
      IsIntLiteral t.lexeme = true ∧ t.lexeme.data ≠ [] ∧
        (∀ c ∈ t.lexeme.data, isdigit c = true) ∧
        (t.lexeme.data.head? = some '0' → t.lexeme = "0") := by
  obtain ⟨body, hb, hall⟩ := tokenize_ok_inv s tokens h
  intro t ht hty
  have hlit : IsIntLiteral t.lexeme = true := by
    rw [hb] at ht
    rcases List.mem_append.mp ht with hm | hm
    · have hl := hall t hm
      unfold LexToken at hl
      rcases hl with ⟨h1, _⟩ | ⟨_, h2⟩ | hl | hl | hl | hl | hl | hl | hl
      · rw [hty] at h1; exact absurd h1 (by decide)
      · exact h2
      all_goals (rw [hl] at hty; exact absurd hty (by decide))
    · simp only [List.mem_singleton] at hm
      rw [hm] at hty
      exact absurd hty (by decide)
  obtain ⟨hne, hdig⟩ := intLiteral_digits hlit
  refine ⟨hlit, hne, hdig, ?_⟩
  intro hhead
  unfold IsIntLiteral at hlit
  cases hd : t.lexeme.data with
  | nil => exact absurd hd hne
  | cons c cs =>
    rw [hd] at hlit hhead
    simp only [List.head?_cons, Option.some.injEq] at hhead
    subst hhead
    simp only [decide_True, Bool.true_and, ne_eq, not_true_eq_false, decide_False,
      Bool.and_false, Bool.false_and, Bool.or_false, List.isEmpty_iff] at hlit
    have : t.lexeme = String.mk ('0' :: cs) := by rw [← hd]
    rw [this, hlit]

/-- An instance of C12: the literal `120` of `x = 0 + 120;`. -/
theorem C12_witness :
    Tokenizer.tokenize "x = 0 + 120;".data
        = .ok [⟨.IDENTIFIER, "x"⟩, ⟨.OPERATOR, "="⟩, ⟨.INT_LITERAL, "0"⟩, ⟨.OPERATOR, "+"⟩,
          ⟨.INT_LITERAL, "120"⟩, ⟨.PUNCTUATION, ";"⟩, ⟨.END, "$"⟩] ∧
      (IsIntLiteral "120" = true ∧ "120".data ≠ [] ∧
        (∀ c ∈ "120".data, isdigit c = true) ∧
        ("120".data.head? = some '0' → "120" = "0")) :=
  have h : Tokenizer.tokenize "x = 0 + 120;".data
      = .ok [⟨.IDENTIFIER, "x"⟩, ⟨.OPERATOR, "="⟩, ⟨.INT_LITERAL, "0"⟩, ⟨.OPERATOR, "+"⟩,
        ⟨.INT_LITERAL, "120"⟩, ⟨.PUNCTUATION, ";"⟩, ⟨.END, "$"⟩] := by decide
  ⟨h, C12_intLiteral_lexemes "x = 0 + 120;".data _ h ⟨.INT_LITERAL, "120"⟩ (by simp) rfl⟩

/-- C18. Maximal-munch identifiers with no reserved words: for every
non-empty string made only of letters, digits and underscores whose first
character is a letter or an underscore, `tokenize` succeeds and returns
exactly two tokens, the `IDENTIFIER` with the whole string as lexeme and
`END`; digits and underscores inside the run do not split it. -/
theorem C18_identifier_maximal_munch (s : String) (h : IsIdentifier s = true) :
    Tokenizer.tokenize s.data = .ok [⟨.IDENTIFIER, s⟩, ⟨.END, "$"⟩] := by
  rw [tokenize_eq_lex]
  have := lex_identifier s h [] (by simp) 0 []
  rw [List.append_nil] at this
  rw [this, lex_nil]
  rfl

/-- The instance of C18 given in the claim: `abc123_x`. -/
theorem C18_witness :
    Tokenizer.tokenize "abc123_x".data = .ok [⟨.IDENTIFIER, "abc123_x"⟩, ⟨.END, "$"⟩] :=
  C18_identifier_maximal_munch "abc123_x" (by decide)

end Interp

namespace Interp

/-- C13, as amended. For every `INT_LITERAL` token the tokenizer can produce
whose value is at most 2147483647, evaluating it as a `fact` leaf succeeds,
advances the cursor by exactly one token and returns the integer whose
decimal representation is the lexeme. -/
theorem C13_intLiteral_leaf_in_range (tokens : List Token) (tab : SymTab) (i n : Nat)
    (a : String) (ht : tokens[i]? = some ⟨.INT_LITERAL, a⟩) (ha : IsIntLiteral a = true)
    (hv : litValue a ≤ 2147483647) :
    Parser.fact tokens tab (n + 1) i = .val (litValue a : Int) (i + 1) :=
  fact_intLiteral tokens tab n i ht ha hv

/-- The largest literal C13 holds for: `2147483647`. -/
theorem C13_witness :
    Parser.fact [⟨.INT_LITERAL, "2147483647"⟩, ⟨.END, "$"⟩] [] 1 0 = .val 2147483647 1 :=
  C13_intLiteral_leaf_in_range [⟨.INT_LITERAL, "2147483647"⟩, ⟨.END, "$"⟩] [] 0 0 "2147483647"
    (by rfl) (by decide) (by decide)

/-- C13 fails as stated: `2147483648` is an integer literal of the language,
but `fact` returns no value for it with any fuel (`std::stoi` throws
`out_of_range`, which nothing catches), and `x = 2147483648;` prints
nothing. -/
theorem C13_counterexample :
    IsIntLiteral "2147483648" = true ∧
    (∀ n, Parser.fact [⟨.INT_LITERAL, "2147483648"⟩, ⟨.END, "$"⟩] [] (n + 1) 0
      = .err .stoiOutOfRange 1) ∧
    (¬ ∃ n v j, Parser.fact [⟨.INT_LITERAL, "2147483648"⟩, ⟨.END, "$"⟩] [] n 0 = .val v j) ∧
    interpret "x = 2147483648;" = ⟨.parseError .stoiOutOfRange 3, [], []⟩ := by
  have h : ∀ n, Parser.fact [⟨.INT_LITERAL, "2147483648"⟩, ⟨.END, "$"⟩] [] (n + 1) 0
      = .err .stoiOutOfRange 1 := by
    intro n
    rw [Parser.fact]
    rfl
  refine ⟨by decide, h, ?_, by decide⟩
  rintro ⟨n, v, j, hn⟩
  cases n with
  | zero => rw [Parser.fact] at hn; exact Eval.noConfusion hn
  | succ n => rw [h n] at hn; exact Eval.noConfusion hn

end Interp

namespace Interp

theorem completed_out (tokens : List Token) {k : Nat} {s s' : State}
    (h : Completed tokens k s s') :
    ∃ lines : List OutLine, lines.length = k ∧ s'.out = s.out ++ lines := by
  induction h with
  | none s => exact ⟨[], rfl, by simp⟩
  | step n ha _ ih =>
    obtain ⟨x, v, j, _, _, _, _, hs1⟩ := assignment_done_inv tokens n _ _ ha
    obtain ⟨lines, hl, ho⟩ := ih
    refine ⟨⟨x.lexeme, v⟩ :: lines, by simp [hl], ?_⟩
    rw [ho, hs1]
    simp

/-- A run of `program` that stops with an error has completed some number
`k` of assignments, and stops in the state they left. -/
theorem program_failed_inv (tokens : List Token) :
    ∀ (n : Nat) (s s' : State) (e : ParseError), Parser.program tokens n s = .failed e s' →
      ∃ k sk, Completed tokens k s sk ∧ s'.out = sk.out ∧
        s'.symbol_table = sk.symbol_table := by
  intro n
  induction n with
  | zero => intro s s' e h; rw [Parser.program] at h; exact Run.noConfusion h
  | succ n ih =>
    intro s s' e h
    rw [Parser.program] at h
    cases ht : tokens[s.index]? with
    | none =>
      rw [ht] at h
      injection h with _ h
      exact ⟨0, s, Completed.none s, by rw [h], by rw [h]⟩
    | some tok =>
      rw [ht] at h
      simp only at h
      by_cases he : tok.type = .END
      · simp only [if_pos he] at h
        exact Run.noConfusion h
      · simp only [if_neg he] at h
        cases ha : Parser.assignment tokens n s with
        | done s1 =>
          rw [ha] at h
          obtain ⟨k, sk, hc, ho, htab⟩ := ih s1 s' e h
          exact ⟨k + 1, sk, Completed.step n ha hc, ho, htab⟩
        | failed e1 s1 =>
          rw [ha] at h
          injection h with _ h
          obtain ⟨h1, h2⟩ := assignment_failed_inv tokens n s s1 e1 ha
          exact ⟨0, s, Completed.none s, by rw [← h, h2], by rw [← h, h1]⟩
        | fuel => rw [ha] at h; exact Run.noConfusion h

/-- C14. Failure is atomic per statement.  When a run stops with an error,
some number `k` of assignments have completed before it; the output is
exactly the `k` lines of those assignments and the symbol table is exactly
the table after them (stated for the parser on any token vector and table and
for the pipeline on a source text).  An assignment that stops with an error,
at whatever point of the statement, has neither written the table nor
emitted a line. -/
theorem C14_failure_is_atomic :
    (∀ (tokens : List Token) (tab : SymTab) (e : ParseError) (s' : State),
      Parser.run tokens tab = .failed e s' →
        ∃ k sk lines, Completed tokens k ⟨0, tab, []⟩ sk ∧ lines.length = k ∧
          sk.out = lines ∧ s'.out = lines ∧ s'.symbol_table = sk.symbol_table) ∧
    (∀ (source : String) (tokens : List Token) (e : ParseError) (index : Nat),
      Tokenizer.tokenize source.data = .ok tokens →
      (interpret source).status = .parseError e index →
        ∃ k sk lines, Completed tokens k ⟨0, [], []⟩ sk ∧ lines.length = k ∧
          sk.out = lines ∧ (interpret source).out = lines ∧
          (interpret source).symbol_table = sk.symbol_table) ∧
    (∀ (tokens : List Token) (n : Nat) (s s' : State) (e : ParseError),
      Parser.assignment tokens n s = .failed e s' →
        s'.out = s.out ∧ s'.symbol_table = s.symbol_table) := by
  have key : ∀ (tokens : List Token) (tab : SymTab) (e : ParseError) (s' : State),
      Parser.run tokens tab = .failed e s' →
        ∃ k sk lines, Completed tokens k ⟨0, tab, []⟩ sk ∧ lines.length = k ∧
          sk.out = lines ∧ s'.out = lines ∧ s'.symbol_table = sk.symbol_table := by
    intro tokens tab e s' h
    obtain ⟨k, sk, hc, ho, htab⟩ := program_failed_inv tokens _ _ s' e h
    obtain ⟨lines, hl, hlines⟩ := completed_out tokens hc
    simp only [List.nil_append] at hlines
    exact ⟨k, sk, lines, hc, hl, hlines, by rw [ho, hlines], htab⟩
  refine ⟨key, ?_, ?_⟩
  · intro source tokens e index ht hs
    unfold interpret interpretFrom at hs ⊢
    rw [ht] at hs ⊢
    simp only at hs ⊢
    cases hr : Parser.run tokens [] with
    | done s => rw [hr] at hs; simp [Outcome.ofRun] at hs
    | fuel => rw [hr] at hs; simp [Outcome.ofRun] at hs
    | failed e1 s1 =>
      obtain ⟨k, sk, lines, hc, hl, h1, h2, h3⟩ := key tokens [] e1 s1 hr
      exact ⟨k, sk, lines, hc, hl, h1, h2, h3⟩
  · intro tokens n s s' e h
    obtain ⟨h1, h2⟩ := assignment_failed_inv tokens n s s' e h
    exact ⟨h2, h1⟩

/-- The instance of C14 given in the claim: `x = 1; x = y;` stops with the
undefined-symbol error for `y` in the second statement, prints only `x = 1`
and leaves `x` mapped to 1. -/
theorem C14_witness :
    interpret "x = 1; x = y;" = ⟨.parseError (.symbolNotDefined "y") 7, [("x", 1)], [⟨"x", 1⟩]⟩ ∧
    (interpret "x = 1; x = y;").printed = ["x = 1"] ∧
    ∃ k sk lines,
      Completed [⟨.IDENTIFIER, "x"⟩, ⟨.OPERATOR, "="⟩, ⟨.INT_LITERAL, "1"⟩,
        ⟨.PUNCTUATION, ";"⟩, ⟨.IDENTIFIER, "x"⟩, ⟨.OPERATOR, "="⟩, ⟨.IDENTIFIER, "y"⟩,
        ⟨.PUNCTUATION, ";"⟩, ⟨.END, "$"⟩] k ⟨0, [], []⟩ sk ∧ lines.length = k ∧
      sk.out = lines ∧ (interpret "x = 1; x = y;").out = lines ∧
      (interpret "x = 1; x = y;").symbol_table = sk.symbol_table :=
  ⟨by decide, by decide,
    C14_failure_is_atomic.2.1 "x = 1; x = y;" _ (.symbolNotDefined "y") 7 (by decide)
      (by decide)⟩

end Interp

namespace Interp

/-! ### How a routine obtained a value -/

theorem exp_val_inv (tokens : List Token) (tab : SymTab) {n i j : Nat} {v : Int}
    (h : Parser.exp tokens tab (n + 1) i = .val v j) :
    ∃ w k, Parser.term tokens tab n i = .val w k ∧
      Parser.expPrime tokens tab n w k = .val v j := by
  rw [Parser.exp] at h
  cases ht : Parser.term tokens tab n i with
  | val w k => rw [ht] at h; exact ⟨w, k, rfl, h⟩
  | err e k => rw [ht] at h; exact Eval.noConfusion h
  | fuel => rw [ht] at h; exact Eval.noConfusion h

theorem term_val_inv (tokens : List Token) (tab : SymTab) {n i j : Nat} {v : Int}
    (h : Parser.term tokens tab (n + 1) i = .val v j) :
    ∃ w k, Parser.fact tokens tab n i = .val w k ∧
      Parser.termPrime tokens tab n w k = .val v j := by
  rw [Parser.term] at h
  cases ht : Parser.fact tokens tab n i with
  | val w k => rw [ht] at h; exact ⟨w, k, rfl, h⟩
  | err e k => rw [ht] at h; exact Eval.noConfusion h
  | fuel => rw [ht] at h; exact Eval.noConfusion h

theorem expPrime_val_inv (tokens : List Token) (tab : SymTab) {n i j : Nat} {acc v : Int}
    (h : Parser.expPrime tokens tab (n + 1) acc i = .val v j) :
    ∃ tok, tokens[i]? = some tok ∧
      ((tok.lexeme = "+" ∧ ∃ w k, Parser.term tokens tab n (i + 1) = .val w k ∧
          Parser.expPrime tokens tab n (wrap (acc + w)) k = .val v j) ∨
        (tok.lexeme = "-" ∧ ∃ w k, Parser.term tokens tab n (i + 1) = .val w k ∧
          Parser.expPrime tokens tab n (wrap (acc - w)) k = .val v j) ∨
        (tok.lexeme ≠ "+" ∧ tok.lexeme ≠ "-" ∧ v = acc ∧ j = i)) := by
  rw [Parser.expPrime] at h
  cases hg : tokens[i]? with
  | none => rw [hg] at h; exact Eval.noConfusion h
  | some tok =>
    rw [hg] at h
    simp only at h
    refine ⟨tok, rfl, ?_⟩
    by_cases h1 : tok.lexeme = "+"
    · simp only [if_pos h1] at h
      cases ht : Parser.term tokens tab n (i + 1) with
      | val w k => rw [ht] at h; exact Or.inl ⟨h1, w, k, rfl, h⟩
      | err e k => rw [ht] at h; exact Eval.noConfusion h
      | fuel => rw [ht] at h; exact Eval.noConfusion h
    · simp only [if_neg h1] at h
      by_cases h2 : tok.lexeme = "-"
      · simp only [if_pos h2] at h
        cases ht : Parser.term tokens tab n (i + 1) with
        | val w k => rw [ht] at h; exact Or.inr (Or.inl ⟨h2, w, k, rfl, h⟩)
        | err e k => rw [ht] at h; exact Eval.noConfusion h
        | fuel => rw [ht] at h; exact Eval.noConfusion h
      · simp only [if_neg h2] at h
        injection h with hv hj
        exact Or.inr (Or.inr ⟨h1, h2, hv.symm, hj.symm⟩)

theorem termPrime_val_inv (tokens : List Token) (tab : SymTab) {n i j : Nat} {acc v : Int}
    (h : Parser.termPrime tokens tab (n + 1) acc i = .val v j) :
    ∃ tok, tokens[i]? = some tok ∧
      ((tok.lexeme = "*" ∧ ∃ w k, Parser.fact tokens tab n (i + 1) = .val w k ∧
          Parser.termPrime tokens tab n (wrap (acc * w)) k = .val v j) ∨
        (tok.lexeme ≠ "*" ∧ v = acc ∧ j = i)) := by
  rw [Parser.termPrime] at h
  cases hg : tokens[i]? with
  | none => rw [hg] at h; exact Eval.noConfusion h
  | some tok =>
    rw [hg] at h
    simp only at h
    refine ⟨tok, rfl, ?_⟩
    by_cases h1 : tok.lexeme = "*"
    · simp only [if_pos h1] at h
      cases ht : Parser.fact tokens tab n (i + 1) with
      | val w k => rw [ht] at h; exact Or.inl ⟨h1, w, k, rfl, h⟩
      | err e k => rw [ht] at h; exact Eval.noConfusion h
      | fuel => rw [ht] at h; exact Eval.noConfusion h
    · simp only [if_neg h1] at h
      injection h with hv hj
      exact Or.inr ⟨h1, hv.symm, hj.symm⟩

theorem fact_val_inv (tokens : List Token) (tab : SymTab) {n i j : Nat} {v : Int}
    (h : Parser.fact tokens tab (n + 1) i = .val v j) :
    ∃ tok, tokens[i]? = some tok ∧
      ((tok.lexeme = "(" ∧ ∃ k close, Parser.exp tokens tab n (i + 1) = .val v k ∧
          tokens[k]? = some close ∧ close.lexeme = ")" ∧ j = k + 1) ∨
        (tok.lexeme = "+" ∧ Parser.exp tokens tab n (i + 1) = .val v j) ∨
        (tok.lexeme = "-" ∧ ∃ w, Parser.exp tokens tab n (i + 1) = .val w j ∧
          v = wrap (-w)) ∨
        (tok.type = .INT_LITERAL ∧ stoi tok.lexeme = .ok v ∧ j = i + 1) ∨
        (tok.type = .IDENTIFIER ∧ tab.find tok.lexeme = some v ∧ j = i + 1)) := by
  rw [Parser.fact] at h
  cases hg : tokens[i]? with
  | none => rw [hg] at h; exact Eval.noConfusion h
  | some tok =>
    rw [hg] at h
    simp only at h
    refine ⟨tok, rfl, ?_⟩
    by_cases h1 : tok.lexeme = "("
    · simp only [if_pos h1] at h
      cases ht : Parser.exp tokens tab n (i + 1) with
      | val w k =>
        rw [ht] at h
        simp only at h
        cases hk : tokens[k]? with
        | none => rw [hk] at h; exact Eval.noConfusion h
        | some close =>
          rw [hk] at h
          simp only at h
          by_cases hc : close.lexeme = ")"
          · simp only [hc, ne_eq, not_true_eq_false, if_false] at h
            injection h with hv hj
            subst hv
            exact Or.inl ⟨h1, k, close, rfl, hk, hc, hj.symm⟩
          · simp only [hc, ne_eq, not_false_eq_true, if_true] at h
            exact Eval.noConfusion h
      | err e k => rw [ht] at h; exact Eval.noConfusion h
      | fuel => rw [ht] at h; exact Eval.noConfusion h
    · simp only [if_neg h1] at h
      by_cases h2 : tok.lexeme = "+"
      · simp only [if_pos h2] at h
        exact Or.inr (Or.inl ⟨h2, h⟩)
      · simp only [if_neg h2] at h
        by_cases h3 : tok.lexeme = "-"
        · simp only [if_pos h3] at h
          cases ht : Parser.exp tokens tab n (i + 1) with
          | val w k =>
            rw [ht] at h
            simp only at h
            injection h with hv hj
            subst hj
            exact Or.inr (Or.inr (Or.inl ⟨h3, w, rfl, hv.symm⟩))
          | err e k => rw [ht] at h; exact Eval.noConfusion h
          | fuel => rw [ht] at h; exact Eval.noConfusion h
        · simp only [if_neg h3] at h
          by_cases h4 : tok.type = .INT_LITERAL
          · simp only [if_pos h4] at h
            cases hs : stoi tok.lexeme with
            | ok value =>
              rw [hs] at h
              simp only at h
              injection h with hv hj
              subst hv
              exact Or.inr (Or.inr (Or.inr (Or.inl ⟨h4, rfl, hj.symm⟩)))
            | error e => rw [hs] at h; exact Eval.noConfusion h
          · simp only [if_neg h4] at h
            by_cases h5 : tok.type = .IDENTIFIER
            · simp only [if_pos h5] at h
              cases hs : tab.find tok.lexeme with
              | none => rw [hs] at h; exact Eval.noConfusion h
              | some value =>
                rw [hs] at h
                simp only at h
                injection h with hv hj
                subst hv
                exact Or.inr (Or.inr (Or.inr (Or.inr ⟨h5, rfl, hj.symm⟩)))
            · simp only [if_neg h5] at h
              exact Eval.noConfusion h

end Interp

namespace Interp

/-! ### The cursor moves forward -/

theorem progressFacts (tokens : List Token) (tab : SymTab) :
    ∀ n, ProgressFacts tokens tab n := by
  intro n
  induction n with
  | zero =>
    refine ⟨?_, ?_, ?_, ?_, ?_⟩
    · intro i v j h; rw [Parser.exp] at h; exact Eval.noConfusion h
    · intro acc i v j h; rw [Parser.expPrime] at h; exact Eval.noConfusion h
    · intro i v j h; rw [Parser.term] at h; exact Eval.noConfusion h
    · intro acc i v j h; rw [Parser.termPrime] at h; exact Eval.noConfusion h
    · intro i v j h; rw [Parser.fact] at h; exact Eval.noConfusion h
  | succ n ih =>
    obtain ⟨ihE, ihEP, ihT, ihTP, ihF⟩ := ih
    refine ⟨?_, ?_, ?_, ?_, ?_⟩
    · intro i v j h
      obtain ⟨w, k, h1, h2⟩ := exp_val_inv tokens tab h
      have := ihT _ _ _ h1
      have := ihEP _ _ _ _ h2
      omega
    · intro acc i v j h
      obtain ⟨tok, _, hc⟩ := expPrime_val_inv tokens tab h
      rcases hc with ⟨_, w, k, h1, h2⟩ | ⟨_, w, k, h1, h2⟩ | ⟨_, _, _, hj⟩
      · have := ihT _ _ _ h1
        have := ihEP _ _ _ _ h2
        omega
      · have := ihT _ _ _ h1
        have := ihEP _ _ _ _ h2
        omega
      · omega
    · intro i v j h
      obtain ⟨w, k, h1, h2⟩ := term_val_inv tokens tab h
      have := ihF _ _ _ h1
      have := ihTP _ _ _ _ h2
      omega
    · intro acc i v j h
      obtain ⟨tok, _, hc⟩ := termPrime_val_inv tokens tab h
      rcases hc with ⟨_, w, k, h1, h2⟩ | ⟨_, _, hj⟩
      · have := ihF _ _ _ h1
        have := ihTP _ _ _ _ h2
        omega
      · omega
    · intro i v j h
      obtain ⟨tok, _, hc⟩ := fact_val_inv tokens tab h
      rcases hc with ⟨_, k, close, h1, _, _, hj⟩ | ⟨_, h1⟩ | ⟨_, w, h1, _⟩ | ⟨_, _, hj⟩ |
        ⟨_, _, hj⟩
      · have := ihE _ _ _ h1
        omega
      · have := ihE _ _ _ h1
        omega
      · have := ihE _ _ _ h1
        omega
      · omega
      · omega

/-! ### Enough fuel -/

theorem fuelFacts (tokens : List Token) (tab : SymTab) : ∀ n, FuelFacts tokens tab n := by
  intro n
  induction n with
  | zero =>
    refine ⟨?_, ?_, ?_, ?_, ?_⟩
    · intro i h; omega
    · intro acc i h; omega
    · intro i h; omega
    · intro acc i h; omega
    · intro i h; omega
  | succ n ih =>
    obtain ⟨ihE, ihEP, ihT, ihTP, ihF⟩ := ih
    obtain ⟨pE, pEP, pT, pTP, pF⟩ := progressFacts tokens tab n
    refine ⟨?_, ?_, ?_, ?_, ?_⟩
    · intro i hn
      rw [Parser.exp]
      cases ht : Parser.term tokens tab n i with
      | val w k =>
        have := pT _ _ _ ht
        exact ihEP w k (by omega)
      | err e k => simp
      | fuel => exact absurd ht (ihT i (by omega))
    · intro acc i hn
      rw [Parser.expPrime]
      cases hg : tokens[i]? with
      | none => simp
      | some tok =>
        have hlt := getElem?_lt hg
        simp only
        by_cases h1 : tok.lexeme = "+"
        · simp only [if_pos h1]
          cases ht : Parser.term tokens tab n (i + 1) with
          | val w k =>
            have := pT _ _ _ ht
            exact ihEP _ k (by omega)
          | err e k => simp
          | fuel => exact absurd ht (ihT (i + 1) (by omega))
        · simp only [if_neg h1]
          by_cases h2 : tok.lexeme = "-"
          · simp only [if_pos h2]
            cases ht : Parser.term tokens tab n (i + 1) with
            | val w k =>
              have := pT _ _ _ ht
              exact ihEP _ k (by omega)
            | err e k => simp
            | fuel => exact absurd ht (ihT (i + 1) (by omega))
          · simp only [if_neg h2]
            simp
    · intro i hn
      rw [Parser.term]
      cases ht : Parser.fact tokens tab n i with
      | val w k =>
        have := pF _ _ _ ht
        exact ihTP w k (by omega)
      | err e k => simp
      | fuel => exact absurd ht (ihF i (by omega))
    · intro acc i hn
      rw [Parser.termPrime]
      cases hg : tokens[i]? with
      | none => simp
      | some tok =>
        have hlt := getElem?_lt hg
        simp only
        by_cases h1 : tok.lexeme = "*"
        · simp only [if_pos h1]
          cases ht : Parser.fact tokens tab n (i + 1) with
          | val w k =>
            have := pF _ _ _ ht
            exact ihTP _ k (by omega)
          | err e k => simp
          | fuel => exact absurd ht (ihF (i + 1) (by omega))
        · simp only [if_neg h1]
          simp
    · intro i hn
      rw [Parser.fact]
      cases hg : tokens[i]? with
      | none => simp
      | some tok =>
        have hlt := getElem?_lt hg
        simp only
        by_cases h1 : tok.lexeme = "("
        · simp only [if_pos h1]
          cases ht : Parser.exp tokens tab n (i + 1) with
          | val w k =>
            simp only
            cases hk : tokens[k]? with
            | none => simp
            | some close =>
              simp only
              by_cases hc : close.lexeme = ")"
              · simp [hc]
              · simp [hc]
          | err e k => simp
          | fuel => exact absurd ht (ihE (i + 1) (by omega))
        · simp only [if_neg h1]
          by_cases h2 : tok.lexeme = "+"
          · simp only [if_pos h2]
            exact ihE (i + 1) (by omega)
          · simp only [if_neg h2]
            by_cases h3 : tok.lexeme = "-"
            · simp only [if_pos h3]
              cases ht : Parser.exp tokens tab n (i + 1) with
              | val w k => simp
              | err e k => simp
              | fuel => exact absurd ht (ihE (i + 1) (by omega))
            · simp only [if_neg h3]
              by_cases h4 : tok.type = .INT_LITERAL
              · simp only [if_pos h4]
                cases hs : stoi tok.lexeme with
                | ok value => simp
                | error e => simp
              · simp only [if_neg h4]
                by_cases h5 : tok.type = .IDENTIFIER
                · simp only [if_pos h5]
                  cases hs : tab.find tok.lexeme with
                  | none => simp
                  | some value => simp
                · simp only [if_neg h5]
                  simp

theorem assignment_ne_fuel (tokens : List Token) (n : Nat) (s : State)
    (hn : 3 * (tokens.length - s.index) ≤ n) : Parser.assignment tokens n s ≠ .fuel := by
  unfold Parser.assignment
  cases h0 : tokens[s.index]? with
  | none => simp
  | some x =>
    simp only
    by_cases hx : x.type = .IDENTIFIER
    · simp only [hx, ne_eq, not_true_eq_false, if_false]
      cases h1 : tokens[s.index + 1]? with
      | none => simp
      | some e =>
        have hlt := getElem?_lt h1
        simp only
        by_cases he : e.lexeme = "="
        · simp only [he, ne_eq, not_true_eq_false, if_false]
          cases hexp : Parser.exp tokens s.symbol_table n (s.index + 2) with
          | fuel =>
            exact absurd hexp ((fuelFacts tokens s.symbol_table n).1 (s.index + 2) (by omega))
          | err e k => simp
          | val v j =>
            simp only
            cases hj : tokens[j]? with
            | none => simp
            | some semi =>
              simp only
              by_cases hs : semi.lexeme = ";"
              · simp [hs]
              · simp [hs]
        · simp [he]
    · simp [hx]

theorem program_ne_fuel (tokens : List Token) :
    ∀ (n : Nat) (s : State), 3 * (tokens.length - s.index) + 1 ≤ n →
      Parser.program tokens n s ≠ .fuel := by
  intro n
  induction n with
  | zero => intro s h; omega
  | succ n ih =>
    intro s hn
    rw [Parser.program]
    cases ht : tokens[s.index]? with
    | none => simp
    | some tok =>
      simp only
      by_cases he : tok.type = .END
      · simp [he]
      · simp only [if_neg he]
        cases ha : Parser.assignment tokens n s with
        | done s1 =>
          simp only
          obtain ⟨x, v, j, _, _, hexp, _, hs1⟩ := assignment_done_inv tokens n s s1 ha
          have := (progressFacts tokens s.symbol_table n).1 _ _ _ hexp
          have hlt := getElem?_lt ht
          apply ih s1
          rw [hs1]
          simp only
          omega
        | failed e s1 => simp
        | fuel => exact absurd ha (assignment_ne_fuel tokens n s (by omega))

/-- The fuel given to `run` is enough for every token vector. -/
theorem run_ne_fuel (tokens : List Token) (tab : SymTab) : Parser.run tokens tab ≠ .fuel := by
  unfold Parser.run Parser.fuelFor
  apply program_ne_fuel
  simp only
  omega

/-- The fuel given to `tokenize` is enough for every string. -/
theorem tokenize_ne_fuel (str : List Char) : Tokenizer.tokenize str ≠ .fuel := by
  rw [tokenize_eq_lex]
  obtain ⟨h1, h2⟩ := lex_result str.length str (le_refl _) 0 []
  cases hf : lexFails str with
  | true => obtain ⟨e, j, h⟩ := h1 hf; rw [h]; simp
  | false => obtain ⟨out, h⟩ := h2 hf; rw [h]; simp

end Interp

namespace Interp

theorem readWhile_advances (p : Char → Bool) (str : List Char) (index : Nat) (c : Char)
    (hc : str[index]? = some c) (hp : p c = true) :
    index < Tokenizer.readWhile p (str.drop index) index ∧
      Tokenizer.readWhile p (str.drop index) index ≤ str.length := by
  have hd := drop_eq_cons_of_getElem? str index c hc
  have hlen : (str.drop index).length = str.length - index := by simp
  have hle := length_takeWhile_le p (str.drop index)
  rw [readWhile_eq]
  have hpos : 0 < ((str.drop index).takeWhile p).length := by
    rw [hd, List.takeWhile_cons, if_pos hp]
    simp
  have hlt : index < str.length := by
    by_contra hn
    rw [List.getElem?_eq_none (by omega)] at hc
    exact Option.noConfusion hc
  omega

/-- One iteration of the loop of `tokenize` either ends the scan (with the
token vector or with an error at the current index) or continues from a
strictly larger index. -/
theorem loop_step (str : List Char) (fuel index : Nat) (tokens : List Token) :
    (∃ out, Tokenizer.loop str (fuel + 1) index tokens = .ok out) ∨
    (∃ e, Tokenizer.loop str (fuel + 1) index tokens = .error e index) ∨
    (∃ index' tokens', index < index' ∧ index' ≤ str.length ∧
      Tokenizer.loop str (fuel + 1) index tokens = Tokenizer.loop str fuel index' tokens') := by
  suffices hs : ∀ r, Tokenizer.loop str (fuel + 1) index tokens = r →
      (∃ out, r = .ok out) ∨ (∃ e, r = .error e index) ∨
      (∃ index' tokens', index < index' ∧ index' ≤ str.length ∧
        r = Tokenizer.loop str fuel index' tokens') from hs _ rfl
  intro r hr
  rw [Tokenizer.loop] at hr
  cases hc : str[index]? with
  | none => rw [hc] at hr; exact Or.inl ⟨_, hr.symm⟩
  | some c =>
    rw [hc] at hr
    have hlt : index < str.length := by
      by_contra hn
      rw [List.getElem?_eq_none (by omega)] at hc
      exact Option.noConfusion hc
    have next : ∀ toks', Tokenizer.loop str fuel (index + 1) toks' = r →
        ∃ index' tokens', index < index' ∧ index' ≤ str.length ∧
          r = Tokenizer.loop str fuel index' tokens' :=
      fun toks' h => ⟨index + 1, toks', by omega, by omega, h.symm⟩
    by_cases h0 : c = '0'
    · simp only [if_pos h0] at hr
      split at hr
      · exact Or.inr (Or.inl ⟨_, hr.symm⟩)
      · exact Or.inr (Or.inr (next _ hr))
    · simp only [if_neg h0] at hr
      by_cases h1 : isdigit c = true
      · simp only [if_pos h1] at hr
        obtain ⟨a1, a2⟩ := readWhile_advances isdigit str index c hc h1
        exact Or.inr (Or.inr ⟨_, _, a1, a2, hr.symm⟩)
      · simp only [if_neg h1] at hr
        by_cases h2 : isIdStart c = true
        · simp only [if_pos h2] at hr
          obtain ⟨a1, a2⟩ := readWhile_advances isIdChar str index c hc
            (isIdChar_of_isIdStart h2)
          exact Or.inr (Or.inr ⟨_, _, a1, a2, hr.symm⟩)
        · simp only [if_neg h2] at hr
          by_cases c1 : c = '='
          · simp only [if_pos c1] at hr
            exact Or.inr (Or.inr (next _ hr))
          simp only [if_neg c1] at hr
          by_cases c2 : c = '+'
          · simp only [if_pos c2] at hr
            exact Or.inr (Or.inr (next _ hr))
          simp only [if_neg c2] at hr
          by_cases c3 : c = '-'
          · simp only [if_pos c3] at hr
            exact Or.inr (Or.inr (next _ hr))
          simp only [if_neg c3] at hr
          by_cases c4 : c = '*'
          · simp only [if_pos c4] at hr
            exact Or.inr (Or.inr (next _ hr))
          simp only [if_neg c4] at hr
          by_cases c5 : c = '('
          · simp only [if_pos c5] at hr
            exact Or.inr (Or.inr (next _ hr))
          simp only [if_neg c5] at hr
          by_cases c6 : c = ')'
          · simp only [if_pos c6] at hr
            exact Or.inr (Or.inr (next _ hr))
          simp only [if_neg c6] at hr
          by_cases c7 : c = ';'
          · simp only [if_pos c7] at hr
            exact Or.inr (Or.inr (next _ hr))
          simp only [if_neg c7] at hr
          by_cases c8 : isspace c = true
          · simp only [if_pos c8] at hr
            exact Or.inr (Or.inr (next _ hr))
          simp only [if_neg c8] at hr
          exact Or.inr (Or.inl ⟨_, hr.symm⟩)

/-- C20. The pipeline always halts.  For every string, `tokenize` ends with a
token vector or an error (every iteration of its loop either ends the scan or
continues from a strictly larger index, at most the length of the string);
and for every token vector, ending in `END` or not, the run of the parser
ends with success or an error: a routine that returns a value has moved the
cursor forward, and three units of fuel per remaining token plus the rank of
the routine are enough for it to return. -/
theorem C20_pipeline_halts :
    (∀ str : List Char,
      (∃ tokens, Tokenizer.tokenize str = .ok tokens) ∨
        (∃ e index, Tokenizer.tokenize str = .error e index)) ∧
    (∀ (str : List Char) (fuel index : Nat) (tokens : List Token),
      (∃ out, Tokenizer.loop str (fuel + 1) index tokens = .ok out) ∨
      (∃ e, Tokenizer.loop str (fuel + 1) index tokens = .error e index) ∨
      (∃ index' tokens', index < index' ∧ index' ≤ str.length ∧
        Tokenizer.loop str (fuel + 1) index tokens
          = Tokenizer.loop str fuel index' tokens')) ∧
    (∀ (tokens : List Token) (tab : SymTab),
      (∃ s, Parser.run tokens tab = .done s) ∨ (∃ e s, Parser.run tokens tab = .failed e s)) ∧
    (∀ (tokens : List Token) (tab : SymTab) (n : Nat),
      ProgressFacts tokens tab n ∧ FuelFacts tokens tab n) ∧
    (∀ source : String, (interpret source).status ≠ .fuel) := by
  have hrun : ∀ (tokens : List Token) (tab : SymTab),
      (∃ s, Parser.run tokens tab = .done s) ∨
        (∃ e s, Parser.run tokens tab = .failed e s) := by
    intro tokens tab
    cases h : Parser.run tokens tab with
    | done s => exact Or.inl ⟨s, rfl⟩
    | failed e s => exact Or.inr ⟨e, s, rfl⟩
    | fuel => exact absurd h (run_ne_fuel tokens tab)
  have htok : ∀ str : List Char,
      (∃ tokens, Tokenizer.tokenize str = .ok tokens) ∨
        (∃ e index, Tokenizer.tokenize str = .error e index) := by
    intro str
    cases h : Tokenizer.tokenize str with
    | ok tokens => exact Or.inl ⟨tokens, rfl⟩
    | error e index => exact Or.inr ⟨e, index, rfl⟩
    | fuel => exact absurd h (tokenize_ne_fuel str)
  refine ⟨htok, loop_step, hrun, fun tokens tab n =>
    ⟨progressFacts tokens tab n, fuelFacts tokens tab n⟩, ?_⟩
  intro source
  unfold interpret interpretFrom
  rcases htok source.data with ⟨tokens, h⟩ | ⟨e, index, h⟩
  · rw [h]
    simp only
    rcases hrun tokens [] with ⟨s, hs⟩ | ⟨e, s, hs⟩
    · rw [hs]; simp [Outcome.ofRun]
    · rw [hs]; simp [Outcome.ofRun]
  · rw [h]; simp

end Interp

namespace Interp

/-! ### The cursor never passes the `END` token -/

theorem inBounds_of_le {tokens : List Token} {i k : Nat} {r : Eval} (h : i ≤ k)
    (hr : InBounds tokens k r) : InBounds tokens i r := by
  cases r with
  | val v j => exact ⟨le_trans h hr.1, hr.2⟩
  | err e j => exact ⟨le_trans h hr.1, hr.2⟩
  | fuel => trivial

/-- In a vector that ends with the `END` token, a token that is not that
token is not the last one. -/
theorem succ_lt_of_ne_end {tokens body : List Token} (hb : tokens = body ++ [⟨.END, "$"⟩])
    {i : Nat} {t : Token} (ht : tokens[i]? = some t) (hne : t ≠ ⟨.END, "$"⟩) :
    i + 1 < tokens.length := by
  have hlt := getElem?_lt ht
  by_contra hn
  have hi : i = body.length := by
    rw [hb] at hlt hn
    simp only [List.length_append, List.length_singleton] at hlt hn
    omega
  rw [hb, hi] at ht
  simp at ht
  exact hne ht.symm

theorem ne_end_of_lexeme {t : Token} {l : String} (h : t.lexeme = l) (hl : l ≠ "$") :
    t ≠ ⟨.END, "$"⟩ := by
  intro e; rw [e] at h; exact hl h.symm

theorem ne_end_of_type {t : Token} (h : t.type ≠ .END) : t ≠ ⟨.END, "$"⟩ := by
  intro e; rw [e] at h; exact h rfl

theorem stoi_error {s : String} {e : ParseError} (h : stoi s = .error e) :
    e = .stoiInvalidArgument ∨ e = .stoiOutOfRange := by
  unfold stoi at h
  simp only at h
  split at h
  · injection h with h; exact Or.inl h.symm
  · split at h <;> split at h
    · injection h with h; exact Or.inr h.symm
    · exact Except.noConfusion h
    · injection h with h; exact Or.inr h.symm
    · exact Except.noConfusion h

theorem boundFacts (tokens body : List Token) (hb : tokens = body ++ [⟨.END, "$"⟩])
    (tab : SymTab) : ∀ n, BoundFacts tokens tab n := by
  have adv : ∀ {i : Nat} {t : Token}, tokens[i]? = some t → t ≠ ⟨.END, "$"⟩ →
      i + 1 < tokens.length := fun ht hne => succ_lt_of_ne_end hb ht hne
  intro n
  induction n with
  | zero =>
    refine ⟨?_, ?_, ?_, ?_, ?_⟩
    · intro i _; rw [Parser.exp]; trivial
    · intro acc i _; rw [Parser.expPrime]; trivial
    · intro i _; rw [Parser.term]; trivial
    · intro acc i _; rw [Parser.termPrime]; trivial
    · intro i _; rw [Parser.fact]; trivial
  | succ n ih =>
    obtain ⟨ihE, ihEP, ihT, ihTP, ihF⟩ := ih
    refine ⟨?_, ?_, ?_, ?_, ?_⟩
    · intro i hi
      rw [Parser.exp]
      have h1 := ihT i hi
      cases ht : Parser.term tokens tab n i with
      | val w k =>
        rw [ht] at h1
        exact inBounds_of_le h1.1 (ihEP w k h1.2)
      | err e k => rw [ht] at h1; exact h1
      | fuel => trivial
    · intro acc i hi
      rw [Parser.expPrime]
      cases hg : tokens[i]? with
      | none => exact absurd hg (by rw [List.getElem?_eq_getElem hi]; simp)
      | some tok =>
        dsimp only
        by_cases h1 : tok.lexeme = "+"
        · simp only [if_pos h1]
          have hi1 := adv hg (ne_end_of_lexeme h1 (by decide))
          have h2 := ihT (i + 1) hi1
          cases ht : Parser.term tokens tab n (i + 1) with
          | val w k =>
            rw [ht] at h2
            exact inBounds_of_le (by have := h2.1; omega) (ihEP _ k h2.2)
          | err e k => rw [ht] at h2; exact inBounds_of_le (Nat.le_succ i) h2
          | fuel => trivial
        · simp only [if_neg h1]
          by_cases h2 : tok.lexeme = "-"
          · simp only [if_pos h2]
            have hi1 := adv hg (ne_end_of_lexeme h2 (by decide))
            have h3 := ihT (i + 1) hi1
            cases ht : Parser.term tokens tab n (i + 1) with
            | val w k =>
              rw [ht] at h3
              exact inBounds_of_le (by have := h3.1; omega) (ihEP _ k h3.2)
            | err e k => rw [ht] at h3; exact inBounds_of_le (Nat.le_succ i) h3
            | fuel => trivial
          · simp only [if_neg h2]
            exact ⟨le_refl _, hi⟩
    · intro i hi
      rw [Parser.term]
      have h1 := ihF i hi
      cases ht : Parser.fact tokens tab n i with
      | val w k =>
        rw [ht] at h1
        exact inBounds_of_le h1.1 (ihTP w k h1.2)
      | err e k => rw [ht] at h1; exact h1
      | fuel => trivial
    · intro acc i hi
      rw [Parser.termPrime]
      cases hg : tokens[i]? with
      | none => exact absurd hg (by rw [List.getElem?_eq_getElem hi]; simp)
      | some tok =>
        dsimp only
        by_cases h1 : tok.lexeme = "*"
        · simp only [if_pos h1]
          have hi1 := adv hg (ne_end_of_lexeme h1 (by decide))
          have h2 := ihF (i + 1) hi1
          cases ht : Parser.fact tokens tab n (i + 1) with
          | val w k =>
            rw [ht] at h2
            exact inBounds_of_le (by have := h2.1; omega) (ihTP _ k h2.2)
          | err e k => rw [ht] at h2; exact inBounds_of_le (Nat.le_succ i) h2
          | fuel => trivial
        · simp only [if_neg h1]
          exact ⟨le_refl _, hi⟩
    · intro i hi
      rw [Parser.fact]
      cases hg : tokens[i]? with
      | none => exact absurd hg (by rw [List.getElem?_eq_getElem hi]; simp)
      | some tok =>
        dsimp only
        by_cases h1 : tok.lexeme = "("
        · simp only [if_pos h1]
          have hi1 := adv hg (ne_end_of_lexeme h1 (by decide))
          have h2 := ihE (i + 1) hi1
          cases ht : Parser.exp tokens tab n (i + 1) with
          | val w k =>
            rw [ht] at h2
            dsimp only
            cases hk : tokens[k]? with
            | none => exact absurd hk (by rw [List.getElem?_eq_getElem h2.2]; simp)
            | some close =>
              dsimp only
              by_cases hc : close.lexeme = ")"
              · simp only [hc, ne_eq, not_true_eq_false, if_false]
                have hk1 := adv hk (ne_end_of_lexeme hc (by decide))
                exact ⟨by have := h2.1; omega, hk1⟩
              · simp only [hc, ne_eq, not_false_eq_true, if_true]
                exact ⟨by have := h2.1; omega, h2.2, by simp⟩
          | err e k => rw [ht] at h2; exact inBounds_of_le (Nat.le_succ i) h2
          | fuel => trivial
        · simp only [if_neg h1]
          by_cases h2 : tok.lexeme = "+"
          · simp only [if_pos h2]
            have hi1 := adv hg (ne_end_of_lexeme h2 (by decide))
            exact inBounds_of_le (Nat.le_succ i) (ihE (i + 1) hi1)
          · simp only [if_neg h2]
            by_cases h3 : tok.lexeme = "-"
            · simp only [if_pos h3]
              have hi1 := adv hg (ne_end_of_lexeme h3 (by decide))
              have h4 := ihE (i + 1) hi1
              cases ht : Parser.exp tokens tab n (i + 1) with
              | val w k =>
                rw [ht] at h4
                exact ⟨by have := h4.1; omega, h4.2⟩
              | err e k => rw [ht] at h4; exact inBounds_of_le (Nat.le_succ i) h4
              | fuel => trivial
            · simp only [if_neg h3]
              by_cases h4 : tok.type = .INT_LITERAL
              · simp only [if_pos h4]
                have hi1 := adv hg (ne_end_of_type (by rw [h4]; decide))
                cases hs : stoi tok.lexeme with
                | ok value => exact ⟨Nat.le_succ i, hi1⟩
                | error e =>
                  refine ⟨Nat.le_succ i, hi1, ?_⟩
                  rcases stoi_error hs with he | he <;> (rw [he]; simp)
              · simp only [if_neg h4]
                by_cases h5 : tok.type = .IDENTIFIER
                · simp only [if_pos h5]
                  have hi1 := adv hg (ne_end_of_type (by rw [h5]; decide))
                  cases hs : tab.find tok.lexeme with
                  | none => exact ⟨Nat.le_succ i, hi1, by simp⟩
                  | some value => exact ⟨Nat.le_succ i, hi1⟩
                · simp only [if_neg h5]
                  exact ⟨le_refl _, hi, by simp⟩

end Interp

namespace Interp

theorem assignment_inBounds (tokens body : List Token) (hb : tokens = body ++ [⟨.END, "$"⟩])
    (n : Nat) (s : State) (hs : s.index < tokens.length) :
    RunInBounds tokens s (Parser.assignment tokens n s) := by
  unfold Parser.assignment
  cases h0 : tokens[s.index]? with
  | none => exact absurd h0 (by rw [List.getElem?_eq_getElem hs]; simp)
  | some x =>
    dsimp only
    by_cases hx : x.type = .IDENTIFIER
    · simp only [hx, ne_eq, not_true_eq_false, if_false]
      have h1lt := succ_lt_of_ne_end hb h0 (ne_end_of_type (by rw [hx]; decide))
      cases h1 : tokens[s.index + 1]? with
      | none => exact absurd h1 (by rw [List.getElem?_eq_getElem h1lt]; simp)
      | some e =>
        dsimp only
        by_cases he : e.lexeme = "="
        · simp only [he, ne_eq, not_true_eq_false, if_false]
          have h2lt := succ_lt_of_ne_end hb h1 (ne_end_of_lexeme he (by decide))
          have hexp := (boundFacts tokens body hb s.symbol_table n).1 (s.index + 2) h2lt
          cases hr : Parser.exp tokens s.symbol_table n (s.index + 2) with
          | fuel => trivial
          | err err k =>
            rw [hr] at hexp
            exact ⟨by have := hexp.1; simp only; omega, hexp.2.1, hexp.2.2⟩
          | val v j =>
            rw [hr] at hexp
            dsimp only
            cases hj : tokens[j]? with
            | none => exact absurd hj (by rw [List.getElem?_eq_getElem hexp.2]; simp)
            | some semi =>
              dsimp only
              by_cases hsm : semi.lexeme = ";"
              · simp only [hsm, ne_eq, not_true_eq_false, if_false]
                have hj1 := succ_lt_of_ne_end hb hj (ne_end_of_lexeme hsm (by decide))
                exact ⟨by have := hexp.1; simp only; omega, hj1⟩
              · simp only [hsm, ne_eq, not_false_eq_true, if_true]
                exact ⟨by have := hexp.1; simp only; omega, hexp.2, by simp⟩
        · simp only [he, ne_eq, not_false_eq_true, if_true]
          exact ⟨by simp, h1lt, by simp⟩
    · simp only [hx, ne_eq, not_false_eq_true, if_true]
      exact ⟨le_refl _, hs, by simp⟩

theorem runInBounds_of_le {tokens : List Token} {s s1 : State} {r : Run}
    (h : s.index ≤ s1.index) (hr : RunInBounds tokens s1 r) : RunInBounds tokens s r := by
  cases r with
  | done s' => exact ⟨le_trans h hr.1, hr.2⟩
  | failed e s' => exact ⟨le_trans h hr.1, hr.2⟩
  | fuel => trivial

theorem program_inBounds (tokens body : List Token) (hb : tokens = body ++ [⟨.END, "$"⟩]) :
    ∀ (n : Nat) (s : State), s.index < tokens.length →
      RunInBounds tokens s (Parser.program tokens n s) := by
  intro n
  induction n with
  | zero => intro s _; rw [Parser.program]; trivial
  | succ n ih =>
    intro s hs
    rw [Parser.program]
    cases ht : tokens[s.index]? with
    | none => exact absurd ht (by rw [List.getElem?_eq_getElem hs]; simp)
    | some tok =>
      dsimp only
      by_cases he : tok.type = .END
      · simp only [if_pos he]
        exact ⟨le_refl _, hs⟩
      · simp only [if_neg he]
        have ha := assignment_inBounds tokens body hb n s hs
        cases hr : Parser.assignment tokens n s with
        | done s1 =>
          rw [hr] at ha
          exact runInBounds_of_le ha.1 (ih s1 ha.2)
        | failed e s1 => rw [hr] at ha; exact ha
        | fuel => trivial

/-- A completed run of `program` ends on a token of kind `END`. -/
theorem program_done_on_end (tokens : List Token) :
    ∀ (n : Nat) (s s' : State), Parser.program tokens n s = .done s' →
      ∃ tok, tokens[s'.index]? = some tok ∧ tok.type = .END := by
  intro n
  induction n with
  | zero => intro s s' h; rw [Parser.program] at h; exact Run.noConfusion h
  | succ n ih =>
    intro s s' h
    rw [Parser.program] at h
    cases ht : tokens[s.index]? with
    | none => rw [ht] at h; exact Run.noConfusion h
    | some tok =>
      rw [ht] at h
      simp only at h
      by_cases he : tok.type = .END
      · simp only [if_pos he] at h
        injection h with h
        subst h
        exact ⟨tok, ht, he⟩
      · simp only [if_neg he] at h
        cases ha : Parser.assignment tokens n s with
        | done s1 => rw [ha] at h; exact ih s1 s' h
        | failed e s1 => rw [ha] at h; exact Run.noConfusion h
        | fuel => rw [ha] at h; exact Run.noConfusion h

/-- C17. The parser never reads past the `END` token.  For every token vector
produced by a successful `tokenize` and every table: each expression routine
started on a token of the vector returns, or stops, with the cursor at or
after the cursor it started from and still on a token of the vector, and
never by an access past the end; so does the whole run, which when it
completes has its cursor on the final `END` token; and every token before the
last position, the only ones the cursor can pass, is not an `END` token. -/
theorem C17_cursor_stays_before_end (str : List Char) (tokens : List Token) (tab : SymTab)
    (h : Tokenizer.tokenize str = .ok tokens) :
    (∀ n, BoundFacts tokens tab n) ∧
    (∀ (n : Nat) (s : State), s.index < tokens.length →
      RunInBounds tokens s (Parser.assignment tokens n s) ∧
        RunInBounds tokens s (Parser.program tokens n s)) ∧
    RunInBounds tokens ⟨0, tab, []⟩ (Parser.run tokens tab) ∧
    (∀ s', Parser.run tokens tab = .done s' → s'.index + 1 = tokens.length) ∧
    (∀ e s', Parser.run tokens tab = .failed e s' →
      s'.index < tokens.length ∧ e ≠ .tokenOutOfRange) ∧
    (∀ k t, k + 1 < tokens.length → tokens[k]? = some t → t.type ≠ .END) := by
  obtain ⟨body, hb, hall⟩ := tokenize_ok_inv str tokens h
  have hpos : 0 < tokens.length := by rw [hb]; simp
  have hrun : RunInBounds tokens ⟨0, tab, []⟩ (Parser.run tokens tab) :=
    program_inBounds tokens body hb _ ⟨0, tab, []⟩ hpos
  refine ⟨boundFacts tokens body hb tab, ?_, hrun, ?_, ?_, ?_⟩
  · intro n s hs
    exact ⟨assignment_inBounds tokens body hb n s hs, program_inBounds tokens body hb n s hs⟩
  · intro s' hd
    obtain ⟨tok, ht, he⟩ := program_done_on_end tokens _ _ s' hd
    exact (tokenize_shape str tokens h).2 _ _ ht he
  · intro e s' hf
    rw [hf] at hrun
    exact hrun.2
  · intro k t hk ht he
    have := (tokenize_shape str tokens h).2 k t ht he
    omega

/-- Instances of C17: the run of `x = (1 + 2;` stops with the cursor on the
`;` token (index 6 of 8 tokens), and the run of `x = 1;` ends with the cursor
on the `END` token (index 4 of 5 tokens). -/
theorem C17_witness :
    (∀ e s', Parser.run [⟨.IDENTIFIER, "x"⟩, ⟨.OPERATOR, "="⟩, ⟨.LEFT_PARENTHESIS, "("⟩,
        ⟨.INT_LITERAL, "1"⟩, ⟨.OPERATOR, "+"⟩, ⟨.INT_LITERAL, "2"⟩, ⟨.PUNCTUATION, ";"⟩,
        ⟨.END, "$"⟩] [] = .failed e s' → s'.index < 8 ∧ e ≠ .tokenOutOfRange) ∧
    (∀ s', Parser.run [⟨.IDENTIFIER, "x"⟩, ⟨.OPERATOR, "="⟩, ⟨.INT_LITERAL, "1"⟩,
        ⟨.PUNCTUATION, ";"⟩, ⟨.END, "$"⟩] [] = .done s' → s'.index + 1 = 5) :=
  ⟨(C17_cursor_stays_before_end "x = (1 + 2;".data _ [] (by decide)).2.2.2.2.1,
    (C17_cursor_stays_before_end "x = 1;".data _ [] (by decide)).2.2.2.1⟩

end Interp

namespace Interp

/-! ### The characters of the lexemes -/

theorem not_space_of_isIdChar {c : Char} (h : isIdChar c = true) : isspace c = false := by
  rw [bool_eq_false_iff_not, isspace_iff]
  rw [isIdChar_iff] at h
  omega

/-- One step of the scanner on a non-empty rest: it stops with an error, or
skips one white-space character, or emits one token whose lexeme is a
non-empty prefix of the rest, free of white space, and continues after it. -/
theorem lex_step (c : Char) (r : List Char) (i : Nat) (toks : List Token) :
    (∃ e j, lex (c :: r) i toks = .error e j) ∨
    (∃ i', isspace c = true ∧ lex (c :: r) i toks = lex r i' toks) ∨
    (∃ (tk : Token) (cs r' : List Char) (i' : Nat), c :: r = cs ++ r' ∧ tk.lexeme.data = cs ∧
      cs ≠ [] ∧ (∀ d ∈ cs, isspace d = false) ∧ r'.length ≤ r.length ∧
      lex (c :: r) i toks = lex r' i' (toks ++ [tk])) := by
  have single : ∀ (tk : Token), tk.lexeme.data = [c] → isspace c = false →
      lex (c :: r) i toks = lex r (i + 1) (toks ++ [tk]) →
      ∃ (tk : Token) (cs r' : List Char) (i' : Nat), c :: r = cs ++ r' ∧ tk.lexeme.data = cs ∧
        cs ≠ [] ∧ (∀ d ∈ cs, isspace d = false) ∧ r'.length ≤ r.length ∧
        lex (c :: r) i toks = lex r' i' (toks ++ [tk]) := by
    intro tk hd hs hl
    refine ⟨tk, [c], r, i + 1, rfl, hd, by simp, ?_, le_refl _, hl⟩
    intro d hdm
    simp only [List.mem_singleton] at hdm
    rw [hdm]; exact hs
  have run : ∀ (p : Char → Bool) (ty : TokenType), p c = true →
      (∀ d, p d = true → isIdChar d = true) →
      lex (c :: r) i toks = lex (r.dropWhile p) (i + (1 + (r.takeWhile p).length))
        (toks ++ [⟨ty, String.mk (c :: r.takeWhile p)⟩]) →
      ∃ (tk : Token) (cs r' : List Char) (i' : Nat), c :: r = cs ++ r' ∧ tk.lexeme.data = cs ∧
        cs ≠ [] ∧ (∀ d ∈ cs, isspace d = false) ∧ r'.length ≤ r.length ∧
        lex (c :: r) i toks = lex r' i' (toks ++ [tk]) := by
    intro p ty hc hp hl
    refine ⟨_, c :: r.takeWhile p, r.dropWhile p, _, ?_, rfl, by simp, ?_,
      (List.dropWhile_sublist _).length_le, hl⟩
    · rw [List.cons_append, List.takeWhile_append_dropWhile]
    · intro d hdm
      rcases List.mem_cons.mp hdm with e | e
      · rw [e]; exact not_space_of_isIdChar (hp c hc)
      · exact not_space_of_isIdChar (hp d (List.mem_takeWhile_imp e))
  by_cases h0 : c = '0'
  · subst h0
    by_cases hd : startsWithDigit r = true
    · exact Or.inl ⟨_, _, lex_zero_digit r i toks hd⟩
    · exact Or.inr (Or.inr (single _ rfl (by decide)
        (lex_zero r i toks (by simpa using hd))))
  · by_cases h1 : isdigit c = true
    · exact Or.inr (Or.inr (run isdigit _ h1 (fun d hd => isIdChar_of_isdigit hd)
        (lex_digit c r i toks h0 h1)))
    · by_cases h2 : isIdStart c = true
      · exact Or.inr (Or.inr (run isIdChar _ (isIdChar_of_isIdStart h2) (fun d hd => hd)
          (lex_idStart c r i toks h2)))
      · have unf : lex (c :: r) i toks =
            (if c = '=' then lex r (i + 1) (toks ++ [⟨.OPERATOR, "="⟩])
            else if c = '+' then lex r (i + 1) (toks ++ [⟨.OPERATOR, "+"⟩])
            else if c = '-' then lex r (i + 1) (toks ++ [⟨.OPERATOR, "-"⟩])
            else if c = '*' then lex r (i + 1) (toks ++ [⟨.OPERATOR, "*"⟩])
            else if c = '(' then lex r (i + 1) (toks ++ [⟨.LEFT_PARENTHESIS, "("⟩])
            else if c = ')' then lex r (i + 1) (toks ++ [⟨.RIGHT_PARENTHESIS, ")"⟩])
            else if c = ';' then lex r (i + 1) (toks ++ [⟨.PUNCTUATION, ";"⟩])
            else if isspace c = true then lex r (i + 1) toks
            else .error .unrecognizedSymbol i) := by
          rw [lex_cons, if_neg h0, if_neg h1, if_neg h2]
        by_cases c1 : c = '='
        · rw [if_pos c1] at unf
          exact Or.inr (Or.inr (single _ (by rw [c1]) (by rw [c1]; decide) unf))
        rw [if_neg c1] at unf
        by_cases c2 : c = '+'
        · rw [if_pos c2] at unf
          exact Or.inr (Or.inr (single _ (by rw [c2]) (by rw [c2]; decide) unf))
        rw [if_neg c2] at unf
        by_cases c3 : c = '-'
        · rw [if_pos c3] at unf
          exact Or.inr (Or.inr (single _ (by rw [c3]) (by rw [c3]; decide) unf))
        rw [if_neg c3] at unf
        by_cases c4 : c = '*'
        · rw [if_pos c4] at unf
          exact Or.inr (Or.inr (single _ (by rw [c4]) (by rw [c4]; decide) unf))
        rw [if_neg c4] at unf
        by_cases c5 : c = '('
        · rw [if_pos c5] at unf
          exact Or.inr (Or.inr (single _ (by rw [c5]) (by rw [c5]; decide) unf))
        rw [if_neg c5] at unf
        by_cases c6 : c = ')'
        · rw [if_pos c6] at unf
          exact Or.inr (Or.inr (single _ (by rw [c6]) (by rw [c6]; decide) unf))
        rw [if_neg c6] at unf
        by_cases c7 : c = ';'
        · rw [if_pos c7] at unf
          exact Or.inr (Or.inr (single _ (by rw [c7]) (by rw [c7]; decide) unf))
        rw [if_neg c7] at unf
        by_cases c8 : isspace c = true
        · rw [if_pos c8] at unf
          exact Or.inr (Or.inl ⟨_, c8, unf⟩)
        rw [if_neg c8] at unf
        exact Or.inl ⟨_, _, unf⟩

theorem lex_lexemes : ∀ (k : Nat) (rest : List Char), rest.length ≤ k →
    ∀ (i : Nat) (toks out : List Token), lex rest i toks = .ok out →
      ∃ body, out = toks ++ body ++ [⟨.END, "$"⟩] ∧
        (body.map (fun t => t.lexeme.data)).flatten = rest.filter (fun c => !isspace c) ∧
        ∀ t ∈ body, t.lexeme.data ≠ [] := by
  intro k
  induction k with
  | zero =>
    intro rest hk i toks out h
    have : rest = [] := List.length_eq_zero.mp (by omega)
    subst this
    rw [lex_nil] at h
    injection h with h
    exact ⟨[], by simp [h], by simp, by simp⟩
  | succ k ih =>
    intro rest hk i toks out h
    cases rest with
    | nil =>
      rw [lex_nil] at h
      injection h with h
      exact ⟨[], by simp [h], by simp, by simp⟩
    | cons c r =>
      have hr : r.length ≤ k := by simpa using hk
      rcases lex_step c r i toks with ⟨e, j, he⟩ | ⟨i', hsp, hl⟩ |
        ⟨tk, cs, r', i', hsplit, hlex, hne, hns, hlen, hl⟩
      · rw [he] at h; exact LexResult.noConfusion h
      · rw [hl] at h
        obtain ⟨body, hb, hj, hall⟩ := ih r hr i' toks out h
        refine ⟨body, hb, ?_, hall⟩
        rw [hj, List.filter_cons_of_neg (by simp [hsp])]
      · rw [hl] at h
        obtain ⟨body, hb, hj, hall⟩ := ih r' (le_trans hlen hr) i' _ out h
        refine ⟨tk :: body, by simp [hb], ?_, ?_⟩
        · rw [hsplit, List.filter_append, List.map_cons, List.flatten_cons, hj, hlex]
          congr 1
          symm
          rw [List.filter_eq_self]
          intro d hd
          simp [hns d hd]
        · intro t ht
          rcases List.mem_cons.mp ht with e | e
          · rw [e, hlex]; exact hne
          · exact hall t e

/-- C19. Lexing loses nothing but white space: for every source string on
which `tokenize` succeeds, the lexemes of all tokens except the final `END`,
concatenated in order, are exactly the string with every white-space
character removed, and each of these lexemes is non-empty. -/
theorem C19_lexemes_are_the_source (str : List Char) (tokens : List Token)
    (h : Tokenizer.tokenize str = .ok tokens) :
    (tokens.dropLast.map (fun t => t.lexeme.data)).flatten
        = str.filter (fun c => !isspace c) ∧
      (∀ t ∈ tokens.dropLast, t.lexeme.data ≠ [] ∧ t.lexeme ≠ "") ∧
      tokens.getLast? = some ⟨.END, "$"⟩ := by
  rw [tokenize_eq_lex] at h
  obtain ⟨body, hb, hj, hall⟩ := lex_lexemes str.length str (le_refl _) 0 [] tokens h
  simp only [List.nil_append] at hb
  rw [hb, List.dropLast_concat]
  refine ⟨hj, ?_, by simp⟩
  intro t ht
  refine ⟨hall t ht, ?_⟩
  intro he
  exact hall t ht (by rw [he])

/-- An instance of C19: the lexemes of `x1 = 20 * (y + 3);` spell
`x1=20*(y+3);`. -/
theorem C19_witness :
    (([⟨.IDENTIFIER, "x1"⟩, ⟨.OPERATOR, "="⟩, ⟨.INT_LITERAL, "20"⟩, ⟨.OPERATOR, "*"⟩,
        ⟨.LEFT_PARENTHESIS, "("⟩, ⟨.IDENTIFIER, "y"⟩, ⟨.OPERATOR, "+"⟩, ⟨.INT_LITERAL, "3"⟩,
        ⟨.RIGHT_PARENTHESIS, ")"⟩, ⟨.PUNCTUATION, ";"⟩, ⟨.END, "$"⟩] : List Token).dropLast.map
          (fun t => t.lexeme.data)).flatten
        = "x1 = 20 * (y + 3);".data.filter (fun c => !isspace c) ∧
      (∀ t ∈ ([⟨.IDENTIFIER, "x1"⟩, ⟨.OPERATOR, "="⟩, ⟨.INT_LITERAL, "20"⟩, ⟨.OPERATOR, "*"⟩,
        ⟨.LEFT_PARENTHESIS, "("⟩, ⟨.IDENTIFIER, "y"⟩, ⟨.OPERATOR, "+"⟩, ⟨.INT_LITERAL, "3"⟩,
        ⟨.RIGHT_PARENTHESIS, ")"⟩, ⟨.PUNCTUATION, ";"⟩, ⟨.END, "$"⟩] : List Token).dropLast,
          t.lexeme.data ≠ [] ∧ t.lexeme ≠ "") ∧
      ([⟨.IDENTIFIER, "x1"⟩, ⟨.OPERATOR, "="⟩, ⟨.INT_LITERAL, "20"⟩, ⟨.OPERATOR, "*"⟩,
        ⟨.LEFT_PARENTHESIS, "("⟩, ⟨.IDENTIFIER, "y"⟩, ⟨.OPERATOR, "+"⟩, ⟨.INT_LITERAL, "3"⟩,
        ⟨.RIGHT_PARENTHESIS, ")"⟩, ⟨.PUNCTUATION, ";"⟩, ⟨.END, "$"⟩] : List Token).getLast?
        = some ⟨.END, "$"⟩ :=
  C19_lexemes_are_the_source "x1 = 20 * (y + 3);".data _ (by decide)

end Interp

namespace Interp

/-! ### The parser follows the grammar -/

theorem slice_refl (tokens : List Token) (i : Nat) : slice tokens i i = [] := by
  simp [slice]

theorem slice_append (tokens : List Token) {i k j : Nat} (h1 : i ≤ k) (h2 : k ≤ j) :
    slice tokens i k ++ slice tokens k j = slice tokens i j := by
  unfold slice
  have e : j - i = (k - i) + (j - k) := by omega
  rw [e, List.take_add, List.drop_drop]
  congr 3
  omega

theorem slice_cons (tokens : List Token) {i j : Nat} {t : Token} (ht : tokens[i]? = some t)
    (h : i < j) : slice tokens i j = t :: slice tokens (i + 1) j := by
  unfold slice
  rw [drop_eq_cons_of_getElem?_tok tokens i t ht]
  have e : j - i = (j - (i + 1)) + 1 := by omega
  rw [e, List.take_succ_cons]

theorem slice_one (tokens : List Token) {i : Nat} {t : Token} (ht : tokens[i]? = some t) :
    slice tokens i (i + 1) = [t] := by
  rw [slice_cons tokens ht (Nat.lt_succ_self i), slice_refl]

theorem slice_snoc (tokens : List Token) {i j : Nat} {t : Token} (h : i ≤ j)
    (ht : tokens[j]? = some t) : slice tokens i (j + 1) = slice tokens i j ++ [t] := by
  rw [← slice_append tokens h (Nat.le_succ j), slice_one tokens ht]

theorem grammarFacts (tokens : List Token) (tab : SymTab) :
    ∀ n, GrammarFacts tokens tab n := by
  intro n
  induction n with
  | zero =>
    refine ⟨?_, ?_, ?_, ?_, ?_⟩
    · intro i v j h; rw [Parser.exp] at h; exact Eval.noConfusion h
    · intro acc i v j h; rw [Parser.expPrime] at h; exact Eval.noConfusion h
    · intro i v j h; rw [Parser.term] at h; exact Eval.noConfusion h
    · intro acc i v j h; rw [Parser.termPrime] at h; exact Eval.noConfusion h
    · intro i v j h; rw [Parser.fact] at h; exact Eval.noConfusion h
  | succ n ih =>
    obtain ⟨ihE, ihEP, ihT, ihTP, ihF⟩ := ih
    obtain ⟨pE, pEP, pT, pTP, pF⟩ := progressFacts tokens tab n
    refine ⟨?_, ?_, ?_, ?_, ?_⟩
    · intro i v j h
      obtain ⟨w, k, h1, h2⟩ := exp_val_inv tokens tab h
      rw [← slice_append tokens (le_of_lt (pT _ _ _ h1)) (pEP _ _ _ _ h2)]
      exact Derives.exp (ihT _ _ _ h1) (ihEP _ _ _ _ h2)
    · intro acc i v j h
      obtain ⟨tok, ht, hc⟩ := expPrime_val_inv tokens tab h
      rcases hc with ⟨hl, w, k, h1, h2⟩ | ⟨hl, w, k, h1, h2⟩ | ⟨_, _, _, hj⟩
      · have a1 := pT _ _ _ h1
        have a2 := pEP _ _ _ _ h2
        rw [slice_cons tokens ht (by omega), ← slice_append tokens (le_of_lt a1) a2]
        exact Derives.expPrime_plus hl (ihT _ _ _ h1) (ihEP _ _ _ _ h2)
      · have a1 := pT _ _ _ h1
        have a2 := pEP _ _ _ _ h2
        rw [slice_cons tokens ht (by omega), ← slice_append tokens (le_of_lt a1) a2]
        exact Derives.expPrime_minus hl (ihT _ _ _ h1) (ihEP _ _ _ _ h2)
      · rw [hj, slice_refl]
        exact Derives.expPrime_nil
    · intro i v j h
      obtain ⟨w, k, h1, h2⟩ := term_val_inv tokens tab h
      rw [← slice_append tokens (le_of_lt (pF _ _ _ h1)) (pTP _ _ _ _ h2)]
      exact Derives.term (ihF _ _ _ h1) (ihTP _ _ _ _ h2)
    · intro acc i v j h
      obtain ⟨tok, ht, hc⟩ := termPrime_val_inv tokens tab h
      rcases hc with ⟨hl, w, k, h1, h2⟩ | ⟨_, _, hj⟩
      · have a1 := pF _ _ _ h1
        have a2 := pTP _ _ _ _ h2
        rw [slice_cons tokens ht (by omega), ← slice_append tokens (le_of_lt a1) a2]
        exact Derives.termPrime_star hl (ihF _ _ _ h1) (ihTP _ _ _ _ h2)
      · rw [hj, slice_refl]
        exact Derives.termPrime_nil
    · intro i v j h
      obtain ⟨tok, ht, hc⟩ := fact_val_inv tokens tab h
      rcases hc with ⟨hl, k, close, h1, hk, hcl, hj⟩ | ⟨hl, h1⟩ | ⟨hl, w, h1, _⟩ |
        ⟨hty, _, hj⟩ | ⟨hty, _, hj⟩
      · have a1 := pE _ _ _ h1
        rw [hj, slice_cons tokens ht (by omega), slice_snoc tokens (le_of_lt a1) hk]
        exact Derives.fact_paren hl (ihE _ _ _ h1) hcl
      · have a1 := pE _ _ _ h1
        rw [slice_cons tokens ht (by omega)]
        exact Derives.fact_plus hl (ihE _ _ _ h1)
      · have a1 := pE _ _ _ h1
        rw [slice_cons tokens ht (by omega)]
        exact Derives.fact_minus hl (ihE _ _ _ h1)
      · rw [hj, slice_one tokens ht]
        exact Derives.fact_int hty
      · rw [hj, slice_one tokens ht]
        exact Derives.fact_ident hty

/-- The token after the identifier of a completed assignment is `=`. -/
theorem assignment_done_eq (tokens : List Token) (n : Nat) (s s' : State)
    (h : Parser.assignment tokens n s = .done s') :
    ∃ e, tokens[s.index + 1]? = some e ∧ e.lexeme = "=" := by
  unfold Parser.assignment at h
  cases h0 : tokens[s.index]? with
  | none => rw [h0] at h; exact Run.noConfusion h
  | some x =>
    rw [h0] at h
    simp only at h
    by_cases hx : x.type = .IDENTIFIER
    · simp only [hx, ne_eq, not_true_eq_false, if_false] at h
      cases h1 : tokens[s.index + 1]? with
      | none => rw [h1] at h; exact Run.noConfusion h
      | some e =>
        rw [h1] at h
        simp only at h
        by_cases he : e.lexeme = "="
        · exact ⟨e, rfl, he⟩
        · simp only [he, ne_eq, not_false_eq_true, if_true] at h
          exact Run.noConfusion h
    · simp only [hx, ne_eq, not_false_eq_true, if_true] at h
      exact Run.noConfusion h

theorem assignment_derives (tokens : List Token) (n : Nat) (s s' : State)
    (h : Parser.assignment tokens n s = .done s') :
    s.index ≤ s'.index ∧ Derives .assignment (slice tokens s.index s'.index) := by
  obtain ⟨e, h1, he⟩ := assignment_done_eq tokens n s s' h
  obtain ⟨x, v, j, h0, hx, hexp, ⟨semi, hj, hsl⟩, rfl⟩ := assignment_done_inv tokens n s s' h
  have hp := (progressFacts tokens s.symbol_table n).1 _ _ _ hexp
  have hd := (grammarFacts tokens s.symbol_table n).1 _ _ _ hexp
  refine ⟨by simp only; omega, ?_⟩
  simp only
  rw [slice_cons tokens h0 (by omega), slice_cons tokens h1 (by omega),
    slice_snoc tokens (le_of_lt hp) hj]
  exact Derives.assignment hx he hd hsl

theorem program_derives (tokens : List Token) :
    ∀ (n : Nat) (s s' : State), Parser.program tokens n s = .done s' →
      s.index ≤ s'.index ∧ Derives .program (slice tokens s.index s'.index) := by
  intro n
  induction n with
  | zero => intro s s' h; rw [Parser.program] at h; exact Run.noConfusion h
  | succ n ih =>
    intro s s' h
    rw [Parser.program] at h
    cases ht : tokens[s.index]? with
    | none => rw [ht] at h; exact Run.noConfusion h
    | some tok =>
      rw [ht] at h
      simp only at h
      by_cases he : tok.type = .END
      · simp only [if_pos he] at h
        injection h with h
        subst h
        rw [slice_refl]
        exact ⟨le_refl _, Derives.program_nil⟩
      · simp only [if_neg he] at h
        cases ha : Parser.assignment tokens n s with
        | done s1 =>
          rw [ha] at h
          obtain ⟨a1, a2⟩ := assignment_derives tokens n s s1 ha
          obtain ⟨b1, b2⟩ := ih s1 s' h
          refine ⟨le_trans a1 b1, ?_⟩
          rw [← slice_append tokens a1 b1]
          exact Derives.program_cons a2 b2
        | failed e s1 => rw [ha] at h; exact Run.noConfusion h
        | fuel => rw [ha] at h; exact Run.noConfusion h

/-- C15. The parser accepts only grammatical programs: for every token vector
produced by the tokenizer, if the run completes without error then the tokens
before `END` are derivable from `program` in the grammar of section 4.2;
equivalently, when they are not derivable the run stops with an error.  The
expression routines, on any token vector, return a value only over tokens
derivable from their nonterminal. -/
theorem C15_accepts_only_grammatical (source : String) (tokens : List Token)
    (ht : Tokenizer.tokenize source.data = .ok tokens) :
    ((interpret source).status = .success → Derives .program tokens.dropLast) ∧
    (¬ Derives .program tokens.dropLast →
      ∃ e index, (interpret source).status = .parseError e index) ∧
    (∀ (tab : SymTab) (n : Nat), GrammarFacts tokens tab n) := by
  have hrun : ∀ s, Parser.run tokens [] = .done s → Derives .program tokens.dropLast := by
    intro s hs
    obtain ⟨_, hd⟩ := program_derives tokens _ _ s hs
    obtain ⟨tok, htok, hend⟩ := program_done_on_end tokens _ _ s hs
    have hlen := (tokenize_shape source.data tokens ht).2 _ _ htok hend
    have e : slice tokens 0 s.index = tokens.dropLast := by
      unfold slice
      rw [List.dropLast_eq_take, List.drop_zero]
      congr 1
      omega
    simp only at hd
    rw [e] at hd
    exact hd
  refine ⟨?_, ?_, fun tab n => grammarFacts tokens tab n⟩
  · intro hs
    obtain ⟨tokens', s, ht', hr, _⟩ := interpret_success_inv source hs
    rw [ht] at ht'
    injection ht' with ht'
    subst ht'
    exact hrun s hr
  · intro hnd
    unfold interpret interpretFrom
    rw [ht]
    simp only
    cases hr : Parser.run tokens [] with
    | done s => exact absurd (hrun s hr) hnd
    | failed e s => exact ⟨e, s.index, rfl⟩
    | fuel => exact absurd hr (run_ne_fuel tokens [])

/-- An instance of C15: the run of `x = 2 + 3 * 4;` completes, and its tokens
before `END` are derivable from `program`. -/
theorem C15_witness :
    Derives .program [⟨.IDENTIFIER, "x"⟩, ⟨.OPERATOR, "="⟩, ⟨.INT_LITERAL, "2"⟩,
      ⟨.OPERATOR, "+"⟩, ⟨.INT_LITERAL, "3"⟩, ⟨.OPERATOR, "*"⟩, ⟨.INT_LITERAL, "4"⟩,
      ⟨.PUNCTUATION, ";"⟩] :=
  (C15_accepts_only_grammatical "x = 2 + 3 * 4;"
    [⟨.IDENTIFIER, "x"⟩, ⟨.OPERATOR, "="⟩, ⟨.INT_LITERAL, "2"⟩, ⟨.OPERATOR, "+"⟩,
      ⟨.INT_LITERAL, "3"⟩, ⟨.OPERATOR, "*"⟩, ⟨.INT_LITERAL, "4"⟩, ⟨.PUNCTUATION, ";"⟩,
      ⟨.END, "$"⟩] (by decide)).1 (by decide)

end Interp

namespace Interp

/-! ### Chains of operators -/

theorem chainText_data (rest : List (Op × String)) : (chainText rest).data = chainChars rest := by
  induction rest with
  | nil => rfl
  | cons p rest ih =>
    obtain ⟨o, a⟩ := p
    simp only [chainText, chainChars, String.data_append, ih]
    cases o <;> rfl

theorem chainTokens_length (rest : List (Op × String)) :
    (chainTokens rest).length = 2 * rest.length := by
  induction rest with
  | nil => rfl
  | cons p rest ih => simp only [chainTokens, List.length_cons, ih]; omega

theorem lex_op (o : Op) (r : List Char) (i : Nat) (toks : List Token) :
    lex (o.char :: r) i toks = lex r (i + 1) (toks ++ [⟨.OPERATOR, o.lexeme⟩]) := by
  cases o
  · exact lex_plus r i toks
  · exact lex_minus r i toks
  · exact lex_star r i toks

theorem chainChars_head (rest : List (Op × String)) (tail : List Char)
    (h : ∀ r ∈ tail.head?, isdigit r = false) :
    ∀ r ∈ (chainChars rest ++ tail).head?, isdigit r = false := by
  cases rest with
  | nil => simpa [chainChars] using h
  | cons p rest =>
    intro r hr
    simp [chainChars] at hr
    rw [← hr]; decide

theorem lex_chain : ∀ (rest : List (Op × String)), (∀ p ∈ rest, IsIntLiteral p.2 = true) →
    ∀ (tail : List Char), (∀ r ∈ tail.head?, isdigit r = false) →
    ∀ (i : Nat) (toks : List Token),
      ∃ i', lex (chainChars rest ++ tail) i toks = lex tail i' (toks ++ chainTokens rest) := by
  intro rest
  induction rest with
  | nil =>
    intro _ tail _ i toks
    exact ⟨i, by simp [chainChars, chainTokens]⟩
  | cons p rest ih =>
    intro hlit tail htail i toks
    obtain ⟨o, a⟩ := p
    have ha : IsIntLiteral a = true := hlit (o, a) (by simp)
    obtain ⟨i', hi'⟩ := ih (fun p hp => hlit p (List.mem_cons_of_mem _ hp)) tail htail
      (i + 1 + 1 + 1 + a.data.length) (toks ++ [⟨.OPERATOR, o.lexeme⟩] ++ [⟨.INT_LITERAL, a⟩])
    refine ⟨i', ?_⟩
    simp only [chainChars, List.cons_append, List.append_assoc]
    rw [lex_space, lex_op, lex_space,
      lex_intLiteral a ha _ (chainChars_head rest tail htail), hi']
    simp [chainTokens]

theorem tokens_chain (x a1 : String) (rest : List (Op × String)) (hx : IsIdentifier x = true)
    (ha : IsIntLiteral a1 = true) (hlit : ∀ p ∈ rest, IsIntLiteral p.2 = true) :
    Tokenizer.tokenize (chainSource x a1 rest).data
      = .ok (⟨.IDENTIFIER, x⟩ :: ⟨.OPERATOR, "="⟩ :: ⟨.INT_LITERAL, a1⟩ ::
          (chainTokens rest ++ [⟨.PUNCTUATION, ";"⟩, ⟨.END, "$"⟩])) := by
  rw [tokenize_eq_lex]
  simp only [chainSource, String.data_append, List.append_assoc, chainText_data]
  simp only [List.cons_append, List.nil_append]
  obtain ⟨i', hi'⟩ := lex_chain rest hlit ";".data (by decide)
    (0 + x.data.length + 1 + 1 + 1 + a1.data.length)
    ([] ++ [⟨.IDENTIFIER, x⟩] ++ [⟨.OPERATOR, "="⟩] ++ [⟨.INT_LITERAL, a1⟩])
  rw [lex_identifier x hx _ (head_nonid _ _ (by decide)), lex_space, lex_eq, lex_space,
    lex_intLiteral a1 ha _ (chainChars_head rest _ (by decide)), hi']
  have : ";".data = [';'] := rfl
  rw [this, lex_semi, lex_nil]
  simp

end Interp

namespace Interp

theorem drop_cons_info {tokens l : List Token} {p : Nat} {a : Token}
    (h : tokens.drop p = a :: l) : tokens[p]? = some a ∧ tokens.drop (p + 1) = l := by
  have hlt : p < tokens.length := by
    by_contra hn
    rw [List.drop_of_length_le (by omega)] at h
    exact List.noConfusion h
  rw [List.drop_eq_getElem_cons hlt] at h
  injection h with h1 h2
  exact ⟨by rw [List.getElem?_eq_getElem hlt, h1], h2⟩

theorem partials_head {acc : Int} {rest : List (Op × String)} (h : PartialsInRange acc rest) :
    InInt32 acc := by
  cases rest with
  | nil => exact h
  | cons p rest => exact h.1

theorem op_lexeme_ne_star {o : Op} (h : o ≠ .times) : o.lexeme ≠ "*" := by
  cases o
  · decide
  · decide
  · exact absurd rfl h

/-- The token that follows a literal of a chain of `+` and `-` is not `*`. -/
theorem chain_next_not_star (rest : List (Op × String)) (stop : Token) (tail : List Token)
    (hops : ∀ q ∈ rest, q.1 ≠ .times) (hstop : stop.lexeme ≠ "*") :
    ∃ t l, chainTokens rest ++ stop :: tail = t :: l ∧ t.lexeme ≠ "*" := by
  cases rest with
  | nil => exact ⟨stop, tail, rfl, hstop⟩
  | cons q rest =>
    exact ⟨_, _, rfl, op_lexeme_ne_star (hops q (by simp))⟩

/-- The loop of `expPrime` over a chain of `+` and `-`: the accumulated value
is the left fold. -/
theorem expPrime_chain (tokens : List Token) (tab : SymTab) (stop : Token)
    (tail : List Token) (hs1 : stop.lexeme ≠ "+") (hs2 : stop.lexeme ≠ "-")
    (hs3 : stop.lexeme ≠ "*") :
    ∀ (rest : List (Op × String)) (acc : Int) (p : Nat),
      tokens.drop p = chainTokens rest ++ stop :: tail →
      (∀ q ∈ rest, q.1 ≠ .times ∧ IsIntLiteral q.2 = true ∧ litValue q.2 ≤ 2147483647) →
      PartialsInRange acc rest →
      Parser.expPrime tokens tab (rest.length + 3) acc p
        = .val (leftFold acc rest) (p + 2 * rest.length) := by
  intro rest
  induction rest with
  | nil =>
    intro acc p hd _ _
    obtain ⟨hp, _⟩ := drop_cons_info hd
    exact expPrime_stop tokens tab 2 p acc hp hs1 hs2
  | cons q rest ih =>
    intro acc p hd hq hr
    obtain ⟨o, a⟩ := q
    obtain ⟨ho, ha, hav⟩ := hq (o, a) (by simp)
    simp only [chainTokens, List.cons_append] at hd
    obtain ⟨hp0, hd1⟩ := drop_cons_info hd
    obtain ⟨hp1, hd2⟩ := drop_cons_info hd1
    obtain ⟨t, l, hnext, hns⟩ := chain_next_not_star rest stop tail
      (fun q hq' => (hq q (List.mem_cons_of_mem _ hq')).1) hs3
    rw [hnext] at hd2
    obtain ⟨hp2, _⟩ := drop_cons_info hd2
    rw [← hnext] at hd2
    have hterm : Parser.term tokens tab (rest.length + 3) (p + 1) = .val (litValue a) (p + 2) := by
      rw [term_step tokens tab (rest.length + 2) (p + 1)
        (fact_intLiteral tokens tab (rest.length + 1) (p + 1) hp1 ha hav)]
      exact termPrime_stop tokens tab (rest.length + 1) (p + 2) _ hp2 hns
    have hin : InInt32 (o.apply acc (litValue a)) := partials_head hr.2
    have hih := ih (o.apply acc (litValue a)) (p + 2) hd2
      (fun q hq' => hq q (List.mem_cons_of_mem _ hq')) hr.2
    have hfold : leftFold acc ((o, a) :: rest) = leftFold (o.apply acc (litValue a)) rest := rfl
    have hidx : p + 2 * ((o, a) :: rest).length = p + 2 + 2 * rest.length := by
      simp only [List.length_cons]; omega
    rw [hfold, hidx]
    cases o with
    | plus =>
      have := expPrime_plus tokens tab (rest.length + 3) p acc hp0 rfl hterm
      rw [show wrap (acc + (litValue a : Int)) = Op.plus.apply acc (litValue a) from
        wrap_of_inInt32 hin, hih] at this
      exact this
    | minus =>
      have := expPrime_minus tokens tab (rest.length + 3) p acc hp0 rfl hterm
      rw [show wrap (acc - (litValue a : Int)) = Op.minus.apply acc (litValue a) from
        wrap_of_inInt32 hin, hih] at this
      exact this
    | times => exact absurd rfl ho

/-- The loop of `termPrime` over a chain of `*`: the accumulated value is the
left fold. -/
theorem termPrime_chain (tokens : List Token) (tab : SymTab) (stop : Token)
    (tail : List Token) (hs3 : stop.lexeme ≠ "*") :
    ∀ (rest : List (Op × String)) (acc : Int) (p : Nat),
      tokens.drop p = chainTokens rest ++ stop :: tail →
      (∀ q ∈ rest, q.1 = .times ∧ IsIntLiteral q.2 = true ∧ litValue q.2 ≤ 2147483647) →
      PartialsInRange acc rest →
      Parser.termPrime tokens tab (rest.length + 2) acc p
        = .val (leftFold acc rest) (p + 2 * rest.length) := by
  intro rest
  induction rest with
  | nil =>
    intro acc p hd _ _
    obtain ⟨hp, _⟩ := drop_cons_info hd
    exact termPrime_stop tokens tab 1 p acc hp hs3
  | cons q rest ih =>
    intro acc p hd hq hr
    obtain ⟨o, a⟩ := q
    obtain ⟨ho, ha, hav⟩ := hq (o, a) (by simp)
    simp only at ho
    subst ho
    simp only [chainTokens, List.cons_append] at hd
    obtain ⟨hp0, hd1⟩ := drop_cons_info hd
    obtain ⟨hp1, hd2⟩ := drop_cons_info hd1
    have hfact : Parser.fact tokens tab (rest.length + 2) (p + 1)
        = .val (litValue a) (p + 2) :=
      fact_intLiteral tokens tab (rest.length + 1) (p + 1) hp1 ha hav
    have hin : InInt32 (Op.times.apply acc (litValue a)) := partials_head hr.2
    have hih := ih (Op.times.apply acc (litValue a)) (p + 2) hd2
      (fun q hq' => hq q (List.mem_cons_of_mem _ hq')) hr.2
    have hfold : leftFold acc ((Op.times, a) :: rest)
        = leftFold (Op.times.apply acc (litValue a)) rest := rfl
    have hidx : p + 2 * ((Op.times, a) :: rest).length = p + 2 + 2 * rest.length := by
      simp only [List.length_cons]; omega
    rw [hfold, hidx]
    have := termPrime_star tokens tab (rest.length + 2) p acc hp0 rfl hfact
    rw [show wrap (acc * (litValue a : Int)) = Op.times.apply acc (litValue a) from
      wrap_of_inInt32 hin, hih] at this
    exact this

end Interp

namespace Interp

/-- The run of `x = <chain>;` once the value of the chain is known. -/
theorem run_chain_of_exp (x a1 : String) (rest : List (Op × String)) (tab : SymTab)
    (v : Int) (n0 : Nat) (hn0 : n0 ≤ 6 * rest.length + 17)
    (hexp : Parser.exp (⟨.IDENTIFIER, x⟩ :: ⟨.OPERATOR, "="⟩ :: ⟨.INT_LITERAL, a1⟩ ::
        (chainTokens rest ++ [⟨.PUNCTUATION, ";"⟩, ⟨.END, "$"⟩])) tab n0 2
      = .val v (3 + 2 * rest.length)) :
    Parser.run (⟨.IDENTIFIER, x⟩ :: ⟨.OPERATOR, "="⟩ :: ⟨.INT_LITERAL, a1⟩ ::
        (chainTokens rest ++ [⟨.PUNCTUATION, ";"⟩, ⟨.END, "$"⟩])) tab
      = .done ⟨3 + 2 * rest.length + 1, tab.set x v, [⟨x, v⟩]⟩ := by
  generalize htoks : (⟨.IDENTIFIER, x⟩ :: ⟨.OPERATOR, "="⟩ :: ⟨.INT_LITERAL, a1⟩ ::
        (chainTokens rest ++ [⟨.PUNCTUATION, ";"⟩, ⟨.END, "$"⟩]) : List Token) = toks at hexp ⊢
  have t0 : toks[0]? = some ⟨.IDENTIFIER, x⟩ := by rw [← htoks]; rfl
  have t1 : toks[1]? = some ⟨.OPERATOR, "="⟩ := by rw [← htoks]; rfl
  have hd3 : toks.drop 3 = chainTokens rest ++ [⟨.PUNCTUATION, ";"⟩, ⟨.END, "$"⟩] := by
    rw [← htoks]; rfl
  have hdend : toks.drop (3 + 2 * rest.length) = [⟨.PUNCTUATION, ";"⟩, ⟨.END, "$"⟩] := by
    rw [← List.drop_drop, hd3, ← chainTokens_length, List.drop_left]
  obtain ⟨tsemi, hdend1⟩ := drop_cons_info hdend
  obtain ⟨tend, _⟩ := drop_cons_info hdend1
  have hlen : Parser.fuelFor toks = (6 * rest.length + 17) + 1 := by
    rw [← htoks]
    simp only [Parser.fuelFor, List.length_cons, List.length_append, chainTokens_length,
      List.length_nil]
    omega
  have e2 := exp_mono toks tab hexp (by simp) (6 * rest.length + 17) hn0
  have as := assignment_done toks (6 * rest.length + 17) ⟨0, tab, []⟩ t0 t1 rfl e2 tsemi rfl
  have hfuel : 6 * rest.length + 17 = (6 * rest.length + 16) + 1 := rfl
  rw [Parser.run, hlen, program_step toks (6 * rest.length + 17) ⟨0, tab, []⟩ t0 (by simp) as,
    hfuel]
  exact program_end toks (6 * rest.length + 16) _ tend rfl

theorem run_add_chain (x a1 : String) (rest : List (Op × String)) (tab : SymTab)
    (ha : IsIntLiteral a1 = true) (hav : litValue a1 ≤ 2147483647)
    (hq : ∀ q ∈ rest, q.1 ≠ .times ∧ IsIntLiteral q.2 = true ∧ litValue q.2 ≤ 2147483647)
    (hr : PartialsInRange (litValue a1) rest) :
    Parser.run (⟨.IDENTIFIER, x⟩ :: ⟨.OPERATOR, "="⟩ :: ⟨.INT_LITERAL, a1⟩ ::
        (chainTokens rest ++ [⟨.PUNCTUATION, ";"⟩, ⟨.END, "$"⟩])) tab
      = .done ⟨3 + 2 * rest.length + 1, tab.set x (leftFold (litValue a1) rest),
          [⟨x, leftFold (litValue a1) rest⟩]⟩ := by
  apply run_chain_of_exp x a1 rest tab _ (rest.length + 5) (by omega)
  generalize htoks : (⟨.IDENTIFIER, x⟩ :: ⟨.OPERATOR, "="⟩ :: ⟨.INT_LITERAL, a1⟩ ::
        (chainTokens rest ++ [⟨.PUNCTUATION, ";"⟩, ⟨.END, "$"⟩]) : List Token) = toks
  have t2 : toks[2]? = some ⟨.INT_LITERAL, a1⟩ := by rw [← htoks]; simp
  have hd3 : toks.drop 3 = chainTokens rest ++ ⟨.PUNCTUATION, ";"⟩ :: [⟨.END, "$"⟩] := by
    rw [← htoks]; rfl
  obtain ⟨t, l, hnext, hns⟩ := chain_next_not_star rest ⟨.PUNCTUATION, ";"⟩ [⟨.END, "$"⟩]
    (fun q hq' => (hq q hq').1) (by decide)
  have hd3' := hd3
  rw [hnext] at hd3'
  obtain ⟨t3, _⟩ := drop_cons_info hd3'
  have hterm : Parser.term toks tab (rest.length + 4) 2 = .val (litValue a1) 3 := by
    rw [term_step toks tab (rest.length + 3) 2
      (fact_intLiteral toks tab (rest.length + 2) 2 t2 ha hav)]
    exact termPrime_stop toks tab (rest.length + 2) 3 _ t3 hns
  have hchain := expPrime_chain toks tab ⟨.PUNCTUATION, ";"⟩ [⟨.END, "$"⟩] (by decide)
    (by decide) (by decide) rest (litValue a1) 3 hd3 hq hr
  rw [exp_step toks tab (rest.length + 4) 2 hterm]
  exact expPrime_mono toks tab hchain (by simp) (rest.length + 4) (by omega)

theorem run_mul_chain (x a1 : String) (rest : List (Op × String)) (tab : SymTab)
    (ha : IsIntLiteral a1 = true) (hav : litValue a1 ≤ 2147483647)
    (hq : ∀ q ∈ rest, q.1 = .times ∧ IsIntLiteral q.2 = true ∧ litValue q.2 ≤ 2147483647)
    (hr : PartialsInRange (litValue a1) rest) :
    Parser.run (⟨.IDENTIFIER, x⟩ :: ⟨.OPERATOR, "="⟩ :: ⟨.INT_LITERAL, a1⟩ ::
        (chainTokens rest ++ [⟨.PUNCTUATION, ";"⟩, ⟨.END, "$"⟩])) tab
      = .done ⟨3 + 2 * rest.length + 1, tab.set x (leftFold (litValue a1) rest),
          [⟨x, leftFold (litValue a1) rest⟩]⟩ := by
  apply run_chain_of_exp x a1 rest tab _ (rest.length + 4) (by omega)
  generalize htoks : (⟨.IDENTIFIER, x⟩ :: ⟨.OPERATOR, "="⟩ :: ⟨.INT_LITERAL, a1⟩ ::
        (chainTokens rest ++ [⟨.PUNCTUATION, ";"⟩, ⟨.END, "$"⟩]) : List Token) = toks
  have t2 : toks[2]? = some ⟨.INT_LITERAL, a1⟩ := by rw [← htoks]; simp
  have hd3 : toks.drop 3 = chainTokens rest ++ ⟨.PUNCTUATION, ";"⟩ :: [⟨.END, "$"⟩] := by
    rw [← htoks]; rfl
  have hdend : toks.drop (3 + 2 * rest.length) = [⟨.PUNCTUATION, ";"⟩, ⟨.END, "$"⟩] := by
    rw [← List.drop_drop, hd3, ← chainTokens_length, List.drop_left]
  obtain ⟨tsemi, _⟩ := drop_cons_info hdend
  have hchain := termPrime_chain toks tab ⟨.PUNCTUATION, ";"⟩ [⟨.END, "$"⟩] (by decide)
    rest (litValue a1) 3 hd3 hq hr
  have hterm : Parser.term toks tab (rest.length + 3) 2
      = .val (leftFold (litValue a1) rest) (3 + 2 * rest.length) := by
    rw [term_step toks tab (rest.length + 2) 2
      (fact_intLiteral toks tab (rest.length + 1) 2 t2 ha hav)]
    exact hchain
  rw [exp_step toks tab (rest.length + 3) 2 hterm]
  exact expPrime_stop toks tab (rest.length + 2) _ _ tsemi (by decide) (by decide)

/-- C16. Left-associative accumulation: for every identifier `x`, integer
literal `a1` and list of further operators and literals `o1 a2 ... an`, the
operators being all `+` or `-`, or all `*`, and all literals and partial
results being in the range of `int`, the program `x = a1 o1 a2 o2 ... an;`
run from the empty symbol table succeeds, stores the left fold
`(((a1 o1 a2) o2 a3) ... an)` under `x` and prints exactly the one line
`x = <that value>`. -/
theorem C16_left_associative (x a1 : String) (rest : List (Op × String))
    (hx : IsIdentifier x = true) (ha : IsIntLiteral a1 = true)
    (hav : litValue a1 ≤ 2147483647)
    (hlit : ∀ q ∈ rest, IsIntLiteral q.2 = true ∧ litValue q.2 ≤ 2147483647)
    (hops : (∀ q ∈ rest, q.1 ≠ .times) ∨ (∀ q ∈ rest, q.1 = .times))
    (hr : PartialsInRange (litValue a1) rest) :
    interpret (chainSource x a1 rest)
        = ⟨.success, [(x, leftFold (litValue a1) rest)], [⟨x, leftFold (litValue a1) rest⟩]⟩ ∧
      (interpret (chainSource x a1 rest)).printed
        = [x ++ " = " ++ toString (leftFold (litValue a1) rest)] := by
  have h : interpret (chainSource x a1 rest)
      = ⟨.success, [(x, leftFold (litValue a1) rest)],
          [⟨x, leftFold (litValue a1) rest⟩]⟩ := by
    rw [interpret, interpretFrom, tokens_chain x a1 rest hx ha (fun q hq => (hlit q hq).1)]
    simp only
    rcases hops with hops | hops
    · rw [run_add_chain x a1 rest [] ha hav
        (fun q hq => ⟨hops q hq, hlit q hq⟩) hr]
      rfl
    · rw [run_mul_chain x a1 rest [] ha hav
        (fun q hq => ⟨hops q hq, hlit q hq⟩) hr]
      rfl
  refine ⟨h, ?_⟩
  rw [h]
  rfl

/-- The instance of C16 given in the claim, `x = 10 - 3 - 2;` prints `x = 5`
(not 9), and a chain of `*`: `x = 2 * 3 * 4;` prints `x = 24`. -/
theorem C16_witness :
    (interpret "x = 10 - 3 - 2;" = ⟨.success, [("x", 5)], [⟨"x", 5⟩]⟩ ∧
      (interpret "x = 10 - 3 - 2;").printed = ["x = 5"]) ∧
    (interpret "x = 2 * 3 * 4;" = ⟨.success, [("x", 24)], [⟨"x", 24⟩]⟩ ∧
      (interpret "x = 2 * 3 * 4;").printed = ["x = 24"]) :=
  ⟨C16_left_associative "x" "10" [(.minus, "3"), (.minus, "2")] (by decide) (by decide)
      (by decide) (by decide) (Or.inl (by decide)) (by decide),
    C16_left_associative "x" "2" [(.times, "3"), (.times, "4")] (by decide) (by decide)
      (by decide) (by decide) (Or.inr (by decide)) (by decide)⟩

end Interp
